import Mathlib

/-!
# Verification of the libyang YANG schema loader against its specification

This development gives a shallow embedding, in Lean 4, of the parts of the
libyang schema loader (`parser_yang.c`, the schema-tree helpers appended to it
from `tree_schema.c`, and the XML data printer `printer_xml.c`) that the
specification talks about, and proves or refutes each specified property
against the embedded code.

Machine integers of the C code are modelled as `Nat` (no overflow is reachable
in the modelled paths), C strings as `List Char` or `String`, pointer
structures as inductive trees or index maps, and fallible C functions as
`Option`/`Except`-returning Lean functions.  Each definition is a direct
translation of the corresponding C function; definitions whose C source is
outside the two files at hand are modelled from the specification and marked
as such in their doc comments.
-/

set_option autoImplicit false

namespace Libyang

/-! ## String reading (`yang_read_string`, `read_indent`)

The C function `yang_read_string` processes the body of a double-quoted YANG
string in two passes over the buffer: the first pass replaces escape
sequences, the second pass handles newlines: it removes the whitespace run
immediately preceding each newline (`out_index -= space`) and, after each
newline, lets `read_indent` consume up to `indent` leading columns (a tab
counting as eight columns, an overshooting tab re-emitted as spaces). -/

/-- First pass of `yang_read_string` (parser_yang.c): replace the escape
sequences `\n`, `\t`, `\\` and `\"`; any other backslash is kept literally.
In the C loop a literal backslash advances the input by one position only and
the following character is reprocessed; since that character is then not a
backslash it is copied verbatim, which the translation does in one step. -/
def unescape : List Char → List Char
  | [] => []
  | c :: rest =>
    if c = '\\' then
      match rest with
      | [] => ['\\']
      | d :: rest2 =>
        if d = 'n' then '\n' :: unescape rest2
        else if d = 't' then '\t' :: unescape rest2
        else if d = '\\' then '\\' :: unescape rest2
        else if d = '"' then '"' :: unescape rest2
        else '\\' :: d :: unescape rest2
    else c :: unescape rest

/-- Whitespace test used by the main copy loop of `yang_read_string`
(the C condition `value[in_index] == ' ' || value[in_index] == '\t'`). -/
def wsb (c : Char) : Bool := c = ' ' || c = '\t'

/-- `read_indent` (parser_yang.c): consume leading spaces and tabs after a
newline, counting columns (`k`, a tab is eight columns), until the consumed
columns reach `indent` or a non-whitespace character appears.  Returns the
remaining input together with the number of residual spaces to emit
(`k - indent` when the consumption overshot `indent`). -/
def read_indent (indent : Nat) : List Char → Nat → List Char × Nat
  | [], _ => ([], 0)
  | c :: rest, k =>
    if c = ' ' then
      if k + 1 ≥ indent then (rest, k + 1 - indent) else read_indent indent rest (k + 1)
    else if c = '\t' then
      if k + 8 ≥ indent then (rest, k + 8 - indent) else read_indent indent rest (k + 8)
    else (c :: rest, 0)

theorem read_indent_length_le (indent : Nat) :
    ∀ (l : List Char) (k : Nat), (read_indent indent l k).1.length ≤ l.length := by
  intro l
  induction l with
  | nil => intro k; simp [read_indent]
  | cons c rest ih =>
    intro k
    simp only [read_indent]
    split
    · split
      · simp
      · exact le_trans (ih (k + 1)) (Nat.le_succ _)
    · split
      · split
        · simp
        · exact le_trans (ih (k + 8)) (Nat.le_succ _)
      · simp

/-- Second pass of `yang_read_string`: the main copying loop.  The output is
accumulated in reverse in `out`; `space` is the C `space` counter (the length
of the whitespace run just written).  On a newline the last `space` characters
are dropped (`out_index -= space`), the newline is written, and `read_indent`
consumes the indentation of the next line, emitting its residual spaces. -/
def yang_read_string_loop (indent : Nat) :
    List Char → List Char → Nat → List Char
  | [], out, _ => out.reverse
  | c :: rest, out, space =>
    if c = '\n' then
      let p := read_indent indent rest 0
      yang_read_string_loop indent p.1
        (List.replicate p.2 ' ' ++ ('\n' :: out.drop space)) 0
    else
      yang_read_string_loop indent rest (c :: out)
        (if wsb c then space + 1 else 0)
  termination_by l _ _ => l.length
  decreasing_by
  · exact Nat.lt_succ_of_le (read_indent_length_le indent rest 0)
  · simp

/-- `yang_read_string` (parser_yang.c): unescape, then run the newline /
indentation loop. -/
def yang_read_string (input : List Char) (indent : Nat) : List Char :=
  yang_read_string_loop indent (unescape input) [] 0

/-! ### Line-structured specification of the second pass

To settle the specification's description of `yang_read_string` we express
the loop's behaviour compositionally: split the unescaped text at newlines,
strip the indentation of every line but the first, and (this is what the
specification does not say) drop the whitespace run immediately preceding
every newline — except that residual indentation spaces re-emitted by
`read_indent` survive even directly before a newline. -/

/-- Remove the trailing run of spaces and tabs of a line. -/
def stripTrailWs (l : List Char) : List Char :=
  (l.reverse.dropWhile wsb).reverse

/-- Length of the trailing run of spaces and tabs of a line (the value the
C `space` counter holds after the line has been copied). -/
def trailWsCount (l : List Char) : Nat :=
  (l.reverse.takeWhile wsb).length

/-- Split a character list at `'\n'` (the result is always non-empty; the
separators are consumed). -/
def lineSplit : List Char → List (List Char)
  | [] => [[]]
  | c :: r =>
    if c = '\n' then [] :: lineSplit r
    else
      match lineSplit r with
      | [] => [[c]]
      | l :: ls => (c :: l) :: ls

/-- Indentation stripping of one line as performed after a newline: remove up
to `indent` leading columns (tab = 8 columns) and re-emit the overshoot as
spaces. -/
def stripLineIndent (indent : Nat) (l : List Char) : List Char :=
  List.replicate (read_indent indent l 0).2 ' ' ++ (read_indent indent l 0).1

/-- Indentation stripping of one line followed by removal of its trailing
whitespace run; the residual indentation spaces are kept (they are emitted by
`read_indent` without being counted by the C `space` counter). -/
def stripLineIndentTrail (indent : Nat) (l : List Char) : List Char :=
  List.replicate (read_indent indent l 0).2 ' ' ++ stripTrailWs (read_indent indent l 0).1

/-- Join the lines after the first one: every line is indentation-stripped;
every line that is followed by another newline additionally loses its
trailing whitespace. -/
def tailJoin (indent : Nat) : List (List Char) → List Char
  | [] => []
  | [l] => stripLineIndent indent l
  | l :: ls => stripLineIndentTrail indent l ++ '\n' :: tailJoin indent ls

/-- Line-structured description of the second pass of `yang_read_string`. -/
def linewiseSpec (indent : Nat) (v : List Char) : List Char :=
  match lineSplit v with
  | [] => []
  | l0 :: ls => if ls = [] then l0 else stripTrailWs l0 ++ '\n' :: tailJoin indent ls

/-- The behaviour of `yang_read_string` as the specification words it
(escape replacement, then indentation stripping of subsequent lines, and
nothing else): no whitespace is removed in front of newlines. -/
def yang_read_string_claimed (input : List Char) (indent : Nat) : List Char :=
  match lineSplit (unescape input) with
  | [] => []
  | l0 :: ls => l0 ++ (ls.map (fun l => '\n' :: stripLineIndent indent l)).flatten

theorem lineSplit_ne_nil (v : List Char) : lineSplit v ≠ [] := by
  cases v with
  | nil => simp [lineSplit]
  | cons c r =>
    simp only [lineSplit]
    split
    · simp
    · split <;> simp

theorem read_indent_nil (indent k : Nat) : read_indent indent [] k = ([], 0) := rfl

theorem read_indent_space (indent : Nat) (rest : List Char) (k : Nat) :
    read_indent indent (' ' :: rest) k =
      if k + 1 ≥ indent then (rest, k + 1 - indent) else read_indent indent rest (k + 1) := by
  simp [read_indent]

theorem read_indent_tab (indent : Nat) (rest : List Char) (k : Nat) :
    read_indent indent ('\t' :: rest) k =
      if k + 8 ≥ indent then (rest, k + 8 - indent) else read_indent indent rest (k + 8) := by
  simp [read_indent]

theorem read_indent_other (indent : Nat) (c : Char) (rest : List Char) (k : Nat)
    (hsp : c ≠ ' ') (htb : c ≠ '\t') :
    read_indent indent (c :: rest) k = (c :: rest, 0) := by
  simp [read_indent, hsp, htb]

theorem lineSplit_nl (r : List Char) : lineSplit ('\n' :: r) = [] :: lineSplit r := by
  simp [lineSplit]

theorem lineSplit_other (c : Char) (r : List Char) (hc : c ≠ '\n')
    (l : List Char) (ls : List (List Char)) (h : lineSplit r = l :: ls) :
    lineSplit (c :: r) = (c :: l) :: ls := by
  simp [lineSplit, hc, h]

theorem trailWsCount_append (cur : List Char) (c : Char) :
    trailWsCount (cur ++ [c]) = if wsb c then trailWsCount cur + 1 else 0 := by
  simp only [trailWsCount, List.reverse_append, List.reverse_singleton, List.singleton_append,
    List.takeWhile_cons]
  split <;> simp_all

theorem drop_trailWsCount (cur base : List Char) :
    (cur.reverse ++ base).drop (trailWsCount cur) = (stripTrailWs cur).reverse ++ base := by
  conv_lhs => rw [← List.takeWhile_append_dropWhile (p := wsb) (l := cur.reverse)]
  rw [List.append_assoc, trailWsCount, List.drop_left, stripTrailWs, List.reverse_reverse]

theorem read_indent_lineSplit (indent : Nat) :
    ∀ (rest : List Char) (k : Nat) (l : List Char) (ls : List (List Char)),
      lineSplit rest = l :: ls →
      lineSplit (read_indent indent rest k).1 = (read_indent indent l k).1 :: ls ∧
      (read_indent indent rest k).2 = (read_indent indent l k).2 := by
  intro rest
  induction rest with
  | nil =>
    intro k l ls h
    simp only [lineSplit] at h
    cases h
    simp [read_indent_nil, lineSplit]
  | cons c r ih =>
    intro k l ls h
    by_cases hc : c = '\n'
    · subst hc
      rw [lineSplit_nl r] at h
      cases h
      rw [read_indent_other indent '\n' r k (by decide) (by decide),
        read_indent_nil]
      exact ⟨lineSplit_nl r, rfl⟩
    · rcases hr : lineSplit r with _ | ⟨l', ls'⟩
      · exact absurd hr (lineSplit_ne_nil r)
      · rw [lineSplit_other c r hc l' ls' hr] at h
        cases h
        by_cases hsp : c = ' '
        · subst hsp
          by_cases hk : k + 1 ≥ indent
          · rw [read_indent_space indent r k, read_indent_space indent l' k,
              if_pos hk, if_pos hk]
            exact ⟨hr, rfl⟩
          · rw [read_indent_space indent r k, read_indent_space indent l' k,
              if_neg hk, if_neg hk]
            exact ih (k + 1) l' ls hr
        · by_cases htb : c = '\t'
          · subst htb
            by_cases hk : k + 8 ≥ indent
            · rw [read_indent_tab indent r k, read_indent_tab indent l' k,
                if_pos hk, if_pos hk]
              exact ⟨hr, rfl⟩
            · rw [read_indent_tab indent r k, read_indent_tab indent l' k,
                if_neg hk, if_neg hk]
              exact ih (k + 8) l' ls hr
          · rw [read_indent_other indent c r k hsp htb,
              read_indent_other indent c l' k hsp htb]
            exact ⟨lineSplit_other c r hc l' ls hr, rfl⟩

/-- Contribution of the remaining input `v` to the final loop output when the
characters `cur` have already been copied since the last newline. -/
def lineGoSpec (indent : Nat) (cur v : List Char) : List Char :=
  match lineSplit v with
  | [] => cur
  | l :: ls =>
    if ls = [] then cur ++ l
    else stripTrailWs (cur ++ l) ++ '\n' :: tailJoin indent ls

theorem loop_nil (indent : Nat) (out : List Char) (space : Nat) :
    yang_read_string_loop indent [] out space = out.reverse := by
  simp [yang_read_string_loop]

theorem loop_nl (indent : Nat) (rest out : List Char) (space : Nat) :
    yang_read_string_loop indent ('\n' :: rest) out space =
      yang_read_string_loop indent (read_indent indent rest 0).1
        (List.replicate (read_indent indent rest 0).2 ' ' ++ ('\n' :: out.drop space)) 0 := by
  simp [yang_read_string_loop]

theorem loop_char (indent : Nat) (c : Char) (rest out : List Char) (space : Nat)
    (hc : c ≠ '\n') :
    yang_read_string_loop indent (c :: rest) out space =
      yang_read_string_loop indent rest (c :: out) (if wsb c then space + 1 else 0) := by
  rw [yang_read_string_loop]
  simp [hc]

theorem lineGoSpec_char (indent : Nat) (cur : List Char) (c : Char) (rest : List Char)
    (hc : c ≠ '\n') :
    lineGoSpec indent cur (c :: rest) = lineGoSpec indent (cur ++ [c]) rest := by
  rcases hr : lineSplit rest with _ | ⟨l, ls⟩
  · exact absurd hr (lineSplit_ne_nil rest)
  · rw [lineGoSpec, lineGoSpec, lineSplit_other c rest hc l ls hr, hr]
    simp

theorem tailJoin_head (indent : Nat) (rest : List Char) :
    tailJoin indent (lineSplit rest) =
      List.replicate (read_indent indent rest 0).2 ' ' ++
        lineGoSpec indent [] (read_indent indent rest 0).1 := by
  rcases hr : lineSplit rest with _ | ⟨l0, ls0⟩
  · exact absurd hr (lineSplit_ne_nil rest)
  · obtain ⟨h1, h2⟩ := read_indent_lineSplit indent rest 0 l0 ls0 hr
    cases ls0 with
    | nil =>
      rw [lineGoSpec, h1, h2]
      simp [tailJoin, stripLineIndent]
    | cons l1 ls1 =>
      rw [lineGoSpec, h1, h2]
      simp [tailJoin, stripLineIndentTrail]

theorem loop_eq_lineGo (indent : Nat) :
    ∀ (n : Nat) (v cur base : List Char), v.length ≤ n →
      yang_read_string_loop indent v (cur.reverse ++ base) (trailWsCount cur) =
        base.reverse ++ lineGoSpec indent cur v := by
  intro n
  induction n with
  | zero =>
    intro v cur base hv
    have hv0 : v = [] := List.length_eq_zero.mp (Nat.le_zero.mp hv)
    subst hv0
    simp [loop_nil, lineGoSpec, lineSplit]
  | succ n ih =>
    intro v cur base hv
    cases v with
    | nil => simp [loop_nil, lineGoSpec, lineSplit]
    | cons c rest =>
      by_cases hc : c = '\n'
      · subst hc
        rw [loop_nl, drop_trailWsCount]
        have hlen : (read_indent indent rest 0).1.length ≤ n :=
          le_trans (read_indent_length_le indent rest 0) (Nat.le_of_succ_le_succ hv)
        have := ih (read_indent indent rest 0).1 []
          (List.replicate (read_indent indent rest 0).2 ' ' ++
            ('\n' :: ((stripTrailWs cur).reverse ++ base))) hlen
        simp only [List.reverse_nil, List.nil_append, trailWsCount, List.takeWhile_nil,
          List.length_nil] at this
        rw [this]
        rcases hr : lineSplit rest with _ | ⟨l0, ls0⟩
        · exact absurd hr (lineSplit_ne_nil rest)
        · have hgo : lineGoSpec indent cur ('\n' :: rest) =
              stripTrailWs cur ++ '\n' :: tailJoin indent (lineSplit rest) := by
            rw [lineGoSpec, lineSplit_nl, hr]
            simp [hr, lineSplit_ne_nil]
          rw [hgo, tailJoin_head]
          simp
      · rw [loop_char indent c rest _ _ hc]
        have h1 : c :: (cur.reverse ++ base) = (cur ++ [c]).reverse ++ base := by simp
        have h2 : (if wsb c then trailWsCount cur + 1 else 0) = trailWsCount (cur ++ [c]) :=
          (trailWsCount_append cur c).symm
        rw [h1, h2, ih rest (cur ++ [c]) base (Nat.le_of_succ_le_succ hv),
          lineGoSpec_char indent cur c rest hc]

theorem lineGoSpec_nil_cur (indent : Nat) (v : List Char) :
    lineGoSpec indent [] v = linewiseSpec indent v := by
  rcases hr : lineSplit v with _ | ⟨l, ls⟩
  · exact absurd hr (lineSplit_ne_nil v)
  · rw [lineGoSpec, linewiseSpec, hr]
    simp

/-- `yang_read_string` computed line by line: unescape, split at newlines,
strip the whitespace run before every newline, strip the indentation of every
line after a newline (residual indentation spaces surviving verbatim). -/
theorem yang_read_string_eq_linewise (input : List Char) (indent : Nat) :
    yang_read_string input indent = linewiseSpec indent (unescape input) := by
  have := loop_eq_lineGo indent (unescape input).length (unescape input) [] [] le_rfl
  simp only [List.reverse_nil, List.nil_append, trailWsCount, List.takeWhile_nil,
    List.length_nil] at this
  rw [yang_read_string, this, lineGoSpec_nil_cur]

/-- C6 (amended): `yang_read_string` replaces the escape sequences
`\n`, `\t`, `\\`, `\"` (any other backslash pair stays literal) and then, on
every line after a newline, removes up to `indent` leading columns (a tab
counting as eight spaces, residual spaces preserved) — and additionally
removes the whitespace run immediately preceding every newline (residual
indentation spaces survive even directly before a newline), as witnessed by
the line-structured description `linewiseSpec`. -/
theorem C6_string_read (input : List Char) (indent : Nat) :
    yang_read_string input indent = linewiseSpec indent (unescape input) ∧
    (∀ r, unescape ('\\' :: 'n' :: r) = '\n' :: unescape r) ∧
    (∀ r, unescape ('\\' :: 't' :: r) = '\t' :: unescape r) ∧
    (∀ r, unescape ('\\' :: '\\' :: r) = '\\' :: unescape r) ∧
    (∀ r, unescape ('\\' :: '"' :: r) = '"' :: unescape r) ∧
    (∀ c r, c ≠ 'n' → c ≠ 't' → c ≠ '\\' → c ≠ '"' →
      unescape ('\\' :: c :: r) = '\\' :: c :: unescape r) := by
  exact ⟨yang_read_string_eq_linewise input indent, fun r => by simp [unescape],
    fun r => by simp [unescape], fun r => by simp [unescape], fun r => by simp [unescape],
    fun c r hn ht hb hq => by simp [unescape, hn, ht, hb, hq]⟩

/-- Witness for C6: a non-special escape pair is kept literally. -/
theorem C6_string_read_witness :
    unescape ('\\' :: 'x' :: []) = '\\' :: 'x' :: unescape [] :=
  (C6_string_read [] 0).2.2.2.2.2 'x' [] (by decide) (by decide) (by decide) (by decide)

/-- Counterexample for C6 as stated: the claim's description (escapes plus
indentation stripping only) preserves the space before the newline in
`"a \nb"` at indent 0, but `yang_read_string` removes it. -/
theorem C6_string_read_counterexample :
    yang_read_string ("a \nb".data) 0 ≠ yang_read_string_claimed ("a \nb".data) 0 := by
  rw [yang_read_string_eq_linewise]
  decide

/-! ## Revision statements (`yang_read_revision`)

`yang_read_revision` appends a `lys_revision` slot to the module's revision
array.  When the incoming date is more recent (by `strcmp`) than the date at
index 0, the new slot at the end receives index 0's date, description and
reference, index 0 restarts with the new date and cleared description and
reference, and the returned slot (which the parser keeps filling with the
revision's `description`/`reference` substatements) is index 0. -/

structure LysRevision where
  date : List Char
  dsc : Option String
  ref : Option String
  deriving DecidableEq

/-- C `strcmp(a, b) < 0` for NUL-terminated byte strings. -/
def strLtb : List Char → List Char → Bool
  | [], [] => false
  | [], _ :: _ => true
  | _ :: _, [] => false
  | a :: as, b :: bs =>
    if a.toNat < b.toNat then true
    else if b.toNat < a.toNat then false
    else strLtb as bs

/-- `yang_read_revision` (parser_yang.c): returns the updated revision array
and the index of the slot the parser continues to fill. -/
def yang_read_revision (revs : List LysRevision) (value : List Char) :
    List LysRevision × Nat :=
  match revs with
  | [] => ([{ date := value, dsc := none, ref := none }], 0)
  | r0 :: rest =>
    if strLtb r0.date value then
      ({ date := value, dsc := none, ref := none } ::
         rest ++ [{ date := r0.date, dsc := r0.dsc, ref := r0.ref }], 0)
    else
      (r0 :: rest ++ [{ date := value, dsc := none, ref := none }],
       (r0 :: rest).length)

/-- Update the element at index `i`. -/
def modifyAt (f : LysRevision → LysRevision) : List LysRevision → Nat → List LysRevision
  | [], _ => []
  | r :: rest, 0 => f r :: rest
  | r :: rest, n + 1 => r :: modifyAt f rest n

/-- Update the last element. -/
def modifyLast (f : LysRevision → LysRevision) : List LysRevision → List LysRevision
  | [] => []
  | [r] => [f r]
  | r :: rest => r :: modifyLast f rest

/-- The statements the parser issues against the revision array: a new
`revision` statement, or a `description`/`reference` substatement of the
revision statement being parsed. -/
inductive RevOp where
  | add (date : List Char)
  | setDsc (s : String)
  | setRef (s : String)

structure RevState where
  rev : List LysRevision
  cur : Nat

def applyRevOp (s : RevState) : RevOp → RevState
  | .add date =>
    let p := yang_read_revision s.rev date
    { rev := p.1, cur := p.2 }
  | .setDsc d => { s with rev := modifyAt (fun r => { r with dsc := some d }) s.rev s.cur }
  | .setRef d => { s with rev := modifyAt (fun r => { r with ref := some d }) s.rev s.cur }

def runRevOps (ops : List RevOp) : RevState :=
  ops.foldl applyRevOp { rev := [], cur := 0 }

/-- Specification-side reference semantics: revisions collect in statement
order and `description`/`reference` attach to the revision statement being
parsed (the last added one); nothing is ever exchanged. -/
def applyRevOpSpec (l : List LysRevision) : RevOp → List LysRevision
  | .add date => l ++ [{ date := date, dsc := none, ref := none }]
  | .setDsc d => modifyLast (fun r => { r with dsc := some d }) l
  | .setRef d => modifyLast (fun r => { r with ref := some d }) l

def runRevOpsSpec (ops : List RevOp) : List LysRevision :=
  ops.foldl applyRevOpSpec []

theorem strLtb_irrefl : ∀ a : List Char, strLtb a a = false := by
  intro a
  induction a with
  | nil => rfl
  | cons x xs ih => simp [strLtb, ih]

theorem strLtb_asymm : ∀ a b : List Char, strLtb a b = true → strLtb b a = false := by
  intro a
  induction a with
  | nil =>
    intro b h
    cases b with
    | nil => simp [strLtb] at h
    | cons y ys => simp [strLtb]
  | cons x xs ih =>
    intro b h
    cases b with
    | nil => simp [strLtb] at h
    | cons y ys =>
      simp only [strLtb] at h ⊢
      by_cases h1 : x.toNat < y.toNat
      · have h2 : ¬ y.toNat < x.toNat := by omega
        simp [h1, h2]
      · by_cases h2 : y.toNat < x.toNat
        · rw [if_neg h1, if_pos h2] at h
          cases h
        · rw [if_neg h1, if_neg h2] at h
          rw [if_neg h2, if_neg h1]
          exact ih ys h

theorem strLtb_trans : ∀ a b c : List Char,
    strLtb a b = true → strLtb b c = true → strLtb a c = true := by
  intro a
  induction a with
  | nil =>
    intro b c hab hbc
    cases b with
    | nil => simp [strLtb] at hab
    | cons y ys =>
      cases c with
      | nil => simp [strLtb] at hbc
      | cons z zs => simp [strLtb]
  | cons x xs ih =>
    intro b c hab hbc
    cases b with
    | nil => simp [strLtb] at hab
    | cons y ys =>
      cases c with
      | nil => simp [strLtb] at hbc
      | cons z zs =>
        simp only [strLtb] at hab hbc ⊢
        by_cases h1 : x.toNat < y.toNat <;> by_cases h2 : y.toNat < z.toNat
        · have : x.toNat < z.toNat := by omega
          simp [this]
        · rw [if_neg h2] at hbc
          by_cases h3 : z.toNat < y.toNat
          · rw [if_pos h3] at hbc; cases hbc
          · have hyz : y.toNat = z.toNat := by omega
            have : x.toNat < z.toNat := by omega
            simp [this]
        · rw [if_neg h1] at hab
          by_cases h3 : y.toNat < x.toNat
          · rw [if_pos h3] at hab; cases hab
          · have hxy : x.toNat = y.toNat := by omega
            have : x.toNat < z.toNat := by omega
            simp [this]
        · rw [if_neg h1] at hab
          rw [if_neg h2] at hbc
          by_cases h3 : y.toNat < x.toNat
          · rw [if_pos h3] at hab; cases hab
          · by_cases h4 : z.toNat < y.toNat
            · rw [if_pos h4] at hbc; cases hbc
            · rw [if_neg h3] at hab
              rw [if_neg h4] at hbc
              have h5 : ¬ x.toNat < z.toNat := by omega
              have h6 : ¬ z.toNat < x.toNat := by omega
              rw [if_neg h5, if_neg h6]
              exact ih ys zs hab hbc

theorem cons_eraseIdx_perm :
    ∀ (l : List LysRevision) (i : Nat) (v : LysRevision),
      l.get? i = some v → l.Perm (v :: l.eraseIdx i) := by
  intro l
  induction l with
  | nil => intro i v h; simp at h
  | cons r rest ih =>
    intro i v h
    cases i with
    | zero =>
      simp only [List.get?_cons_zero, Option.some.injEq] at h
      subst h
      simp [List.eraseIdx]
    | succ n =>
      simp only [List.get?_cons_succ] at h
      exact ((ih n v h).cons r).trans (List.Perm.swap v r (rest.eraseIdx n))

theorem modifyAt_perm (f : LysRevision → LysRevision) :
    ∀ (l : List LysRevision) (i : Nat) (v : LysRevision),
      l.get? i = some v → (modifyAt f l i).Perm (f v :: l.eraseIdx i) := by
  intro l
  induction l with
  | nil => intro i v h; simp at h
  | cons r rest ih =>
    intro i v h
    cases i with
    | zero =>
      simp only [List.get?_cons_zero, Option.some.injEq] at h
      subst h
      simp [modifyAt, List.eraseIdx]
    | succ n =>
      simp only [List.get?_cons_succ] at h
      exact ((ih n v h).cons r).trans (List.Perm.swap (f v) r (rest.eraseIdx n))

theorem modifyAt_get?_self (f : LysRevision → LysRevision) :
    ∀ (l : List LysRevision) (i : Nat) (v : LysRevision),
      l.get? i = some v → (modifyAt f l i).get? i = some (f v) := by
  intro l
  induction l with
  | nil => intro i v h; simp at h
  | cons r rest ih =>
    intro i v h
    cases i with
    | zero =>
      simp only [List.get?_cons_zero, Option.some.injEq] at h
      subst h
      rfl
    | succ n =>
      simp only [List.get?_cons_succ] at h
      simpa [modifyAt] using ih n v h

theorem modifyAt_map_date (f : LysRevision → LysRevision)
    (hf : ∀ r, (f r).date = r.date) :
    ∀ (l : List LysRevision) (i : Nat),
      (modifyAt f l i).map LysRevision.date = l.map LysRevision.date := by
  intro l
  induction l with
  | nil => intro i; rfl
  | cons r rest ih =>
    intro i
    cases i with
    | zero => simp [modifyAt, hf]
    | succ n => simp [modifyAt, ih n]

theorem getLast?_cons_dropLast_perm :
    ∀ (l : List LysRevision) (v : LysRevision),
      l.getLast? = some v → l.Perm (v :: l.dropLast) := by
  intro l v h
  obtain ⟨l', rfl⟩ := List.getLast?_eq_some_iff.mp h
  rw [List.dropLast_concat]
  exact List.perm_append_singleton v l'

theorem modifyLast_perm (f : LysRevision → LysRevision) :
    ∀ (l : List LysRevision) (v : LysRevision),
      l.getLast? = some v → (modifyLast f l).Perm (f v :: l.dropLast) := by
  intro l
  induction l with
  | nil => intro v h; simp at h
  | cons r rest ih =>
    intro v h
    cases rest with
    | nil =>
      simp only [List.getLast?_singleton, Option.some.injEq] at h
      subst h
      simp [modifyLast]
    | cons r2 rest2 =>
      have h2 : (r2 :: rest2).getLast? = some v := by
        rw [List.getLast?_cons_cons] at h
        exact h
      have step : (modifyLast f (r :: r2 :: rest2)).Perm
          (f v :: (r :: (r2 :: rest2).dropLast)) :=
        ((ih v h2).cons r).trans (List.Perm.swap (f v) r ((r2 :: rest2).dropLast))
      simpa using step

theorem modifyLast_getLast? (f : LysRevision → LysRevision) :
    ∀ (l : List LysRevision) (v : LysRevision),
      l.getLast? = some v → (modifyLast f l).getLast? = some (f v) := by
  intro l
  induction l with
  | nil => intro v h; simp at h
  | cons r rest ih =>
    intro v h
    cases rest with
    | nil =>
      simp only [List.getLast?_singleton, Option.some.injEq] at h
      subst h
      rfl
    | cons r2 rest2 =>
      have h2 : (r2 :: rest2).getLast? = some v := by
        rw [List.getLast?_cons_cons] at h
        exact h
      have : modifyLast f (r :: r2 :: rest2) = r :: modifyLast f (r2 :: rest2) := rfl
      rw [this]
      have h3 := ih v h2
      cases hm : modifyLast f (r2 :: rest2) with
      | nil =>
        rw [hm] at h3
        simp at h3
      | cons m ms =>
        rw [List.getLast?_cons_cons]
        rw [hm] at h3
        exact h3

/-- The date at index 0 of the revision array is maximal under `strcmp`. -/
def headMaxD (ds : List (List Char)) : Prop :=
  ∀ d0 d, ds.head? = some d0 → d ∈ ds → strLtb d0 d = false

/-- Invariant connecting the C revision array (plus the index of the slot
being filled) to the specification-side in-order list. -/
def RevInv (s : RevState) (spec : List LysRevision) : Prop :=
  s.rev.Perm spec ∧ s.rev.get? s.cur = spec.getLast? ∧
    headMaxD (s.rev.map LysRevision.date)

theorem revInv_modify (s : RevState) (spec : List LysRevision)
    (f : LysRevision → LysRevision) (hf : ∀ r, (f r).date = r.date)
    (h : RevInv s spec) :
    RevInv { s with rev := modifyAt f s.rev s.cur } (modifyLast f spec) := by
  obtain ⟨hperm, hcur, hmax⟩ := h
  cases hsl : spec.getLast? with
  | none =>
    have hspec : spec = [] := by
      cases spec with
      | nil => rfl
      | cons a as =>
        exact absurd hsl (by simp [List.getLast?_eq_none_iff])
    subst hspec
    have hrev : s.rev = [] := hperm.eq_nil
    refine ⟨?_, ?_, ?_⟩
    · rw [hrev]; exact List.Perm.refl _
    · rw [hrev]; cases s.cur <;> rfl
    · intro d0 d h0 hd
      rw [show modifyAt f s.rev s.cur = [] from by rw [hrev]; cases s.cur <;> rfl] at h0
      simp at h0
  | some v =>
    have hget : s.rev.get? s.cur = some v := by rw [hcur, hsl]
    refine ⟨?_, ?_, ?_⟩
    · have p1 := modifyAt_perm f s.rev s.cur v hget
      have p2 := modifyLast_perm f spec v hsl
      have p3 := cons_eraseIdx_perm s.rev s.cur v hget
      have p4 := getLast?_cons_dropLast_perm spec v hsl
      have p5 : (v :: s.rev.eraseIdx s.cur).Perm (v :: spec.dropLast) :=
        (p3.symm.trans hperm).trans p4
      exact p1.trans ((p5.cons_inv.cons (f v)).trans p2.symm)
    · rw [modifyAt_get?_self f s.rev s.cur v hget, modifyLast_getLast? f spec v hsl]
    · rw [modifyAt_map_date f hf]
      exact hmax

theorem revInv_step (s : RevState) (spec : List LysRevision) (op : RevOp)
    (h : RevInv s spec) : RevInv (applyRevOp s op) (applyRevOpSpec spec op) := by
  cases op with
  | setDsc d => exact revInv_modify s spec _ (fun r => rfl) h
  | setRef d => exact revInv_modify s spec _ (fun r => rfl) h
  | add date =>
    obtain ⟨hperm, hcur, hmax⟩ := h
    cases hrev : s.rev with
    | nil =>
      have hspec : spec = [] := (hrev ▸ hperm).symm.eq_nil
      subst hspec
      refine ⟨?_, ?_, ?_⟩
      · simp [applyRevOp, applyRevOpSpec, hrev, yang_read_revision]
      · simp [applyRevOp, applyRevOpSpec, hrev, yang_read_revision]
      · simp only [applyRevOp, hrev, yang_read_revision]
        intro d0 d h0 hd
        simp only [List.map_cons, List.map_nil, List.head?_cons, Option.some.injEq] at h0
        simp only [List.map_cons, List.map_nil, List.mem_singleton] at hd
        rw [← h0, hd]
        exact strLtb_irrefl date
    | cons r0 rest =>
      rw [hrev] at hmax
      have hmax0 : ∀ d, d ∈ (r0 :: rest).map LysRevision.date → strLtb r0.date d = false :=
        fun d hd => hmax r0.date d rfl hd
      by_cases hlt : strLtb r0.date date = true
      · -- more recent than index 0: the new slot receives index 0's entry
        have happ : applyRevOp s (.add date) =
            { rev := { date := date, dsc := none, ref := none } ::
                rest ++ [{ date := r0.date, dsc := r0.dsc, ref := r0.ref }], cur := 0 } := by
          simp [applyRevOp, hrev, yang_read_revision, hlt]
        rw [happ]
        have retaR0 : ({ date := r0.date, dsc := r0.dsc, ref := r0.ref } : LysRevision) = r0 := rfl
        refine ⟨?_, ?_, ?_⟩
        · rw [retaR0]
          have h1 : (rest ++ [r0]).Perm (r0 :: rest) := List.perm_append_singleton r0 rest
          have h2 : (r0 :: rest).Perm spec := hrev ▸ hperm
          exact ((h1.trans h2).cons _).trans
            (List.perm_append_singleton _ spec).symm
        · simp [applyRevOpSpec, List.getLast?_concat]
        · intro d0 d h0 hd
          have hd0 : d0 = date := by
            simp at h0
            exact h0.symm
          rw [hd0]
          simp at hd
          rcases hd with hd | hd | hd
          · rw [hd]; exact strLtb_irrefl _
          · have hold : strLtb r0.date d = false := hmax0 d (by simp [hd])
            cases hnew : strLtb date d with
            | false => rfl
            | true => rw [strLtb_trans r0.date date d hlt hnew] at hold; cases hold
          · rw [hd]
            exact strLtb_asymm r0.date date hlt
      · -- not more recent: plain append at the end
        have hltf : strLtb r0.date date = false := by
          cases hb : strLtb r0.date date with
          | false => rfl
          | true => exact absurd hb hlt
        have happ : applyRevOp s (.add date) =
            { rev := (r0 :: rest) ++ [{ date := date, dsc := none, ref := none }],
              cur := (r0 :: rest).length } := by
          simp [applyRevOp, hrev, yang_read_revision, hltf]
        rw [happ]
        refine ⟨?_, ?_, ?_⟩
        · exact (hrev ▸ hperm).append_right _
        · simp only [applyRevOpSpec]
          rw [List.get?_concat_length, List.getLast?_concat]
        · intro d0 d h0 hd
          have hd0 : d0 = r0.date := by
            simp at h0
            exact h0.symm
          rw [hd0]
          simp at hd
          rcases hd with hd | hd | hd
          · rw [hd]; exact strLtb_irrefl _
          · exact hmax0 d (by simp [hd])
          · rw [hd]; exact hltf

theorem revInv_run (ops : List RevOp) :
    ∀ (s : RevState) (spec : List LysRevision), RevInv s spec →
      RevInv (ops.foldl applyRevOp s) (ops.foldl applyRevOpSpec spec) := by
  induction ops with
  | nil => intro s spec h; exact h
  | cons op ops ih =>
    intro s spec h
    exact ih (applyRevOp s op) (applyRevOpSpec spec op) (revInv_step s spec op h)

/-- C7: after any sequence of `yang_read_revision` calls (interleaved with
`description`/`reference` substatements on the returned slot), the revision
array is a permutation of the in-order list in which description and
reference stay attached to their own revision date, and the date at index 0
is maximal under string comparison. -/
theorem C7_revision_array (ops : List RevOp) :
    (runRevOps ops).rev.Perm (runRevOpsSpec ops) ∧
    ∀ r0 r, (runRevOps ops).rev.head? = some r0 → r ∈ (runRevOps ops).rev →
      strLtb r0.date r.date = false := by
  have h0 : RevInv { rev := [], cur := 0 } [] := by
    refine ⟨List.Perm.refl _, rfl, ?_⟩
    intro d0 d h0 hd
    simp at h0
  have h := revInv_run ops { rev := [], cur := 0 } [] h0
  obtain ⟨hperm, hcur, hmax⟩ := h
  refine ⟨hperm, ?_⟩
  intro r0 r hh hm
  have hh2 : (List.foldl applyRevOp { rev := [], cur := 0 } ops).rev.head? = some r0 := hh
  have hm2 : r ∈ (List.foldl applyRevOp { rev := [], cur := 0 } ops).rev := hm
  exact hmax r0.date r.date (by rw [List.head?_map, hh2]; rfl)
    (List.mem_map_of_mem LysRevision.date hm2)

/-- Witness for C7: loading revisions 2020-01-01 then 2021-02-02 leaves the
2021 revision at index 0 and 2020-01-01 does not exceed it. -/
theorem C7_revision_array_witness :
    strLtb "2021-02-02".data "2020-01-01".data = false :=
  (C7_revision_array [RevOp.add "2020-01-01".data, RevOp.add "2021-02-02".data]).2
    { date := "2021-02-02".data, dsc := none, ref := none }
    { date := "2020-01-01".data, dsc := none, ref := none }
    (by decide) (by decide)

/-! ## Deviations (`yang_read_deviation`, `yang_read_deviate_unsupported`,
`yang_read_deviate`)

`yang_read_deviate_unsupported` handles a `deviate not-supported` statement:
it refuses to combine with any previously recorded deviate, refuses to remove
a list key leaf, and otherwise unlinks the target from its sibling chain and
stores it in `orig_node`.  `yang_read_deviate` records an
`add`/`replace`/`delete` deviate; it fails if `deviate[0]` is `not-supported`,
and stores a shallow copy of the target as `orig_node` once per deviation. -/

inductive DeviateMod where
  | no | add | rpl | del
  deriving DecidableEq

/-- What `orig_node` holds: the unlinked target itself (`not-supported`) or a
shallow copy of the target made by `lys_node_dup`. -/
inductive OrigNode where
  | unlinked (id : Nat)
  | copy (id : Nat)
  deriving DecidableEq

inductive NType where
  | leaf | leaflist | list | container | choice | nodeCase | anyxml | uses
  | grouping | augment | rpc | input | output | notif
  deriving DecidableEq

/-- The parent of the deviation target, as inspected by the key check, plus
its child sibling chain (which the unlink mutates). -/
structure ParentInfo where
  ptype : NType
  keys : List Nat
  deriving DecidableEq

/-- The resolved deviation target (`dev->target`). -/
structure TargetCtx where
  targetId : Nat
  targetType : NType
  parent : Option ParentInfo
  deriving DecidableEq

/-- The deviation being built (`dev->deviation`) together with the sibling
chain the target lives in. -/
structure DevState where
  deviate : List DeviateMod
  orig_node : Option OrigNode
  siblings : List Nat
  deriving DecidableEq

/-- `yang_read_deviate_unsupported` (parser_yang.c).  The C code writes
`LY_DEVIATE_NO` into the slot `deviate[deviate_size]` before the key check;
since `deviate_size` is only set to 1 on success, the early write is not
observable and the translation performs it on the success path. -/
def yang_read_deviate_unsupported (st : DevState) (t : TargetCtx) : Option DevState :=
  if st.deviate.length ≠ 0 then
    none
  else if t.targetType = NType.leaf ∧
      (∃ p, t.parent = some p ∧ p.ptype = NType.list ∧ t.targetId ∈ p.keys) then
    none
  else
    some { deviate := [DeviateMod.no],
           orig_node := some (OrigNode.unlinked t.targetId),
           siblings := st.siblings.erase t.targetId }

/-- `yang_read_deviate` (parser_yang.c) for `add`/`replace`/`delete`: the
deviate slot is appended first (`deviate_size++`), then `deviate[0]` is
checked against `LY_DEVIATE_NO`. -/
def yang_read_deviate (st : DevState) (t : TargetCtx) (m : DeviateMod) : Option DevState :=
  if (st.deviate ++ [m]).head? = some DeviateMod.no then
    none
  else
    some { deviate := st.deviate ++ [m],
           orig_node := match st.orig_node with
             | some o => some o
             | none => some (OrigNode.copy t.targetId),
           siblings := st.siblings }

/-- One deviate statement inside a deviation, in source order. -/
inductive DevStep where
  | unsupported
  | add | rpl | del
  deriving DecidableEq

def runDevSteps (t : TargetCtx) : List DevStep → DevState → Option DevState
  | [], st => some st
  | step :: rest, st =>
    match step with
    | .unsupported =>
      match yang_read_deviate_unsupported st t with
      | none => none
      | some st2 => runDevSteps t rest st2
    | .add =>
      match yang_read_deviate st t DeviateMod.add with
      | none => none
      | some st2 => runDevSteps t rest st2
    | .rpl =>
      match yang_read_deviate st t DeviateMod.rpl with
      | none => none
      | some st2 => runDevSteps t rest st2
    | .del =>
      match yang_read_deviate st t DeviateMod.del with
      | none => none
      | some st2 => runDevSteps t rest st2

theorem yang_read_deviate_some (st : DevState) (t : TargetCtx) (m : DeviateMod)
    (st2 : DevState) (h : yang_read_deviate st t m = some st2) :
    st2.deviate = st.deviate ++ [m] := by
  unfold yang_read_deviate at h
  split at h
  · cases h
  · cases h
    rfl

theorem runDevSteps_none_of_started (t : TargetCtx) :
    ∀ (steps : List DevStep) (st : DevState), st.deviate ≠ [] →
      DevStep.unsupported ∈ steps → runDevSteps t steps st = none := by
  intro steps
  induction steps with
  | nil => intro st hst hmem; simp at hmem
  | cons step rest ih =>
    intro st hst hmem
    cases step with
    | unsupported =>
      have : st.deviate.length ≠ 0 := by
        intro h
        exact hst (List.length_eq_zero.mp h)
      simp [runDevSteps, yang_read_deviate_unsupported, this]
    | add =>
      have hmem2 : DevStep.unsupported ∈ rest := by
        rcases List.mem_cons.mp hmem with h | h
        · cases h
        · exact h
      simp only [runDevSteps]
      split
      · rfl
      · rename_i st2 heq
        exact ih st2 (by rw [yang_read_deviate_some st t _ st2 heq]; simp) hmem2
    | rpl =>
      have hmem2 : DevStep.unsupported ∈ rest := by
        rcases List.mem_cons.mp hmem with h | h
        · cases h
        · exact h
      simp only [runDevSteps]
      split
      · rfl
      · rename_i st2 heq
        exact ih st2 (by rw [yang_read_deviate_some st t _ st2 heq]; simp) hmem2
    | del =>
      have hmem2 : DevStep.unsupported ∈ rest := by
        rcases List.mem_cons.mp hmem with h | h
        · cases h
        · exact h
      simp only [runDevSteps]
      split
      · rfl
      · rename_i st2 heq
        exact ih st2 (by rw [yang_read_deviate_some st t _ st2 heq]; simp) hmem2

theorem runDevSteps_none_of_no_head (t : TargetCtx) :
    ∀ (steps : List DevStep) (st : DevState), steps ≠ [] →
      st.deviate.head? = some DeviateMod.no → runDevSteps t steps st = none := by
  intro steps st hne hhd
  cases steps with
  | nil => exact absurd rfl hne
  | cons step rest =>
    have hlen : st.deviate.length ≠ 0 := by
      intro h
      rw [List.length_eq_zero.mp h] at hhd
      cases hhd
    have happ : ∀ m : DeviateMod, (st.deviate ++ [m]).head? = some DeviateMod.no := by
      intro m
      cases hd : st.deviate with
      | nil => rw [hd] at hhd; cases hhd
      | cons a as =>
        rw [hd] at hhd
        simp at hhd
        simp [hhd]
    cases step with
    | unsupported => simp [runDevSteps, yang_read_deviate_unsupported, hlen]
    | add => simp [runDevSteps, yang_read_deviate, happ DeviateMod.add]
    | rpl => simp [runDevSteps, yang_read_deviate, happ DeviateMod.rpl]
    | del => simp [runDevSteps, yang_read_deviate, happ DeviateMod.del]

theorem yang_read_deviate_unsupported_some (st : DevState) (t : TargetCtx)
    (st2 : DevState) (h : yang_read_deviate_unsupported st t = some st2) :
    st2.deviate = [DeviateMod.no] := by
  unfold yang_read_deviate_unsupported at h
  split at h
  · cases h
  · split at h
    · cases h
    · cases h
      rfl

/-- C4: a `deviate not-supported` unlinks the target from its sibling chain
and stores it as the original node; it fails on a key leaf of a parent list;
and combining `not-supported` with any other deviate statement of the same
deviation fails no matter in which order the statements appear. -/
theorem C4_deviate_not_supported (t : TargetCtx) (sib : List Nat) :
    (¬ (t.targetType = NType.leaf ∧
        (∃ p, t.parent = some p ∧ p.ptype = NType.list ∧ t.targetId ∈ p.keys)) →
      yang_read_deviate_unsupported { deviate := [], orig_node := none, siblings := sib } t =
        some { deviate := [DeviateMod.no],
               orig_node := some (OrigNode.unlinked t.targetId),
               siblings := sib.erase t.targetId }) ∧
    ((t.targetType = NType.leaf ∧
        (∃ p, t.parent = some p ∧ p.ptype = NType.list ∧ t.targetId ∈ p.keys)) →
      yang_read_deviate_unsupported { deviate := [], orig_node := none, siblings := sib } t =
        none) ∧
    (∀ steps : List DevStep, DevStep.unsupported ∈ steps → 2 ≤ steps.length →
      runDevSteps t steps { deviate := [], orig_node := none, siblings := sib } = none) := by
  refine ⟨?_, ?_, ?_⟩
  · intro h
    simp [yang_read_deviate_unsupported, h]
  · intro h
    simp [yang_read_deviate_unsupported, h]
  · intro steps hmem hlen
    cases steps with
    | nil => simp at hmem
    | cons s1 rest =>
      cases rest with
      | nil => simp at hlen
      | cons s2 rest2 =>
        cases s1 with
        | unsupported =>
          simp only [runDevSteps]
          split
          · rfl
          · rename_i st2 heq
            exact runDevSteps_none_of_no_head t (s2 :: rest2) st2 (by simp)
              (by rw [yang_read_deviate_unsupported_some _ t st2 heq]; rfl)
        | add =>
          have hmem2 : DevStep.unsupported ∈ s2 :: rest2 := by
            rcases List.mem_cons.mp hmem with h | h
            · cases h
            · exact h
          simp only [runDevSteps]
          split
          · rfl
          · rename_i st2 heq
            exact runDevSteps_none_of_started t (s2 :: rest2) st2
              (by rw [yang_read_deviate_some _ t _ st2 heq]; simp) hmem2
        | rpl =>
          have hmem2 : DevStep.unsupported ∈ s2 :: rest2 := by
            rcases List.mem_cons.mp hmem with h | h
            · cases h
            · exact h
          simp only [runDevSteps]
          split
          · rfl
          · rename_i st2 heq
            exact runDevSteps_none_of_started t (s2 :: rest2) st2
              (by rw [yang_read_deviate_some _ t _ st2 heq]; simp) hmem2
        | del =>
          have hmem2 : DevStep.unsupported ∈ s2 :: rest2 := by
            rcases List.mem_cons.mp hmem with h | h
            · cases h
            · exact h
          simp only [runDevSteps]
          split
          · rfl
          · rename_i st2 heq
            exact runDevSteps_none_of_started t (s2 :: rest2) st2
              (by rw [yang_read_deviate_some _ t _ st2 heq]; simp) hmem2

/-- Witness for C4: removing the key leaf `5` of a list is refused, and a
`not-supported` followed by an `add` in the same deviation fails. -/
theorem C4_deviate_not_supported_witness :
    yang_read_deviate_unsupported { deviate := [], orig_node := none, siblings := [5] }
      { targetId := 5, targetType := NType.leaf,
        parent := some { ptype := NType.list, keys := [5] } } = none ∧
    runDevSteps { targetId := 7, targetType := NType.container, parent := none }
      [DevStep.unsupported, DevStep.add]
      { deviate := [], orig_node := none, siblings := [7] } = none :=
  ⟨(C4_deviate_not_supported
      { targetId := 5, targetType := NType.leaf,
        parent := some { ptype := NType.list, keys := [5] } } [5]).2.1 (by decide),
   (C4_deviate_not_supported
      { targetId := 7, targetType := NType.container, parent := none } [7]).2.2
      [DevStep.unsupported, DevStep.add] (by decide) (by decide)⟩

/-! ## Leafref cycle check (`lys_leaf_add_leafref_target`)

`lys_leaf_add_leafref_target(leafref_target, leafref)` is called when the
resolver is about to set `leafref->type.info.lref.target = leafref_target`.
Starting from the target it walks `iter = iter->type.info.lref.target` while
`iter->type.base == LY_TYPE_LEAFREF`; meeting `leafref` on the way means the
new edge would close a cycle and the function fails with `LYE_CIRC_LEAFREFS`.
The schema graph is modelled by the leafref flag of every node and the
partial target map (only leafref nodes carry a target). -/

structure LrefGraph where
  isLref : Nat → Bool
  tgt : Nat → Option Nat

/-- Position of the C `iter` after `n` executions of the loop body:
`some y` when the walk is at node `y`, `none` once the walk has ended
(non-leafref node or unresolved target reached). -/
def iterTgt (g : LrefGraph) : Nat → Nat → Option Nat
  | 0, x => some x
  | n + 1, x =>
    if g.isLref x then
      match g.tgt x with
      | none => none
      | some y => iterTgt g n y
    else none

/-- The walk from `x` ends after finitely many steps. -/
def Terminates (g : LrefGraph) (x : Nat) : Prop := ∃ n, iterTgt g n x = none

/-- The cycle-check loop of `lys_leaf_add_leafref_target` (parser_yang.c,
appended tree_schema.c part), with explicit fuel standing for the unbounded
C `while`: `some true` = `leafref` found on the chain (the C function returns
`-1` after logging `LYE_CIRC_LEAFREFS`), `some false` = chain ended without
meeting it (the function registers the back-edge and returns `0`),
`none` = fuel exhausted (the C loop would still be running). -/
def lys_leaf_add_leafref_target_check (g : LrefGraph) (leafref : Nat) :
    Nat → Nat → Option Bool
  | 0, _ => none
  | fuel + 1, iter =>
    if g.isLref iter then
      if iter = leafref then some true
      else
        match g.tgt iter with
        | none => some false
        | some nxt => lys_leaf_add_leafref_target_check g leafref fuel nxt
    else some false

/-- The resolver's state after a successful registration: the new edge
`leafref → target` is added to the target map. -/
def registerLeafref (g : LrefGraph) (leafref target : Nat) : LrefGraph :=
  { isLref := g.isLref,
    tgt := fun x => if x = leafref then some target else g.tgt x }

theorem iterTgt_add (g : LrefGraph) :
    ∀ (a b : Nat) (x : Nat),
      iterTgt g (a + b) x =
        match iterTgt g a x with
        | none => none
        | some y => iterTgt g b y := by
  intro a
  induction a with
  | zero => intro b x; simp [iterTgt]
  | succ n ih =>
    intro b x
    have hr : n + 1 + b = (n + b) + 1 := by omega
    rw [hr]
    by_cases hx : g.isLref x
    · simp only [iterTgt, if_pos hx]
      cases htg : g.tgt x with
      | none => simp
      | some y => simpa using ih b y
    · simp [iterTgt, hx]

theorem terminates_step (g : LrefGraph) (x y : Nat)
    (hx : g.isLref x = true) (hy : g.tgt x = some y) (h : Terminates g y) :
    Terminates g x := by
  obtain ⟨n, hn⟩ := h
  refine ⟨n + 1, ?_⟩
  have : n + 1 = 1 + n := by omega
  rw [this, iterTgt_add]
  simp [iterTgt, hx, hy, hn]

theorem check_false_props (g : LrefGraph) (l : Nat) (hl : g.isLref l = true) :
    ∀ (fuel iter : Nat),
      lys_leaf_add_leafref_target_check g l fuel iter = some false →
      (∀ n y, iterTgt g n iter = some y → y ≠ l) ∧ Terminates g iter := by
  intro fuel
  induction fuel with
  | zero => intro iter h; cases h
  | succ f ih =>
    intro iter h
    rw [lys_leaf_add_leafref_target_check] at h
    by_cases hi : g.isLref iter
    · rw [if_pos hi] at h
      by_cases he : iter = l
      · rw [if_pos he] at h
        cases h
      · rw [if_neg he] at h
        cases htg : g.tgt iter with
        | none =>
          refine ⟨?_, ⟨1, by simp [iterTgt, hi, htg]⟩⟩
          intro n y hy
          cases n with
          | zero =>
            cases hy
            exact he
          | succ m =>
            rw [iterTgt, if_pos hi, htg] at hy
            cases hy
        | some nxt =>
          rw [htg] at h
          obtain ⟨P, T⟩ := ih nxt h
          refine ⟨?_, terminates_step g iter nxt hi htg T⟩
          intro n y hy
          cases n with
          | zero =>
            cases hy
            exact he
          | succ m =>
            rw [iterTgt, if_pos hi, htg] at hy
            exact P m y hy
    · rw [if_neg hi] at h
      refine ⟨?_, ⟨1, by simp [iterTgt, hi]⟩⟩
      intro n y hy
      cases n with
      | zero =>
        cases hy
        intro hyl
        rw [hyl] at hi
        exact hi hl
      | succ m =>
        rw [iterTgt, if_neg hi] at hy
        cases hy

theorem iterTgt_register_eq (g : LrefGraph) (l t : Nat) :
    ∀ (n x : Nat), (∀ m y, m ≤ n → iterTgt g m x = some y → y ≠ l) →
      iterTgt (registerLeafref g l t) n x = iterTgt g n x := by
  intro n
  induction n with
  | zero => intro x h; rfl
  | succ m ih =>
    intro x h
    have hxl : x ≠ l := h 0 x (by omega) rfl
    by_cases hi : g.isLref x
    · have hi2 : (registerLeafref g l t).isLref x = true := hi
      rw [iterTgt, iterTgt, if_pos hi, if_pos hi2]
      have htgt : (registerLeafref g l t).tgt x = g.tgt x := by
        simp [registerLeafref, hxl]
      rw [htgt]
      cases htg : g.tgt x with
      | none => rfl
      | some y =>
        refine ih y ?_
        intro k z hk hz
        refine h (k + 1) z (by omega) ?_
        rw [iterTgt, if_pos hi, htg]
        exact hz
    · have hi2 : ¬ (registerLeafref g l t).isLref x = true := hi
      rw [iterTgt, iterTgt, if_neg hi, if_neg hi2]

theorem register_preserves_terminates (g : LrefGraph) (l t : Nat)
    (hl : g.isLref l = true) (hterm : ∀ x, Terminates g x)
    (fuel : Nat)
    (hchk : lys_leaf_add_leafref_target_check g l fuel t = some false) :
    ∀ x, Terminates (registerLeafref g l t) x := by
  obtain ⟨P, n0, hn0⟩ := check_false_props g l hl fuel t hchk
  have hTt : Terminates (registerLeafref g l t) t := by
    refine ⟨n0, ?_⟩
    rw [iterTgt_register_eq g l t n0 t (fun m y _ hy => P m y hy)]
    exact hn0
  have main : ∀ (n x : Nat), iterTgt g n x = none →
      Terminates (registerLeafref g l t) x := by
    intro n
    induction n with
    | zero => intro x h; cases h
    | succ m ih =>
      intro x h
      by_cases hxl : x = l
      · subst hxl
        exact terminates_step _ x t hl (by simp [registerLeafref]) hTt
      · by_cases hi : g.isLref x
        · rw [iterTgt, if_pos hi] at h
          cases htg : g.tgt x with
          | none =>
            exact ⟨1, by simp [iterTgt, registerLeafref, hi, hxl, htg]⟩
          | some y =>
            rw [htg] at h
            exact terminates_step _ x y hi (by simp [registerLeafref, hxl, htg]) (ih y h)
        · exact ⟨1, by simp [iterTgt, registerLeafref, hi]⟩
  intro x
  obtain ⟨n, hn⟩ := hterm x
  exact main n x hn

theorem check_detects (g : LrefGraph) (l : Nat) (hl : g.isLref l = true) :
    ∀ (n t fuel : Nat), iterTgt g n t = some l → n < fuel →
      lys_leaf_add_leafref_target_check g l fuel t = some true := by
  intro n
  induction n with
  | zero =>
    intro t fuel h hf
    cases h
    cases fuel with
    | zero => omega
    | succ f => simp [lys_leaf_add_leafref_target_check, hl]
  | succ m ih =>
    intro t fuel h hf
    rw [iterTgt] at h
    by_cases hi : g.isLref t
    · rw [if_pos hi] at h
      cases htg : g.tgt t with
      | none => rw [htg] at h; cases h
      | some y =>
        rw [htg] at h
        cases fuel with
        | zero => omega
        | succ f =>
          rw [lys_leaf_add_leafref_target_check, if_pos hi]
          by_cases he : t = l
          · rw [if_pos he]
          · rw [if_neg he, htg]
            exact ih y f h (by omega)
    · rw [if_neg hi] at h
      cases h

theorem terminates_no_period (g : LrefGraph) (y : Nat) (hterm : Terminates g y) :
    ∀ k, 1 ≤ k → iterTgt g k y = some y → False := by
  intro k hk hcyc
  obtain ⟨m, hm⟩ := hterm
  have hper : ∀ q : Nat, iterTgt g (q * k) y = some y := by
    intro q
    induction q with
    | zero => simp [iterTgt]
    | succ p ihp =>
      have hq : (p + 1) * k = p * k + k := by ring
      rw [hq, iterTgt_add, ihp]
      exact hcyc
  have hge : m ≤ m * k := Nat.le_mul_of_pos_right m (by omega)
  have h1 : iterTgt g (m + (m * k - m)) y = none := by
    rw [iterTgt_add, hm]
  have h2 : m + (m * k - m) = m * k := by omega
  rw [h2, hper m] at h1
  cases h1

/-- C2: provided every existing leafref chain terminates, registering a new
leafref whose target chain does not reach the leafref being resolved keeps
every chain terminating; if the chain would close a cycle, the walk of
`lys_leaf_add_leafref_target` reports it (`LYE_CIRC_LEAFREFS`); and in a
graph whose chains all terminate the walk never revisits a node. -/
theorem C2_leafref_acyclic (g : LrefGraph) (leafref target fuel : Nat)
    (hl : g.isLref leafref = true) :
    (lys_leaf_add_leafref_target_check g leafref fuel target = some false →
      (∀ x, Terminates g x) →
      ∀ x, Terminates (registerLeafref g leafref target) x) ∧
    (∀ n, iterTgt g n target = some leafref → n < fuel →
      lys_leaf_add_leafref_target_check g leafref fuel target = some true) ∧
    ((∀ x, Terminates g x) →
      ∀ x n m y, n < m → iterTgt g n x = some y → iterTgt g m x = some y → False) := by
  refine ⟨?_, ?_, ?_⟩
  · intro hchk hterm
    exact register_preserves_terminates g leafref target hl hterm fuel hchk
  · intro n h hf
    exact check_detects g leafref hl n target fuel h hf
  · intro hterm x n m y hnm h1 h2
    have hm : m = n + (m - n) := by omega
    rw [hm, iterTgt_add, h1] at h2
    exact terminates_no_period g y (hterm y) (m - n) (by omega) h2

/-- A two-node leafref graph: nodes 1 and 2 are leafrefs, no target resolved
yet. -/
def lrefExample : LrefGraph :=
  { isLref := fun x => x == 1 || x == 2, tgt := fun _ => none }

/-- Witness for C2: registering `1 → 2` in the example graph passes the
cycle check and every chain still terminates (shown at node 1). -/
theorem C2_leafref_acyclic_witness :
    Terminates (registerLeafref lrefExample 1 2) 1 :=
  (C2_leafref_acyclic lrefExample 1 2 2 rfl).1 rfl
    (fun x => ⟨1, by cases h : lrefExample.isLref x <;> simp [iterTgt, h, lrefExample]⟩) 1

/-! ## NACM flag inheritance (`nacm_inherit`)

`nacm_inherit` walks the module's data tree depth-first.  Modelled from the
spec: the depth-first traversal itself (`LY_TREE_DFS_BEGIN`/`END`, whose
definition lies outside the given sources) visits every node of the data
tree, parents before children; the per-node switch below is translated from
parser_yang.c.  A node with a parent updates its `nacm` field as follows:
grouping, leaf and leaf-list nodes are left unchanged (for leaf and leaf-list
the `child` pointer is temporarily nulled, so their subtrees are not
descended into); choice, anyxml and uses nodes OR in the parent's flags
unless the parent is a grouping; container, list, case, notification, rpc,
input, output and augment nodes OR in the parent's flags unconditionally.
Since parents are visited first, the parent's value used is the
already-inherited one. -/

inductive SNode where
  | node (ntype : NType) (nacm : Nat) (children : List SNode)

def SNode.ntype : SNode → NType
  | .node t _ _ => t

def SNode.nacm : SNode → Nat
  | .node _ a _ => a

def SNode.children : SNode → List SNode
  | .node _ _ c => c

/-- The `switch (elem->nodetype)` of `nacm_inherit`: the new `nacm` value of
a node with a parent, given the node's type and old value, the parent's
(already updated) value, and whether the parent is a grouping. -/
def newNacm : NType → Nat → Nat → Bool → Nat
  | NType.grouping, a, _, _ => a
  | NType.choice, a, p, pgrp => if pgrp then a else a ||| p
  | NType.anyxml, a, p, pgrp => if pgrp then a else a ||| p
  | NType.uses, a, p, pgrp => if pgrp then a else a ||| p
  | NType.leaf, a, _, _ => a
  | NType.leaflist, a, _, _ => a
  | _, a, p, _ => a ||| p

mutual

/-- Process one node that has a parent with (already updated) flags
`pnacm`; `pgrp` tells whether that parent is a grouping. -/
def nacmInheritNode (pnacm : Nat) (pgrp : Bool) : SNode → SNode
  | .node t a cs =>
    if t = NType.leaf ∨ t = NType.leaflist then
      .node t (newNacm t a pnacm pgrp) cs
    else
      .node t (newNacm t a pnacm pgrp)
        (nacmInheritList (newNacm t a pnacm pgrp) (decide (t = NType.grouping)) cs)

def nacmInheritList (pnacm : Nat) (pgrp : Bool) : List SNode → List SNode
  | [] => []
  | c :: cs => nacmInheritNode pnacm pgrp c :: nacmInheritList pnacm pgrp cs

end

/-- Processing of a top-level node (no parent): its own flags are kept and
its subtree inherits downward. -/
def nacmInheritTop : SNode → SNode
  | .node t a cs =>
    if t = NType.leaf ∨ t = NType.leaflist then .node t a cs
    else .node t a (nacmInheritList a (decide (t = NType.grouping)) cs)

/-- `nacm_inherit` (parser_yang.c): top-level nodes have no parent and keep
their flags; their subtrees inherit downward. -/
def nacm_inherit (ds : List SNode) : List SNode :=
  ds.map nacmInheritTop

mutual

/-- Schema well-formedness: leaf and leaf-list nodes have no children (in
the C tree the `child` pointer of a leaf is not a child list at all). -/
def noLeafChildren : SNode → Bool
  | .node t _ cs =>
    (if t = NType.leaf ∨ t = NType.leaflist then cs.isEmpty else true) &&
      noLeafChildrenList cs

def noLeafChildrenList : List SNode → Bool
  | [] => true
  | c :: cs => noLeafChildren c && noLeafChildrenList cs

end

/-- Look a node up by its path of child indices (root list first). -/
def getPath : List Nat → List SNode → Option SNode
  | [], _ => none
  | [i], ns => ns.get? i
  | i :: rest, ns => (ns.get? i).bind fun n => getPath rest n.children

theorem getPath_nil (ns : List SNode) : getPath [] ns = none := rfl

theorem getPath_single (i : Nat) (ns : List SNode) : getPath [i] ns = ns.get? i := rfl

theorem getPath_cons2 (i j : Nat) (rest : List Nat) (ns : List SNode) :
    getPath (i :: j :: rest) ns = (ns.get? i).bind fun n => getPath (j :: rest) n.children := rfl

theorem getPath_empty_forest : ∀ (p : List Nat), getPath p ([] : List SNode) = none
  | [] => rfl
  | [_] => rfl
  | _ :: _ :: _ => rfl

theorem nacmInheritNode_eq (pn : Nat) (pg : Bool) (t : NType) (a : Nat) (cs : List SNode) :
    nacmInheritNode pn pg (.node t a cs) =
      .node t (newNacm t a pn pg)
        (if t = NType.leaf ∨ t = NType.leaflist then cs
         else nacmInheritList (newNacm t a pn pg) (decide (t = NType.grouping)) cs) := by
  by_cases h : t = NType.leaf ∨ t = NType.leaflist <;> simp [nacmInheritNode, h]

theorem nacmInheritNode_ntype (pn : Nat) (pg : Bool) (n : SNode) :
    (nacmInheritNode pn pg n).ntype = n.ntype := by
  cases n with
  | node t a cs => rw [nacmInheritNode_eq]; rfl

theorem nacmInheritNode_nacm (pn : Nat) (pg : Bool) (n : SNode) :
    (nacmInheritNode pn pg n).nacm = newNacm n.ntype n.nacm pn pg := by
  cases n with
  | node t a cs => rw [nacmInheritNode_eq]; rfl

theorem nacmInheritList_get? (pn : Nat) (pg : Bool) :
    ∀ (cs : List SNode) (j : Nat),
      (nacmInheritList pn pg cs).get? j = (cs.get? j).map (nacmInheritNode pn pg) := by
  intro cs
  induction cs with
  | nil => intro j; cases j <;> rfl
  | cons c rest ih =>
    intro j
    cases j with
    | zero => rfl
    | succ m => exact ih m

theorem noLeafChildrenList_get? :
    ∀ (cs : List SNode) (j : Nat) (c : SNode), noLeafChildrenList cs = true →
      cs.get? j = some c → noLeafChildren c = true := by
  intro cs
  induction cs with
  | nil => intro j c _ h; cases j <;> cases h
  | cons c0 rest ih =>
    intro j c hwf hg
    rw [noLeafChildrenList] at hwf
    rw [Bool.and_eq_true] at hwf
    cases j with
    | zero =>
      cases hg
      exact hwf.1
    | succ m => exact ih m c hwf.2 hg

theorem noLeafChildren_parts (t : NType) (a : Nat) (cs : List SNode)
    (h : noLeafChildren (.node t a cs) = true) :
    noLeafChildrenList cs = true ∧ (t = NType.leaf ∨ t = NType.leaflist → cs = []) := by
  rw [noLeafChildren, Bool.and_eq_true] at h
  refine ⟨h.2, ?_⟩
  intro ht
  have := h.1
  rw [if_pos ht] at this
  exact List.isEmpty_iff.mp this

theorem forest_spec :
    ∀ (p : List Nat) (cs : List SNode) (pn : Nat) (pg : Bool),
      noLeafChildrenList cs = true →
      ∀ (i : Nat) (parOut childOut : SNode),
        getPath p (nacmInheritList pn pg cs) = some parOut →
        getPath (p ++ [i]) (nacmInheritList pn pg cs) = some childOut →
        ∃ childIn, getPath (p ++ [i]) cs = some childIn ∧
          childOut = nacmInheritNode parOut.nacm
            (decide (parOut.ntype = NType.grouping)) childIn := by
  intro p
  induction p with
  | nil =>
    intro cs pn pg hwf i parOut childOut hp hc
    cases hp
  | cons j p' ih =>
    intro cs pn pg hwf i parOut childOut hp hc
    cases p' with
    | nil =>
      rw [getPath_single, nacmInheritList_get?] at hp
      rcases hcj : cs.get? j with _ | c
      · rw [hcj] at hp; cases hp
      · rw [hcj] at hp
        simp only [Option.map_some', Option.some.injEq] at hp
        cases c with
        | node t a cs0 =>
          have hwfc := noLeafChildrenList_get? cs j _ hwf hcj
          obtain ⟨hwf0, hleaf0⟩ := noLeafChildren_parts t a cs0 hwfc
          rw [List.singleton_append, getPath_cons2, nacmInheritList_get?, hcj] at hc
          simp only [Option.map_some', Option.some_bind] at hc
          rw [getPath_single] at hc
          rw [nacmInheritNode_eq] at hp hc
          by_cases hl : t = NType.leaf ∨ t = NType.leaflist
          · rw [if_pos hl] at hc
            rw [hleaf0 hl] at hc
            simp only [SNode.children] at hc
            cases hc
          · rw [if_neg hl] at hc
            simp only [SNode.children] at hc
            rw [nacmInheritList_get?] at hc
            rcases hci : cs0.get? i with _ | ci
            · rw [hci] at hc; cases hc
            · rw [hci] at hc
              simp only [Option.map_some', Option.some.injEq] at hc
              refine ⟨ci, ?_, ?_⟩
              · rw [List.singleton_append, getPath_cons2, hcj]
                simp only [Option.some_bind]
                rw [getPath_single]
                exact hci
              · rw [← hp] at *
                rw [← hc]
                rfl
    | cons k p'' =>
      rw [getPath_cons2, nacmInheritList_get?] at hp
      rcases hcj : cs.get? j with _ | c
      · rw [hcj] at hp; cases hp
      · rw [hcj] at hp
        simp only [Option.map_some', Option.some_bind] at hp
        cases c with
        | node t a cs0 =>
          have hwfc := noLeafChildrenList_get? cs j _ hwf hcj
          obtain ⟨hwf0, hleaf0⟩ := noLeafChildren_parts t a cs0 hwfc
          have hc2 : getPath ((k :: p'') ++ [i])
              (nacmInheritNode pn pg (SNode.node t a cs0)).children = some childOut := by
            rw [List.cons_append, List.cons_append, getPath_cons2] at hc
            rw [nacmInheritList_get?, hcj] at hc
            simp only [Option.map_some', Option.some_bind] at hc
            rw [List.cons_append]
            exact hc
          rw [nacmInheritNode_eq] at hp hc2
          by_cases hl : t = NType.leaf ∨ t = NType.leaflist
          · rw [if_pos hl] at hp
            rw [hleaf0 hl] at hp
            simp only [SNode.children] at hp
            rw [getPath_empty_forest] at hp
            cases hp
          · rw [if_neg hl] at hp hc2
            simp only [SNode.children] at hp hc2
            obtain ⟨childIn, hgi, heq⟩ := ih cs0 _ _ hwf0 i parOut childOut hp hc2
            refine ⟨childIn, ?_, heq⟩
            rw [List.cons_append, List.cons_append, getPath_cons2, hcj]
            simp only [Option.some_bind, SNode.children]
            rw [← List.cons_append]
            exact hgi

theorem nacm_inherit_get? (ds : List SNode) (j : Nat) :
    (nacm_inherit ds).get? j = (ds.get? j).map nacmInheritTop := by
  rw [nacm_inherit, List.get?_map]

theorem nacmInheritTop_eq (t : NType) (a : Nat) (cs : List SNode) :
    nacmInheritTop (.node t a cs) =
      if t = NType.leaf ∨ t = NType.leaflist then SNode.node t a cs
      else SNode.node t a (nacmInheritList a (decide (t = NType.grouping)) cs) := by
  by_cases h : t = NType.leaf ∨ t = NType.leaflist <;> simp [nacmInheritTop, h]

/-- C8 (amended): after `nacm_inherit`, top-level nodes keep their NACM
flags; a node with a parent carries `newNacm` of its own flags and its
parent's final flags: grouping, leaf and leaf-list nodes are unchanged,
choice, anyxml and uses nodes OR in the parent's flags unless the parent is
a grouping, and container, list, case, rpc, input, output, notification and
augment nodes OR in the parent's flags unconditionally (even below a
grouping). -/
theorem C8_nacm_inherit (ds : List SNode) (hwf : noLeafChildrenList ds = true) :
    (∀ j nOut, (nacm_inherit ds).get? j = some nOut →
      ∃ nIn, ds.get? j = some nIn ∧ nOut.ntype = nIn.ntype ∧ nOut.nacm = nIn.nacm) ∧
    (∀ p i parOut childOut,
      getPath p (nacm_inherit ds) = some parOut →
      getPath (p ++ [i]) (nacm_inherit ds) = some childOut →
      ∃ childIn, getPath (p ++ [i]) ds = some childIn ∧
        childOut.ntype = childIn.ntype ∧
        childOut.nacm = newNacm childIn.ntype childIn.nacm parOut.nacm
          (decide (parOut.ntype = NType.grouping))) := by
  constructor
  · intro j nOut h
    rw [nacm_inherit_get?] at h
    rcases hdj : ds.get? j with _ | c
    · rw [hdj] at h; cases h
    · rw [hdj] at h
      simp only [Option.map_some', Option.some.injEq] at h
      cases c with
      | node t a cs =>
        refine ⟨SNode.node t a cs, rfl, ?_⟩
        rw [← h, nacmInheritTop_eq]
        by_cases hl : t = NType.leaf ∨ t = NType.leaflist
        · rw [if_pos hl]; exact ⟨rfl, rfl⟩
        · rw [if_neg hl]; exact ⟨rfl, rfl⟩
  · intro p i parOut childOut hp hc
    cases p with
    | nil => cases hp
    | cons j p' =>
      cases p' with
      | nil =>
        rw [getPath_single, nacm_inherit_get?] at hp
        rcases hdj : ds.get? j with _ | c
        · rw [hdj] at hp; cases hp
        · rw [hdj] at hp
          simp only [Option.map_some', Option.some.injEq] at hp
          cases c with
          | node t a cs0 =>
            have hwfc := noLeafChildrenList_get? ds j _ hwf hdj
            obtain ⟨hwf0, hleaf0⟩ := noLeafChildren_parts t a cs0 hwfc
            rw [List.singleton_append, getPath_cons2, nacm_inherit_get?, hdj] at hc
            simp only [Option.map_some', Option.some_bind] at hc
            rw [getPath_single] at hc
            rw [nacmInheritTop_eq] at hp hc
            by_cases hl : t = NType.leaf ∨ t = NType.leaflist
            · rw [if_pos hl] at hc
              rw [hleaf0 hl] at hc
              simp only [SNode.children] at hc
              cases hc
            · rw [if_neg hl] at hc
              simp only [SNode.children] at hc
              rw [nacmInheritList_get?] at hc
              rcases hci : cs0.get? i with _ | ci
              · rw [hci] at hc; cases hc
              · rw [hci] at hc
                simp only [Option.map_some', Option.some.injEq] at hc
                refine ⟨ci, ?_, ?_, ?_⟩
                · rw [List.singleton_append, getPath_cons2, hdj]
                  simp only [Option.some_bind]
                  rw [getPath_single]
                  exact hci
                · rw [← hc]
                  exact nacmInheritNode_ntype a (decide (t = NType.grouping)) ci
                · rw [← hc, ← hp, if_neg hl]
                  exact nacmInheritNode_nacm a (decide (t = NType.grouping)) ci
      | cons k p'' =>
        rw [getPath_cons2, nacm_inherit_get?] at hp
        rcases hdj : ds.get? j with _ | c
        · rw [hdj] at hp; cases hp
        · rw [hdj] at hp
          simp only [Option.map_some', Option.some_bind] at hp
          cases c with
          | node t a cs0 =>
            have hwfc := noLeafChildrenList_get? ds j _ hwf hdj
            obtain ⟨hwf0, hleaf0⟩ := noLeafChildren_parts t a cs0 hwfc
            rw [nacmInheritTop_eq] at hp
            by_cases hl : t = NType.leaf ∨ t = NType.leaflist
            · rw [if_pos hl] at hp
              rw [hleaf0 hl] at hp
              simp only [SNode.children] at hp
              rw [getPath_empty_forest] at hp
              cases hp
            · rw [if_neg hl] at hp
              simp only [SNode.children] at hp
              have hc2 : getPath ((k :: p'') ++ [i])
                  (nacmInheritList a (decide (t = NType.grouping)) cs0) = some childOut := by
                rw [List.cons_append, List.cons_append, getPath_cons2,
                  nacm_inherit_get?, hdj] at hc
                simp only [Option.map_some', Option.some_bind] at hc
                rw [nacmInheritTop_eq, if_neg hl] at hc
                simp only [SNode.children] at hc
                rw [List.cons_append]
                exact hc
              obtain ⟨childIn, hgi, heq⟩ :=
                forest_spec (k :: p'') cs0 a (decide (t = NType.grouping)) hwf0
                  i parOut childOut hp hc2
              refine ⟨childIn, ?_, ?_, ?_⟩
              · rw [List.cons_append, List.cons_append, getPath_cons2, hdj]
                simp only [Option.some_bind, SNode.children]
                rw [← List.cons_append]
                exact hgi
              · rw [heq]
                exact nacmInheritNode_ntype _ _ childIn
              · rw [heq]
                exact nacmInheritNode_nacm _ _ childIn

/-- A container carrying NACM flag 1 with a leaf child carrying flag 0. -/
def nacmExample : List SNode :=
  [SNode.node NType.container 1 [SNode.node NType.leaf 0 []]]

/-- A grouping carrying NACM flag 1 with a container child carrying flag 0. -/
def nacmExample2 : List SNode :=
  [SNode.node NType.grouping 1 [SNode.node NType.container 0 []]]

/-- Counterexample for C8 as stated: the leaf child of a container does not
inherit (its flags stay 0 instead of 0 ||| 1), and the container child of a
grouping does inherit (its flags become 1) although the claim exempts
children of groupings. -/
theorem C8_nacm_inherit_counterexample :
    (getPath [0, 0] (nacm_inherit nacmExample)).map SNode.nacm = some 0 ∧
    some (0 : Nat) ≠ some ((0 : Nat) ||| 1) ∧
    (getPath [0, 0] (nacm_inherit nacmExample2)).map SNode.nacm = some 1 ∧
    some (1 : Nat) ≠ some (0 : Nat) := by
  refine ⟨rfl, by decide, rfl, by decide⟩

/-- Witness for C8: in `nacmExample2` the container child of the grouping
ends with flags `newNacm container 0 1 true = 0 ||| 1`. -/
theorem C8_nacm_inherit_witness :
    ∃ childIn, getPath [0, 0] nacmExample2 = some childIn ∧
      (SNode.node NType.container 1 []).ntype = childIn.ntype ∧
      (SNode.node NType.container 1 []).nacm =
        newNacm childIn.ntype childIn.nacm
          (SNode.node NType.grouping 1 [SNode.node NType.container 1 []]).nacm
          (decide ((SNode.node NType.grouping 1
            [SNode.node NType.container 1 []]).ntype = NType.grouping)) :=
  (C8_nacm_inherit nacmExample2 rfl).2 [0] 0
    (SNode.node NType.grouping 1 [SNode.node NType.container 1 []])
    (SNode.node NType.container 1 []) rfl rfl

/-! ## XML printer: the with-defaults attribute (`xml_print_attrs`)

`xml_print_attrs` (printer_xml.c) first prints
`" %s:default=\"true\"" ` with the prefix of the
`ietf-netconf-with-defaults` module when the node's `dflt` flag is set and
that module is found in the context, and then prints the node's attributes
(with a special `type`/`select` treatment on NETCONF `filter` nodes).
Output is modelled as the list of strings passed to `ly_print`;
`transform_json2xml` and `lyxml_dump_text` are injected collaborators. -/

structure LydAttr where
  modPrefix : String
  name : String
  value : String

structure LydNode where
  dflt : Bool
  schemaName : String
  schemaModName : String
  attrs : List LydAttr

/-- The attribute loop of `xml_print_attrs`.  On a NETCONF filter node a
`type` attribute is printed unprefixed and a `select` attribute is passed
through `transform_json2xml` (printing its namespace bindings first); a
failing transform prints an error marker and aborts the remaining
attributes.  Every other attribute prints as `prefix:name="value"`. -/
def xml_print_attr_loop (rpcFilter : Bool)
    (transform : String → Option (String × List (String × String)))
    (dumpText : String → String) : List LydAttr → List String
  | [] => []
  | attr :: rest =>
    if rpcFilter ∧ attr.name = "type" then
      (" " ++ attr.name ++ "=\"") :: dumpText attr.value :: "\"" ::
        xml_print_attr_loop rpcFilter transform dumpText rest
    else if rpcFilter ∧ attr.name = "select" then
      match transform attr.value with
      | none => ["\"(!error!)\""]
      | some (xmlExpr, nss) =>
        nss.map (fun p => " xmlns:" ++ p.1 ++ "=\"" ++ p.2 ++ "\"") ++
          ((" " ++ attr.name ++ "=\"") :: dumpText xmlExpr :: "\"" ::
            xml_print_attr_loop rpcFilter transform dumpText rest)
    else
      (" " ++ attr.modPrefix ++ ":" ++ attr.name ++ "=\"") :: dumpText attr.value :: "\"" ::
        xml_print_attr_loop rpcFilter transform dumpText rest

/-- `xml_print_attrs` (printer_xml.c).  `wdmod` is the result of
`ly_ctx_get_module(ctx, "ietf-netconf-with-defaults", NULL)`: the prefix of
that module when it is loaded, `none` otherwise. -/
def xml_print_attrs (wdmod : Option String)
    (transform : String → Option (String × List (String × String)))
    (dumpText : String → String) (node : LydNode) : List String :=
  (if node.dflt then
    match wdmod with
    | some pfx => [" " ++ pfx ++ ":default=\"true\""]
    | none => []
  else []) ++
  xml_print_attr_loop
    (node.schemaName = "filter" ∧
      (node.schemaModName = "ietf-netconf" ∨ node.schemaModName = "notifications"))
    transform dumpText node.attrs

/-- C9: when the `ietf-netconf-with-defaults` module is loaded, every
printed node whose `dflt` flag is set carries the `prefix:default="true"`
attribute (emitted first); when the module is not loaded, or the node is not
defaulted, the printed output is exactly the node's own attribute list and
no with-defaults attribute is emitted. -/
theorem C9_with_defaults (wdmod : Option String)
    (transform : String → Option (String × List (String × String)))
    (dumpText : String → String) (node : LydNode) :
    (∀ pfx, wdmod = some pfx → node.dflt = true →
      xml_print_attrs wdmod transform dumpText node =
        (" " ++ pfx ++ ":default=\"true\"") ::
          xml_print_attr_loop
            (node.schemaName = "filter" ∧
              (node.schemaModName = "ietf-netconf" ∨ node.schemaModName = "notifications"))
            transform dumpText node.attrs) ∧
    (wdmod = none →
      xml_print_attrs wdmod transform dumpText node =
        xml_print_attr_loop
          (node.schemaName = "filter" ∧
            (node.schemaModName = "ietf-netconf" ∨ node.schemaModName = "notifications"))
          transform dumpText node.attrs) ∧
    (node.dflt = false →
      xml_print_attrs wdmod transform dumpText node =
        xml_print_attr_loop
          (node.schemaName = "filter" ∧
            (node.schemaModName = "ietf-netconf" ∨ node.schemaModName = "notifications"))
          transform dumpText node.attrs) := by
  refine ⟨?_, ?_, ?_⟩
  · intro pfx hw hd
    rw [xml_print_attrs.eq_def, hd, hw]
    rfl
  · intro hw
    rw [xml_print_attrs.eq_def, hw]
    cases node.dflt <;> rfl
  · intro hd
    rw [xml_print_attrs.eq_def, hd]
    rfl

/-- Witness for C9: a defaulted leaf with the module loaded under prefix
`ncwd` and one ordinary attribute. -/
theorem C9_with_defaults_witness :
    xml_print_attrs (some "ncwd") (fun _ => none) id
      { dflt := true, schemaName := "port", schemaModName := "m",
        attrs := [{ modPrefix := "a", name := "n", value := "v" }] } =
      [" ncwd:default=\"true\"", " a:n=\"", "v", "\""] := by
  rw [(C9_with_defaults (some "ncwd") (fun _ => none) id
      { dflt := true, schemaName := "port", schemaModName := "m",
        attrs := [{ modPrefix := "a", name := "n", value := "v" }] }).1
    "ncwd" rfl rfl]
  rfl

/-! ## Features (`lys_features_change`, `lys_features_enable`,
`lys_features_disable`, `lys_features_state`)

A universe of modules (`FUniv`) indexes both modules and submodules; a
feature's `if-feature` references are `(module index, feature name)` pairs,
matching the C recursion `lys_features_change(f->features[k]->module,
f->features[k]->name, op)`.  `lys_features_change` walks the module's own
features first (enabling recursively when `op` is set), then the features of
the included submodules (with no recursion), returning success early for a
named match and at the end for `"*"`.  The unbounded C recursion carries
explicit fuel; `none` means the fuel ran out. -/

structure LysFeature where
  name : String
  enabled : Bool
  deps : List (Nat × String)
  deriving DecidableEq

structure FMod where
  features : List LysFeature
  incs : List Nat
  deriving DecidableEq

abbrev FUniv := List FMod

def setFeatIn : List LysFeature → Nat → Bool → List LysFeature
  | [], _, _ => []
  | f :: rest, 0, b => { f with enabled := b } :: rest
  | f :: rest, i + 1, b => f :: setFeatIn rest i b

/-- Set the `LYS_FENABLED` bit of feature `i` of module `m`. -/
def setFeat : FUniv → Nat → Nat → Bool → FUniv
  | [], _, _, _ => []
  | md :: rest, 0, i, b => { md with features := setFeatIn md.features i b } :: rest
  | md :: rest, m + 1, i, b => md :: setFeat rest m i b

def getFeat (univ : FUniv) (m i : Nat) : Option LysFeature :=
  (univ.get? m).bind fun md => md.features.get? i

/-- First feature of a list carrying the given name (the C loops return at
the first `strcmp` match). -/
def findFeat : List LysFeature → String → Option LysFeature
  | [], _ => none
  | f :: rest, n => if f.name = n then some f else findFeat rest n

/-- The recursive enabling of the referenced features inside the `if (op)`
branch: the return value of each recursive call is ignored by the C code. -/
def depLoopGen (rec : FUniv → Nat → String → Bool → Option (FUniv × Bool)) (op : Bool) :
    List (Nat × String) → FUniv → Option FUniv
  | [], univ => some univ
  | (dm, dn) :: rest, univ =>
    match rec univ dm dn op with
    | none => none
    | some (univ1, _) => depLoopGen rec op rest univ1

/-- The loop over the module's own features.  The second component of the
result is `some r` when the C loop returned early with result `r`, `none`
when it ran to the end. -/
def featLoopGen (rec : FUniv → Nat → String → Bool → Option (FUniv × Bool))
    (m : Nat) (name : String) (op all : Bool) :
    List Nat → FUniv → Option (FUniv × Option Bool)
  | [], univ => some (univ, none)
  | i :: rest, univ =>
    match getFeat univ m i with
    | none => some (univ, none)
    | some f =>
      if all ∨ f.name = name then
        if op then
          match depLoopGen rec op f.deps (setFeat univ m i true) with
          | none => none
          | some univ2 =>
            if all then featLoopGen rec m name op all rest univ2
            else some (univ2, some true)
        else
          if all then featLoopGen rec m name op all rest (setFeat univ m i false)
          else some (setFeat univ m i false, some true)
      else featLoopGen rec m name op all rest univ

/-- The inner loop over one submodule's features: flags are set or cleared
with no recursion into referenced features. -/
def subFeatLoop (name : String) (op all : Bool) (s : Nat) :
    List Nat → FUniv → FUniv × Option Bool
  | [], univ => (univ, none)
  | i :: rest, univ =>
    match getFeat univ s i with
    | none => (univ, none)
    | some f =>
      if all ∨ f.name = name then
        if all then subFeatLoop name op all s rest (setFeat univ s i op)
        else (setFeat univ s i op, some true)
      else subFeatLoop name op all s rest univ

/-- The loop over the module's submodules. -/
def subLoop (name : String) (op all : Bool) : List Nat → FUniv → FUniv × Option Bool
  | [], univ => (univ, none)
  | s :: srest, univ =>
    let count := match univ.get? s with
      | some md => md.features.length
      | none => 0
    match subFeatLoop name op all s (List.range count) univ with
    | (univ1, some r) => (univ1, some r)
    | (univ1, none) => subLoop name op all srest univ1

/-- `lys_features_change` (parser_yang.c, appended tree_schema.c part). -/
def lys_features_change : Nat → FUniv → Nat → String → Bool → Option (FUniv × Bool)
  | 0, _, _, _, _ => none
  | fuel + 1, univ, m, name, op =>
    match univ.get? m with
    | none => some (univ, false)
    | some md =>
      if name = "" then some (univ, false)
      else
        let all := name = "*"
        match featLoopGen (fun u a b c => lys_features_change fuel u a b c)
            m name op all (List.range md.features.length) univ with
        | none => none
        | some (univ1, some r) => some (univ1, r)
        | some (univ1, none) =>
          match subLoop name op all md.incs univ1 with
          | (univ2, some r) => some (univ2, r)
          | (univ2, none) => some (univ2, all)

def lys_features_enable (fuel : Nat) (univ : FUniv) (m : Nat) (name : String) :
    Option (FUniv × Bool) :=
  lys_features_change fuel univ m name true

def lys_features_disable (fuel : Nat) (univ : FUniv) (m : Nat) (name : String) :
    Option (FUniv × Bool) :=
  lys_features_change fuel univ m name false

/-- The search of `lys_features_state` over one list of submodule indices. -/
def stateSub (univ : FUniv) (name : String) : List Nat → Int
  | [] => -1
  | s :: rest =>
    match (univ.get? s).bind fun md => findFeat md.features name with
    | some f => if f.enabled then 1 else 0
    | none => stateSub univ name rest

/-- `lys_features_state` (parser_yang.c, appended tree_schema.c part):
`1`/`0` for an enabled/disabled feature of the module or of one of its
submodules, `-1` when the feature does not exist. -/
def lys_features_state (univ : FUniv) (m : Nat) (name : String) : Int :=
  match univ.get? m with
  | none => -1
  | some md =>
    match findFeat md.features name with
    | some f => if f.enabled then 1 else 0
    | none => stateSub univ name md.incs

/-! ### Order on feature universes

Enabling only sets `LYS_FENABLED` bits: names, references, inclusion lists
and array shapes are untouched.  `univLe` captures exactly that. -/

def featLe (f1 f2 : LysFeature) : Prop :=
  f2.name = f1.name ∧ f2.deps = f1.deps ∧ (f1.enabled = true → f2.enabled = true)

def modLe (m1 m2 : FMod) : Prop :=
  m2.incs = m1.incs ∧ List.Forall₂ featLe m1.features m2.features

def univLe (u1 u2 : FUniv) : Prop := List.Forall₂ modLe u1 u2

theorem forall₂_refl_of {α : Type} (R : α → α → Prop) (h : ∀ a, R a a) :
    ∀ l : List α, List.Forall₂ R l l := by
  intro l
  induction l with
  | nil => exact List.Forall₂.nil
  | cons a rest ih => exact List.Forall₂.cons (h a) ih

theorem forall₂_trans_of {α : Type} (R : α → α → Prop)
    (h : ∀ a b c, R a b → R b c → R a c) :
    ∀ l1 l2 l3 : List α, List.Forall₂ R l1 l2 → List.Forall₂ R l2 l3 →
      List.Forall₂ R l1 l3 := by
  intro l1
  induction l1 with
  | nil =>
    intro l2 l3 h12 h13
    cases h12
    cases h13
    exact List.Forall₂.nil
  | cons a rest ih =>
    intro l2 l3 h12 h23
    cases h12 with
    | cons hab h12' =>
      cases h23 with
      | cons hbc h23' => exact List.Forall₂.cons (h a _ _ hab hbc) (ih _ _ h12' h23')

theorem forall₂_get? {α : Type} (R : α → α → Prop) :
    ∀ (l1 l2 : List α), List.Forall₂ R l1 l2 →
      ∀ i x, l1.get? i = some x → ∃ y, l2.get? i = some y ∧ R x y := by
  intro l1
  induction l1 with
  | nil => intro l2 h i x hx; cases i <;> cases hx
  | cons a rest ih =>
    intro l2 h i x hx
    cases h with
    | cons hab h' =>
      cases i with
      | zero =>
        cases hx
        exact ⟨_, rfl, hab⟩
      | succ n => exact ih _ h' n x hx

theorem forall₂_get?_rev {α : Type} (R : α → α → Prop) :
    ∀ (l1 l2 : List α), List.Forall₂ R l1 l2 →
      ∀ i y, l2.get? i = some y → ∃ x, l1.get? i = some x ∧ R x y := by
  intro l1
  induction l1 with
  | nil =>
    intro l2 h i y hy
    cases h
    cases i <;> cases hy
  | cons a rest ih =>
    intro l2 h i y hy
    cases h with
    | cons hab h' =>
      cases i with
      | zero =>
        cases hy
        exact ⟨a, rfl, hab⟩
      | succ n => exact ih _ h' n y hy

theorem featLe_refl (f : LysFeature) : featLe f f := ⟨rfl, rfl, fun h => h⟩

theorem featLe_trans (a b c : LysFeature) (h1 : featLe a b) (h2 : featLe b c) :
    featLe a c :=
  ⟨h2.1.trans h1.1, h2.2.1.trans h1.2.1, fun h => h2.2.2 (h1.2.2 h)⟩

theorem modLe_refl (m : FMod) : modLe m m :=
  ⟨rfl, forall₂_refl_of featLe featLe_refl m.features⟩

theorem modLe_trans (a b c : FMod) (h1 : modLe a b) (h2 : modLe b c) : modLe a c :=
  ⟨h2.1.trans h1.1, forall₂_trans_of featLe featLe_trans _ _ _ h1.2 h2.2⟩

theorem univLe_refl (u : FUniv) : univLe u u :=
  forall₂_refl_of modLe modLe_refl u

theorem univLe_trans (a b c : FUniv) (h1 : univLe a b) (h2 : univLe b c) : univLe a c :=
  forall₂_trans_of modLe modLe_trans _ _ _ h1 h2

theorem setFeatIn_forall₂_true :
    ∀ (l : List LysFeature) (i : Nat), List.Forall₂ featLe l (setFeatIn l i true) := by
  intro l
  induction l with
  | nil => intro i; exact List.Forall₂.nil
  | cons f rest ih =>
    intro i
    cases i with
    | zero =>
      refine List.Forall₂.cons ⟨rfl, rfl, fun _ => rfl⟩ ?_
      exact forall₂_refl_of featLe featLe_refl rest
    | succ n => exact List.Forall₂.cons (featLe_refl f) (ih n)

theorem univLe_setFeat_true : ∀ (u : FUniv) (m i : Nat), univLe u (setFeat u m i true) := by
  intro u
  induction u with
  | nil => intro m i; exact List.Forall₂.nil
  | cons md rest ih =>
    intro m i
    cases m with
    | zero =>
      exact List.Forall₂.cons ⟨rfl, setFeatIn_forall₂_true md.features i⟩
        (univLe_refl rest)
    | succ n => exact List.Forall₂.cons (modLe_refl md) (ih n i)

theorem findFeat_le :
    ∀ (l1 l2 : List LysFeature), List.Forall₂ featLe l1 l2 → ∀ n,
      (findFeat l1 n = none → findFeat l2 n = none) ∧
      (∀ f1, findFeat l1 n = some f1 → ∃ f2, findFeat l2 n = some f2 ∧ featLe f1 f2) := by
  intro l1
  induction l1 with
  | nil =>
    intro l2 h n
    cases h
    exact ⟨fun _ => rfl, fun f1 hf => by cases hf⟩
  | cons f rest ih =>
    intro l2 h n
    cases h with
    | cons hf h' =>
      rename_i f2 rest2
      constructor
      · intro hnone
        rw [findFeat] at hnone ⊢
        rw [hf.1]
        by_cases he : f.name = n
        · rw [if_pos he] at hnone; cases hnone
        · rw [if_neg he] at hnone ⊢
          exact (ih rest2 h' n).1 hnone
      · intro f1 hf1
        rw [findFeat] at hf1 ⊢
        rw [hf.1]
        by_cases he : f.name = n
        · rw [if_pos he] at hf1 ⊢
          cases hf1
          exact ⟨f2, rfl, hf⟩
        · rw [if_neg he] at hf1 ⊢
          exact (ih rest2 h' n).2 f1 hf1

/-- `lys_features_state` distinguishing found/not-found and enabled: the
"not disabled" observation is preserved when flags are only turned on. -/
theorem stateSub_le (u1 u2 : FUniv) (hu : univLe u1 u2) (name : String) :
    ∀ incs : List Nat, stateSub u1 name incs ≠ 0 → stateSub u2 name incs ≠ 0 := by
  intro incs
  induction incs with
  | nil => intro h; exact h
  | cons s rest ih =>
    intro h
    rw [stateSub] at h ⊢
    rcases hm1 : u1.get? s with _ | md1
    · rcases hm2 : u2.get? s with _ | md2
      · simp only [hm1, Option.none_bind] at h
        simp only [hm2, Option.none_bind]
        exact ih h
      · obtain ⟨md1', hmd1', _⟩ := forall₂_get?_rev modLe u1 u2 hu s md2 hm2
        rw [hm1] at hmd1'
        cases hmd1'
    · obtain ⟨md2, hm2, hmd⟩ := forall₂_get? modLe u1 u2 hu s md1 hm1
      simp only [hm1, Option.some_bind] at h
      simp only [hm2, Option.some_bind]
      rcases hf1 : findFeat md1.features name with _ | f1
      · rw [hf1] at h
        rw [(findFeat_le md1.features md2.features hmd.2 name).1 hf1]
        exact ih h
      · rw [hf1] at h
        obtain ⟨f2, hf2, hle⟩ := (findFeat_le md1.features md2.features hmd.2 name).2 f1 hf1
        rw [hf2]
        have h2 : (if f1.enabled = true then (1 : Int) else 0) ≠ 0 := h
        show (if f2.enabled = true then (1 : Int) else 0) ≠ 0
        cases he1 : f1.enabled with
        | false => rw [he1] at h2; simp at h2
        | true =>
          rw [hle.2.2 he1]
          simp

theorem state_ne_zero_le (u1 u2 : FUniv) (hu : univLe u1 u2) (m : Nat) (name : String)
    (h : lys_features_state u1 m name ≠ 0) : lys_features_state u2 m name ≠ 0 := by
  rw [lys_features_state] at h ⊢
  rcases hm1 : u1.get? m with _ | md1
  · rcases hm2 : u2.get? m with _ | md2
    · show (-1 : Int) ≠ 0
      decide
    · obtain ⟨md1', hmd1', _⟩ := forall₂_get?_rev modLe u1 u2 hu m md2 hm2
      rw [hm1] at hmd1'
      cases hmd1'
  · obtain ⟨md2, hm2, hmd⟩ := forall₂_get? modLe u1 u2 hu m md1 hm1
    rw [hm1] at h
    rw [hm2]
    have h2 : (match findFeat md1.features name with
      | some f => if f.enabled = true then (1 : Int) else 0
      | none => stateSub u1 name md1.incs) ≠ (0 : Int) := h
    show (match findFeat md2.features name with
      | some f => if f.enabled = true then (1 : Int) else 0
      | none => stateSub u2 name md2.incs) ≠ (0 : Int)
    rcases hf1 : findFeat md1.features name with _ | f1
    · rw [hf1] at h2
      rw [(findFeat_le md1.features md2.features hmd.2 name).1 hf1, hmd.1]
      exact stateSub_le u1 u2 hu name md1.incs h2
    · rw [hf1] at h2
      obtain ⟨f2, hf2, hle⟩ := (findFeat_le md1.features md2.features hmd.2 name).2 f1 hf1
      rw [hf2]
      have h3 : (if f1.enabled = true then (1 : Int) else 0) ≠ 0 := h2
      show (if f2.enabled = true then (1 : Int) else 0) ≠ 0
      cases he1 : f1.enabled with
      | false => rw [he1] at h3; simp at h3
      | true =>
        rw [hle.2.2 he1]
        simp

/-- The recursion argument only ever enables (`op = true` instance). -/
def MonoRec (rec : FUniv → Nat → String → Bool → Option (FUniv × Bool)) : Prop :=
  ∀ u a b r, rec u a b true = some r → univLe u r.1

theorem depLoopGen_mono (rec : FUniv → Nat → String → Bool → Option (FUniv × Bool))
    (hrec : MonoRec rec) :
    ∀ (deps : List (Nat × String)) (u u' : FUniv),
      depLoopGen rec true deps u = some u' → univLe u u' := by
  intro deps
  induction deps with
  | nil =>
    intro u u' h
    cases h
    exact univLe_refl u
  | cons d rest ih =>
    intro u u' h
    rw [depLoopGen] at h
    rcases hr : rec u d.1 d.2 true with _ | p
    · rw [hr] at h; cases h
    · rw [hr] at h
      exact univLe_trans _ _ _ (hrec u d.1 d.2 p hr) (ih p.1 u' h)

theorem featLoopGen_mono (rec : FUniv → Nat → String → Bool → Option (FUniv × Bool))
    (hrec : MonoRec rec) (m : Nat) (name : String) (all : Bool) :
    ∀ (idxs : List Nat) (u : FUniv) (p : FUniv × Option Bool),
      featLoopGen rec m name true all idxs u = some p → univLe u p.1 := by
  intro idxs
  induction idxs with
  | nil =>
    intro u p h
    cases h
    exact univLe_refl u
  | cons i rest ih =>
    intro u p h
    rw [featLoopGen] at h
    rcases hg : getFeat u m i with _ | f
    · rw [hg] at h
      cases h
      exact univLe_refl u
    · rw [hg] at h
      have h2 : (if all = true ∨ f.name = name then
          (match depLoopGen rec true f.deps (setFeat u m i true) with
            | none => none
            | some univ2 =>
              if all = true then featLoopGen rec m name true all rest univ2
              else some (univ2, some true))
          else featLoopGen rec m name true all rest u) = some p := h
      clear h
      by_cases hm : all = true ∨ f.name = name
      · rw [if_pos hm] at h2
        rcases hd : depLoopGen rec true f.deps (setFeat u m i true) with _ | u2
        · rw [hd] at h2
          cases h2
        · rw [hd] at h2
          have h3 : (if all = true then featLoopGen rec m name true all rest u2
              else some (u2, some true)) = some p := h2
          have h1 : univLe u u2 := univLe_trans _ _ _ (univLe_setFeat_true u m i)
            (depLoopGen_mono rec hrec f.deps _ u2 hd)
          by_cases hall : all = true
          · rw [if_pos hall] at h3
            exact univLe_trans _ _ _ h1 (ih u2 p h3)
          · rw [if_neg hall] at h3
            cases h3
            exact h1
      · rw [if_neg hm] at h2
        exact ih u p h2

theorem subFeatLoop_mono (name : String) (all : Bool) (ss : Nat) :
    ∀ (idxs : List Nat) (u : FUniv) (p : FUniv × Option Bool),
      subFeatLoop name true all ss idxs u = p → univLe u p.1 := by
  intro idxs
  induction idxs with
  | nil =>
    intro u p h
    cases h
    exact univLe_refl u
  | cons i rest ih =>
    intro u p h
    rw [subFeatLoop] at h
    rcases hg : getFeat u ss i with _ | f
    · rw [hg] at h
      cases h
      exact univLe_refl u
    · rw [hg] at h
      have h2 : (if all = true ∨ f.name = name then
          (if all = true then subFeatLoop name true all ss rest (setFeat u ss i true)
           else (setFeat u ss i true, some true))
          else subFeatLoop name true all ss rest u) = p := h
      clear h
      by_cases hm : all = true ∨ f.name = name
      · rw [if_pos hm] at h2
        by_cases hall : all = true
        · rw [if_pos hall] at h2
          exact univLe_trans _ _ _ (univLe_setFeat_true u ss i) (ih _ p h2)
        · rw [if_neg hall] at h2
          cases h2
          exact univLe_setFeat_true u ss i
      · rw [if_neg hm] at h2
        exact ih u p h2

theorem subLoop_mono (name : String) (all : Bool) :
    ∀ (ss : List Nat) (u : FUniv) (p : FUniv × Option Bool),
      subLoop name true all ss u = p → univLe u p.1 := by
  intro ss
  induction ss with
  | nil =>
    intro u p h
    cases h
    exact univLe_refl u
  | cons s rest ih =>
    intro u p h
    rw [subLoop] at h
    rcases hs : subFeatLoop name true all s
        (List.range (match u.get? s with
          | some md => md.features.length
          | none => 0)) u with ⟨u1, e⟩
    rw [hs] at h
    have h1 : univLe u u1 := subFeatLoop_mono name all s _ u (u1, e) hs
    cases e with
    | none => exact univLe_trans _ _ _ h1 (ih u1 p h)
    | some r =>
      cases h
      exact h1

theorem change_mono :
    ∀ (fuel : Nat) (u : FUniv) (m : Nat) (name : String) (r : FUniv × Bool),
      lys_features_change fuel u m name true = some r → univLe u r.1 := by
  intro fuel
  induction fuel with
  | zero => intro u m name r h; cases h
  | succ f ih =>
    intro u m name r h
    rw [lys_features_change] at h
    rcases hm : u.get? m with _ | md
    · rw [hm] at h
      cases h
      exact univLe_refl u
    · rw [hm] at h
      have h2 : (if name = "" then some (u, false)
        else
          match featLoopGen (fun u a b c => lys_features_change f u a b c)
              m name true (decide (name = "*")) (List.range md.features.length) u with
          | none => none
          | some (univ1, some r) => some (univ1, r)
          | some (univ1, none) =>
            match subLoop name true (decide (name = "*")) md.incs univ1 with
            | (univ2, some r) => some (univ2, r)
            | (univ2, none) => some (univ2, decide (name = "*"))) = some r := h
      clear h
      by_cases hn : name = ""
      · rw [if_pos hn] at h2
        cases h2
        exact univLe_refl u
      · rw [if_neg hn] at h2
        have hrec : MonoRec (fun u a b c => lys_features_change f u a b c) :=
          fun u1 a b r1 h1 => ih u1 a b r1 h1
        rcases hf : featLoopGen (fun u a b c => lys_features_change f u a b c)
            m name true (decide (name = "*")) (List.range md.features.length) u with _ | p1
        · rw [hf] at h2
          cases h2
        · rw [hf] at h2
          have h1 : univLe u p1.1 := featLoopGen_mono _ hrec m name _ _ u p1 hf
          rcases p1 with ⟨u1, e1⟩
          cases e1 with
          | some r1 =>
            cases h2
            exact h1
          | none =>
            have h3 : (match subLoop name true (decide (name = "*")) md.incs u1 with
              | (univ2, some r) => some (univ2, r)
              | (univ2, none) => some (univ2, decide (name = "*"))) = some r := h2
            clear h2
            rcases hs : subLoop name true (decide (name = "*")) md.incs u1 with ⟨u2, e2⟩
            rw [hs] at h3
            have hm2 : univLe u1 u2 := subLoop_mono name _ md.incs u1 (u2, e2) hs
            cases e2 with
            | some r2 =>
              cases h3
              exact univLe_trans _ _ _ h1 hm2
            | none =>
              cases h3
              exact univLe_trans _ _ _ h1 hm2

/-! ### Characterization of a run on a single feature name

With `all = false` the loops stop at the first name match, so the run is
determined by the first matching index. -/

def findFeatIdx : List LysFeature → String → Option (Nat × LysFeature)
  | [], _ => none
  | f :: rest, n =>
    if f.name = n then some (0, f)
    else (findFeatIdx rest n).map fun p => (p.1 + 1, p.2)

/-- First submodule (in `incs` order) holding a feature of the given name,
together with that feature's index. -/
def subFirst (u : FUniv) (name : String) : List Nat → Option (Nat × Nat × LysFeature)
  | [] => none
  | s :: rest =>
    match (u.get? s).bind fun md => findFeatIdx md.features name with
    | some (i, f) => some (s, i, f)
    | none => subFirst u name rest

theorem findFeatIdx_get :
    ∀ (l : List LysFeature) (n : String) (i : Nat) (f : LysFeature),
      findFeatIdx l n = some (i, f) → l.get? i = some f ∧ f.name = n := by
  intro l
  induction l with
  | nil => intro n i f h; cases h
  | cons f0 rest ih =>
    intro n i f h
    rw [findFeatIdx] at h
    by_cases he : f0.name = n
    · rw [if_pos he] at h
      cases h
      exact ⟨rfl, he⟩
    · rw [if_neg he] at h
      rcases hr : findFeatIdx rest n with _ | p
      · rw [hr] at h; cases h
      · rw [hr] at h
        simp only [Option.map_some', Option.some.injEq] at h
        obtain ⟨hp, hf⟩ := ih n p.1 p.2 hr
        cases h
        exact ⟨hp, hf⟩

theorem findFeat_eq_findFeatIdx (l : List LysFeature) (n : String) :
    findFeat l n = (findFeatIdx l n).map (·.2) := by
  induction l with
  | nil => rfl
  | cons f0 rest ih =>
    rw [findFeat, findFeatIdx]
    by_cases he : f0.name = n
    · rw [if_pos he, if_pos he]
      rfl
    · rw [if_neg he, if_neg he, ih]
      rcases findFeatIdx rest n with _ | p <;> rfl

theorem featLoop_named (rec : FUniv → Nat → String → Bool → Option (FUniv × Bool))
    (m : Nat) (name : String) (op : Bool) :
    ∀ (l : List LysFeature) (start : Nat) (u : FUniv),
      (∀ j, getFeat u m (start + j) = l.get? j) →
      featLoopGen rec m name op false (List.range' start l.length) u =
        match findFeatIdx l name with
        | none => some (u, none)
        | some (i, f) =>
          if op then
            match depLoopGen rec op f.deps (setFeat u m (start + i) true) with
            | none => none
            | some u2 => some (u2, some true)
          else some (setFeat u m (start + i) false, some true) := by
  intro l
  induction l with
  | nil =>
    intro start u halign
    rfl
  | cons f0 rest ih =>
    intro start u halign
    have hg0 : getFeat u m start = some f0 := by
      have := halign 0
      simpa using this
    rw [List.length_cons, List.range'_succ, featLoopGen, hg0]
    rw [findFeatIdx]
    by_cases he : f0.name = name
    · rw [if_pos he]
      have hT : (false = true ∨ f0.name = name) = True := eq_true (Or.inr he)
      simp only [hT, if_true]
      cases op with
      | true =>
        show (match depLoopGen rec true f0.deps (setFeat u m start true) with
          | none => none
          | some univ2 => some (univ2, some true)) =
          (match depLoopGen rec true f0.deps (setFeat u m (start + 0) true) with
            | none => none
            | some u2 => some (u2, some true))
        rw [Nat.add_zero]
      | false =>
        show some (setFeat u m start false, some true) =
          some (setFeat u m (start + 0) false, some true)
        rw [Nat.add_zero]
    · rw [if_neg he]
      have hF : (false = true ∨ f0.name = name) = False := by
        apply eq_false
        intro hor
        rcases hor with h1 | h1
        · cases h1
        · exact he h1
      simp only [hF, if_false]
      have halign2 : ∀ j, getFeat u m (start + 1 + j) = rest.get? j := by
        intro j
        have := halign (j + 1)
        rw [show start + (j + 1) = start + 1 + j from by omega] at this
        simpa using this
      rw [ih (start + 1) u halign2]
      rcases hr : findFeatIdx rest name with _ | p
      · rfl
      · show (match (some (p.1 + 1, p.2) : Option (Nat × LysFeature)) with
          | none => some (u, none)
          | some (i, f) =>
            if op then
              match depLoopGen rec op f.deps (setFeat u m (start + 1 + p.1) true) with
              | none => none
              | some u2 => some (u2, some true)
            else some (setFeat u m (start + 1 + p.1) false, some true)) =
          (match (some (p.1 + 1, p.2) : Option (Nat × LysFeature)) with
          | none => some (u, none)
          | some (i, f) =>
            if op then
              match depLoopGen rec op f.deps (setFeat u m (start + (p.1 + 1)) true) with
              | none => none
              | some u2 => some (u2, some true)
            else some (setFeat u m (start + (p.1 + 1)) false, some true))
        rw [show start + 1 + p.1 = start + (p.1 + 1) from by omega]

theorem subFeatLoop_named (name : String) (op : Bool) (ss : Nat) :
    ∀ (l : List LysFeature) (start : Nat) (u : FUniv),
      (∀ j, getFeat u ss (start + j) = l.get? j) →
      subFeatLoop name op false ss (List.range' start l.length) u =
        match findFeatIdx l name with
        | none => (u, none)
        | some (i, _) => (setFeat u ss (start + i) op, some true) := by
  intro l
  induction l with
  | nil =>
    intro start u halign
    rfl
  | cons f0 rest ih =>
    intro start u halign
    have hg0 : getFeat u ss start = some f0 := by
      have := halign 0
      simpa using this
    rw [List.length_cons, List.range'_succ, subFeatLoop, hg0]
    rw [findFeatIdx]
    by_cases he : f0.name = name
    · rw [if_pos he]
      have hT : (false = true ∨ f0.name = name) = True := eq_true (Or.inr he)
      simp only [hT, if_true]
      show (setFeat u ss start op, some true) = (setFeat u ss (start + 0) op, some true)
      rw [Nat.add_zero]
    · rw [if_neg he]
      have hF : (false = true ∨ f0.name = name) = False := by
        apply eq_false
        intro hor
        rcases hor with h1 | h1
        · cases h1
        · exact he h1
      simp only [hF, if_false]
      have halign2 : ∀ j, getFeat u ss (start + 1 + j) = rest.get? j := by
        intro j
        have := halign (j + 1)
        rw [show start + (j + 1) = start + 1 + j from by omega] at this
        simpa using this
      rw [ih (start + 1) u halign2]
      rcases hr : findFeatIdx rest name with _ | p
      · rfl
      · show (setFeat u ss (start + 1 + p.1) op, some true) =
          (setFeat u ss (start + (p.1 + 1)) op, some true)
        rw [show start + 1 + p.1 = start + (p.1 + 1) from by omega]

theorem subLoop_named (name : String) (op : Bool) :
    ∀ (incs : List Nat) (u : FUniv),
      subLoop name op false incs u =
        match subFirst u name incs with
        | none => (u, none)
        | some (s, i, _) => (setFeat u s i op, some true) := by
  intro incs
  induction incs with
  | nil => intro u; rfl
  | cons s srest ih =>
    intro u
    rw [subLoop, subFirst]
    rcases hm : u.get? s with _ | md
    · exact ih u
    · show (match subFeatLoop name op false s (List.range md.features.length) u with
        | (univ1, some r) => (univ1, some r)
        | (univ1, none) => subLoop name op false srest univ1) =
        match (match findFeatIdx md.features name with
          | some (i, f) => some (s, i, f)
          | none => subFirst u name srest) with
        | none => (u, none)
        | some (t, i, _) => (setFeat u t i op, some true)
      have halign : ∀ j, getFeat u s (0 + j) = md.features.get? j := by
        intro j
        rw [getFeat, hm, Nat.zero_add]
        rfl
      have hloop := subFeatLoop_named name op s md.features 0 u halign
      rw [List.range_eq_range', hloop]
      rcases hr : findFeatIdx md.features name with _ | p
      · simp only [hr]
        exact ih u
      · simp only [hr, Nat.zero_add]

/-- One unfolding of `lys_features_change` on a plain feature name: the run is
the first-match action on the main module, else the first-match action on the
first submodule holding the name, else a no-op returning `false`. -/
theorem change_named (fuel : Nat) (u : FUniv) (m : Nat) (name : String) (op : Bool)
    (md : FMod) (hm : u.get? m = some md) (hn1 : name ≠ "") (hn2 : name ≠ "*") :
    lys_features_change (fuel + 1) u m name op =
      match findFeatIdx md.features name with
      | some (i, f) =>
        if op then
          match depLoopGen (fun a b c d => lys_features_change fuel a b c d) op f.deps
              (setFeat u m i true) with
          | none => none
          | some u2 => some (u2, true)
        else some (setFeat u m i false, true)
      | none =>
        match subFirst u name md.incs with
        | some (s, i, _) => some (setFeat u s i op, true)
        | none => some (u, false) := by
  rw [lys_features_change, hm]
  simp only [if_neg hn1]
  have hstar : (name = "*") = False := eq_false hn2
  simp only [hstar, decide_False]
  have halign : ∀ j, getFeat u m (0 + j) = md.features.get? j := by
    intro j
    rw [getFeat, hm, Nat.zero_add]
    rfl
  have hfl := featLoop_named (fun a b c d => lys_features_change fuel a b c d)
    m name op md.features 0 u halign
  simp only [Nat.zero_add] at hfl
  rw [List.range_eq_range', hfl]
  rcases hr : findFeatIdx md.features name with _ | p
  · show (match subLoop name op false md.incs u with
      | (univ1, some r) => some (univ1, r)
      | (univ2, none) => some (univ2, false)) =
      match subFirst u name md.incs with
      | some (t, i, _) => some (setFeat u t i op, true)
      | none => some (u, false)
    rw [subLoop_named]
    rcases hs : subFirst u name md.incs with _ | ⟨t, i, f⟩
    · rfl
    · rfl
  · obtain ⟨i, f⟩ := p
    cases op with
    | false => rfl
    | true =>
      show (match (match depLoopGen (fun a b c d => lys_features_change fuel a b c d) true
            f.deps (setFeat u m i true) with
          | none => none
          | some univ2 => some (univ2, some true)) with
        | none => none
        | some (univ1, some r) => some (univ1, r)
        | some (univ1, none) =>
          match subLoop name true false md.incs univ1 with
          | (univ1, some r) => some (univ1, r)
          | (univ2, none) => some (univ2, false)) =
        match depLoopGen (fun a b c d => lys_features_change fuel a b c d) true f.deps
            (setFeat u m i true) with
        | none => none
        | some u2 => some (u2, true)
      rcases hd : depLoopGen (fun a b c d => lys_features_change fuel a b c d) true f.deps
          (setFeat u m i true) with _ | u2
      · rfl
      · rfl

/-! ### Pointwise lookup lemmas -/

theorem getFeat_le (u1 u2 : FUniv) (hu : univLe u1 u2) (m i : Nat) (f1 : LysFeature)
    (h : getFeat u1 m i = some f1) :
    ∃ f2, getFeat u2 m i = some f2 ∧ featLe f1 f2 := by
  rw [getFeat] at h
  rcases hm1 : u1.get? m with _ | md1
  · rw [hm1] at h; cases h
  · rw [hm1] at h
    obtain ⟨md2, hmd2, hle⟩ := forall₂_get? modLe u1 u2 hu m md1 hm1
    obtain ⟨f2, hf2, hfle⟩ := forall₂_get? featLe md1.features md2.features hle.2 i f1 h
    exact ⟨f2, by rw [getFeat, hmd2]; exact hf2, hfle⟩

theorem getFeat_le_rev (u1 u2 : FUniv) (hu : univLe u1 u2) (m i : Nat) (f2 : LysFeature)
    (h : getFeat u2 m i = some f2) :
    ∃ f1, getFeat u1 m i = some f1 ∧ featLe f1 f2 := by
  rw [getFeat] at h
  rcases hm2 : u2.get? m with _ | md2
  · rw [hm2] at h; cases h
  · rw [hm2] at h
    obtain ⟨md1, hmd1, hle⟩ := forall₂_get?_rev modLe u1 u2 hu m md2 hm2
    obtain ⟨f1, hf1, hfle⟩ := forall₂_get?_rev featLe md1.features md2.features hle.2 i f2 h
    exact ⟨f1, by rw [getFeat, hmd1]; exact hf1, hfle⟩

theorem univLe_enabled (u1 u2 : FUniv) (hu : univLe u1 u2) (m i : Nat) (f1 : LysFeature)
    (h : getFeat u1 m i = some f1) (he : f1.enabled = true) :
    ∃ f2, getFeat u2 m i = some f2 ∧ f2.enabled = true := by
  obtain ⟨f2, hf2, hle⟩ := getFeat_le u1 u2 hu m i f1 h
  exact ⟨f2, hf2, hle.2.2 he⟩

theorem findFeatIdx_le :
    ∀ (l1 l2 : List LysFeature), List.Forall₂ featLe l1 l2 → ∀ n,
      (findFeatIdx l1 n = none → findFeatIdx l2 n = none) ∧
      (∀ i f1, findFeatIdx l1 n = some (i, f1) →
        ∃ f2, findFeatIdx l2 n = some (i, f2) ∧ featLe f1 f2) := by
  intro l1
  induction l1 with
  | nil =>
    intro l2 h n
    cases h
    exact ⟨fun _ => rfl, fun i f1 h1 => by cases h1⟩
  | cons a rest ih =>
    intro l2 h n
    cases h with
    | cons hab htail =>
      rename_i b l2'
      have hn : b.name = a.name := hab.1
      constructor
      · intro h1
        rw [findFeatIdx] at h1 ⊢
        rw [hn]
        by_cases he : a.name = n
        · rw [if_pos he] at h1; cases h1
        · rw [if_neg he] at h1 ⊢
          rcases hr : findFeatIdx rest n with _ | p
          · rw [(ih l2' htail n).1 hr]
            rfl
          · rw [hr] at h1; cases h1
      · intro i f1 h1
        rw [findFeatIdx] at h1 ⊢
        rw [hn]
        by_cases he : a.name = n
        · rw [if_pos he] at h1 ⊢
          cases h1
          exact ⟨b, rfl, hab⟩
        · rw [if_neg he] at h1 ⊢
          rcases hr : findFeatIdx rest n with _ | p
          · rw [hr] at h1; cases h1
          · rw [hr] at h1
            simp only [Option.map_some', Option.some.injEq] at h1
            obtain ⟨f2, hf2, hfle⟩ := (ih l2' htail n).2 p.1 p.2 hr
            rw [hf2]
            refine ⟨f2, ?_, ?_⟩
            · simp only [Option.map_some', Option.some.injEq]
              cases h1
              rfl
            · cases h1
              exact hfle

/-! ### setFeat lookup lemmas -/

theorem setFeatIn_get?_self :
    ∀ (l : List LysFeature) (i : Nat) (b : Bool) (f : LysFeature), l.get? i = some f →
      (setFeatIn l i b).get? i = some { f with enabled := b } := by
  intro l
  induction l with
  | nil => intro i b f h; cases i <;> cases h
  | cons a rest ih =>
    intro i b f h
    cases i with
    | zero =>
      cases h
      rfl
    | succ j =>
      exact ih j b f h

theorem setFeatIn_get?_other :
    ∀ (l : List LysFeature) (i : Nat) (b : Bool) (j : Nat), j ≠ i →
      (setFeatIn l i b).get? j = l.get? j := by
  intro l
  induction l with
  | nil => intro i b j _; cases i <;> rfl
  | cons a rest ih =>
    intro i b j hne
    cases i with
    | zero =>
      cases j with
      | zero => exact absurd rfl hne
      | succ k => rfl
    | succ i' =>
      cases j with
      | zero => rfl
      | succ k =>
        show (setFeatIn rest i' b).get? k = rest.get? k
        exact ih i' b k (fun he => hne (by rw [he]))

theorem setFeat_get?_self :
    ∀ (u : FUniv) (m i : Nat) (b : Bool) (md : FMod), u.get? m = some md →
      (setFeat u m i b).get? m = some { md with features := setFeatIn md.features i b } := by
  intro u
  induction u with
  | nil => intro m i b md h; cases m <;> cases h
  | cons md0 rest ih =>
    intro m i b md h
    cases m with
    | zero =>
      cases h
      rfl
    | succ m' =>
      exact ih m' i b md h

theorem setFeat_get?_other :
    ∀ (u : FUniv) (m i : Nat) (b : Bool) (m2 : Nat), m2 ≠ m →
      (setFeat u m i b).get? m2 = u.get? m2 := by
  intro u
  induction u with
  | nil => intro m i b m2 _; cases m <;> rfl
  | cons md0 rest ih =>
    intro m i b m2 hne
    cases m with
    | zero =>
      cases m2 with
      | zero => exact absurd rfl hne
      | succ k => rfl
    | succ m' =>
      cases m2 with
      | zero => rfl
      | succ k =>
        show (setFeat rest m' i b).get? k = rest.get? k
        exact ih m' i b k (fun he => hne (by rw [he]))

theorem setFeat_get?_none :
    ∀ (u : FUniv) (m i : Nat) (b : Bool), u.get? m = none →
      (setFeat u m i b).get? m = none := by
  intro u
  induction u with
  | nil => intro m i b _; cases m <;> rfl
  | cons md0 rest ih =>
    intro m i b h
    cases m with
    | zero => cases h
    | succ m' => exact ih m' i b h

theorem getFeat_setFeat_self (u : FUniv) (m i : Nat) (b : Bool) (f : LysFeature)
    (h : getFeat u m i = some f) :
    getFeat (setFeat u m i b) m i = some { f with enabled := b } := by
  rw [getFeat] at h ⊢
  rcases hm : u.get? m with _ | md
  · rw [hm] at h; cases h
  · rw [hm] at h
    rw [setFeat_get?_self u m i b md hm]
    exact setFeatIn_get?_self md.features i b f h

theorem getFeat_setFeat_other (u : FUniv) (m i : Nat) (b : Bool) (m2 i2 : Nat)
    (h : m2 ≠ m ∨ i2 ≠ i) :
    getFeat (setFeat u m i b) m2 i2 = getFeat u m2 i2 := by
  rw [getFeat, getFeat]
  rcases h with h | h
  · rw [setFeat_get?_other u m i b m2 h]
  · by_cases hm2 : m2 = m
    · subst hm2
      rcases hm : u.get? m2 with _ | md
      · rw [setFeat_get?_none u m2 i b hm]
      · rw [setFeat_get?_self u m2 i b md hm]
        show (setFeatIn md.features i b).get? i2 = md.features.get? i2
        exact setFeatIn_get?_other md.features i b i2 h
    · rw [setFeat_get?_other u m i b m2 hm2]

/-! ### Well-formed feature names

YANG identifiers are never empty and never the literal `*`; under that
assumption every name handed to a recursive `lys_features_change` call by the
dependency loop takes the plain-name path. -/

def goodNamesB (u : FUniv) : Bool :=
  u.all fun md => md.features.all fun f =>
    (!(f.name = "" : Bool)) && (!(f.name = "*" : Bool)) &&
      (f.deps.all fun d => (!(d.2 = "" : Bool)) && (!(d.2 = "*" : Bool)))

theorem goodNamesB_getFeat (u : FUniv) (hg : goodNamesB u = true) (m i : Nat)
    (f : LysFeature) (h : getFeat u m i = some f) :
    f.name ≠ "" ∧ f.name ≠ "*" ∧ ∀ d ∈ f.deps, d.2 ≠ "" ∧ d.2 ≠ "*" := by
  rw [getFeat] at h
  rcases hm : u.get? m with _ | md
  · rw [hm] at h; cases h
  · rw [hm] at h
    have hmem : md ∈ u := List.get?_mem hm
    have hfm : f ∈ md.features := List.get?_mem h
    rw [goodNamesB, List.all_eq_true] at hg
    have h1 := hg md hmem
    rw [List.all_eq_true] at h1
    have h2 := h1 f hfm
    simp only [Bool.and_eq_true, Bool.not_eq_true', decide_eq_false_iff_not,
      List.all_eq_true] at h2
    exact ⟨h2.1.1, h2.1.2, fun d hd => h2.2 d hd⟩

theorem goodNamesB_le (u1 u2 : FUniv) (hu : univLe u1 u2) (hg : goodNamesB u1 = true) :
    goodNamesB u2 = true := by
  rw [goodNamesB, List.all_eq_true]
  intro md2 hmem2
  obtain ⟨i, hi⟩ := List.get_of_mem hmem2
  have hget2 : u2.get? i = some md2 := by
    rw [List.get?_eq_get i.2]
    rw [hi]
  obtain ⟨md1, hmd1, hle⟩ := forall₂_get?_rev modLe u1 u2 hu i md2 hget2
  rw [List.all_eq_true]
  intro f2 hf2
  obtain ⟨j, hj⟩ := List.get_of_mem hf2
  have hgf2 : md2.features.get? j = some f2 := by
    rw [List.get?_eq_get j.2]
    rw [hj]
  obtain ⟨f1, hgf1, hfle⟩ := forall₂_get?_rev featLe md1.features md2.features hle.2 j f2 hgf2
  have hmem1 : md1 ∈ u1 := List.get?_mem hmd1
  have hfmem1 : f1 ∈ md1.features := List.get?_mem hgf1
  rw [goodNamesB, List.all_eq_true] at hg
  have h1 := hg md1 hmem1
  rw [List.all_eq_true] at h1
  have h2 := h1 f1 hfmem1
  rw [hfle.1, hfle.2.1]
  exact h2

/-! ### Reachability along if-feature references

`FReach u m n m2 n2`: the pair `(m2, n2)` is reachable from `(m, n)` by
repeatedly resolving the current name in the current module's own feature
array (first match) and following one of its `if-feature` references. -/

inductive FReach (u : FUniv) : Nat → String → Nat → String → Prop where
  | refl (m : Nat) (n : String) : FReach u m n m n
  | step {m : Nat} {n : String} {md : FMod} {i : Nat} {f : LysFeature}
      {dm : Nat} {dn : String} {m2 : Nat} {n2 : String} :
      u.get? m = some md → findFeatIdx md.features n = some (i, f) →
      (dm, dn) ∈ f.deps → FReach u dm dn m2 n2 → FReach u m n m2 n2

theorem FReach_le (u1 u2 : FUniv) (hu : univLe u1 u2) :
    ∀ m n m2 n2, FReach u1 m n m2 n2 → FReach u2 m n m2 n2 := by
  intro m n m2 n2 h
  induction h with
  | refl m n => exact FReach.refl m n
  | step hmd hidx hdep _ ih =>
    rename_i m n md i f dm dn m2' n2' hr
    obtain ⟨md2, hmd2, hmle⟩ := forall₂_get? modLe u1 u2 hu _ md hmd
    obtain ⟨f2, hf2, hfle⟩ := (findFeatIdx_le md.features md2.features hmle.2 n).2 i f hidx
    exact FReach.step hmd2 hf2 (by rw [hfle.2.1]; exact hdep) ih

theorem FReach_good (u : FUniv) (hg : goodNamesB u = true) :
    ∀ m n m2 n2, FReach u m n m2 n2 → n ≠ "" → n ≠ "*" → n2 ≠ "" ∧ n2 ≠ "*" := by
  intro m n m2 n2 h
  induction h with
  | refl m n =>
    intro h1 h2
    exact ⟨h1, h2⟩
  | step hmd hidx hdep hr ih =>
    rename_i ma na md i f dm dn m2a n2a
    intro _ _
    have hget : getFeat u ma i = some f := by
      rw [getFeat, hmd]
      exact (findFeatIdx_get md.features na i f hidx).1
    have hgood := goodNamesB_getFeat u hg ma i f hget
    have hdn := hgood.2.2 (dm, dn) hdep
    exact ih hdn.1 hdn.2

theorem change_monoRec (fuel : Nat) :
    MonoRec (fun a b c d => lys_features_change fuel a b c d) :=
  fun u a b r h => change_mono fuel u a b r h

/-- Every reference in the dependency list is handed to a successful recursive
call somewhere along a successful run of the dependency loop. -/
theorem depLoopGen_visits (fuel : Nat) :
    ∀ (deps : List (Nat × String)) (u0 uF : FUniv),
      depLoopGen (fun a b c d => lys_features_change fuel a b c d) true deps u0 = some uF →
      ∀ p ∈ deps, ∃ uin uout rk,
        lys_features_change fuel uin p.1 p.2 true = some (uout, rk) ∧
        univLe u0 uin ∧ univLe uout uF := by
  intro deps
  induction deps with
  | nil =>
    intro u0 uF h p hp
    cases hp
  | cons d rest ih =>
    intro u0 uF h p hp
    obtain ⟨dm, dn⟩ := d
    rw [depLoopGen] at h
    rcases hc : lys_features_change fuel u0 dm dn true with _ | ⟨u1, rr⟩
    · rw [hc] at h
      cases h
    · rw [hc] at h
      have h2 : depLoopGen (fun a b c d => lys_features_change fuel a b c d) true rest u1 =
          some uF := h
      rcases List.mem_cons.mp hp with hp | hp
      · refine ⟨u0, u1, rr, ?_, univLe_refl u0, ?_⟩
        · rw [hp]
          exact hc
        · exact depLoopGen_mono _ (change_monoRec fuel) rest u1 uF h2
      · obtain ⟨uin, uout, rk, ha, hb, hcle⟩ := ih u1 uF h2 p hp
        refine ⟨uin, uout, rk, ha, ?_, hcle⟩
        exact univLe_trans _ _ _ (change_mono fuel u0 dm dn (u1, rr) hc) hb

/-- A successful `lys_features_change ... true` run on a plain name enables,
at its resolved position, every pair reachable from the requested one through
if-feature references, whenever that pair resolves in its module's own
feature array. -/
theorem enable_reaches :
    ∀ (fuel : Nat) (u : FUniv) (m : Nat) (name : String) (u' : FUniv) (r : Bool),
      goodNamesB u = true → name ≠ "" → name ≠ "*" →
      lys_features_change fuel u m name true = some (u', r) →
      ∀ m2 n2, FReach u m name m2 n2 →
      ∀ md2 i2 f2, u.get? m2 = some md2 → findFeatIdx md2.features n2 = some (i2, f2) →
      ∃ f2', getFeat u' m2 i2 = some f2' ∧ f2'.enabled = true := by
  intro fuel
  induction fuel with
  | zero =>
    intro u m name u' r _ _ _ h
    cases h
  | succ fg ih =>
    intro u m name u' r hg hn1 hn2 h m2 n2 hreach md2 i2 f2 hmd2 hfi
    rcases hm : u.get? m with _ | md
    · cases hreach with
      | refl _ _ =>
        rw [hm] at hmd2
        cases hmd2
      | step hmd' hidx' hdep' hr' =>
        rw [hm] at hmd'
        cases hmd'
    · rw [change_named fg u m name true md hm hn1 hn2] at h
      rcases hidx : findFeatIdx md.features name with _ | ⟨i, f⟩
      · cases hreach with
        | refl _ _ =>
          rw [hm] at hmd2
          cases hmd2
          rw [hidx] at hfi
          cases hfi
        | step hmd' hidx' hdep' hr' =>
          rw [hm] at hmd'
          cases hmd'
          rw [hidx] at hidx'
          cases hidx'
      · rw [hidx] at h
        have h2 : (match depLoopGen (fun a b c d => lys_features_change fg a b c d) true
              f.deps (setFeat u m i true) with
            | none => none
            | some u2 => some (u2, true)) = some (u', r) := h
        rcases hd : depLoopGen (fun a b c d => lys_features_change fg a b c d) true
            f.deps (setFeat u m i true) with _ | u2
        · rw [hd] at h2
          cases h2
        · rw [hd] at h2
          cases h2
          have hgetf : getFeat u m i = some f := by
            rw [getFeat, hm]
            exact (findFeatIdx_get md.features name i f hidx).1
          have hle0 : univLe (setFeat u m i true) u' :=
            depLoopGen_mono _ (change_monoRec fg) f.deps _ u' hd
          cases hreach with
          | refl _ _ =>
            rw [hm] at hmd2
            cases hmd2
            rw [hidx] at hfi
            cases hfi
            have hset : getFeat (setFeat u m i2 true) m i2 =
                some { f2 with enabled := true } :=
              getFeat_setFeat_self u m i2 true f2 hgetf
            exact univLe_enabled _ _ hle0 m i2 _ hset rfl
          | step hmd' hidx' hdep' hr' =>
            rw [hm] at hmd'
            cases hmd'
            rw [hidx] at hidx'
            cases hidx'
            rename_i dm dn
            obtain ⟨uin, uout, rk, hcall, hinle, houtle⟩ :=
              depLoopGen_visits fg f.deps (setFeat u m i true) u' hd (dm, dn) hdep'
            have huuin : univLe u uin :=
              univLe_trans _ _ _ (univLe_setFeat_true u m i) hinle
            have hgin : goodNamesB uin = true := goodNamesB_le u uin huuin hg
            have hdn := (goodNamesB_getFeat u hg m i f hgetf).2.2 (dm, dn) hdep'
            have hrin : FReach uin dm dn m2 n2 := FReach_le u uin huuin dm dn m2 n2 hr'
            obtain ⟨mdin, hmdin, hmle⟩ := forall₂_get? modLe u uin huuin m2 md2 hmd2
            obtain ⟨f2in, hf2in, _⟩ :=
              (findFeatIdx_le md2.features mdin.features hmle.2 n2).2 i2 f2 hfi
            obtain ⟨f2out, hf2out, hen⟩ := ih uin dm dn uout rk hgin hdn.1 hdn.2 hcall
              m2 n2 hrin mdin i2 f2in hmdin hf2in
            exact univLe_enabled uout u' houtle m2 i2 f2out hf2out hen

/-! ### The `"*"` enabling pass -/

theorem getFeat_isSome_le (u1 u2 : FUniv) (hu : univLe u1 u2) (m i : Nat)
    (h : (getFeat u1 m i).isSome = true) : (getFeat u2 m i).isSome = true := by
  rcases hg : getFeat u1 m i with _ | f1
  · rw [hg] at h; cases h
  · obtain ⟨f2, hf2, _⟩ := getFeat_le u1 u2 hu m i f1 hg
    rw [hf2]
    rfl

theorem featLoop_star (rec : FUniv → Nat → String → Bool → Option (FUniv × Bool))
    (hrec : MonoRec rec) (m : Nat) (name : String) :
    ∀ (idxs : List Nat) (u0 : FUniv) (p : FUniv × Option Bool),
      featLoopGen rec m name true true idxs u0 = some p →
      (∀ i ∈ idxs, (getFeat u0 m i).isSome = true) →
      p.2 = none ∧ ∀ i ∈ idxs, ∀ f, getFeat p.1 m i = some f → f.enabled = true := by
  intro idxs
  induction idxs with
  | nil =>
    intro u0 p h _
    cases h
    exact ⟨rfl, fun i hi => by cases hi⟩
  | cons i rest ih =>
    intro u0 p h hsome
    rw [featLoopGen] at h
    rcases hgf : getFeat u0 m i with _ | f
    · have := hsome i (List.mem_cons_self i rest)
      rw [hgf] at this
      cases this
    · rw [hgf] at h
      have h2 : (match depLoopGen rec true f.deps (setFeat u0 m i true) with
          | none => none
          | some univ2 => featLoopGen rec m name true true rest univ2) = some p := h
      rcases hd : depLoopGen rec true f.deps (setFeat u0 m i true) with _ | u1
      · rw [hd] at h2
        cases h2
      · rw [hd] at h2
        have hle1 : univLe u0 u1 :=
          univLe_trans _ _ _ (univLe_setFeat_true u0 m i)
            (depLoopGen_mono rec hrec f.deps _ u1 hd)
        have hlse : univLe (setFeat u0 m i true) p.1 :=
          univLe_trans _ _ _ (depLoopGen_mono rec hrec f.deps _ u1 hd)
            (featLoopGen_mono rec hrec m name true rest u1 p h2)
        obtain ⟨hnone, hrest⟩ := ih u1 p h2 (fun j hj =>
          getFeat_isSome_le u0 u1 hle1 m j (hsome j (List.mem_cons_of_mem i hj)))
        refine ⟨hnone, ?_⟩
        intro j hj f' hf'
        rcases List.mem_cons.mp hj with hj | hj
        · subst hj
          have hset := getFeat_setFeat_self u0 m j true f hgf
          obtain ⟨fp, hfp, hen⟩ := univLe_enabled _ _ hlse m j _ hset rfl
          rw [hfp] at hf'
          cases hf'
          exact hen
        · exact hrest j hj f' hf'

theorem subFeatLoop_star (name : String) (ss : Nat) :
    ∀ (idxs : List Nat) (u0 : FUniv) (p : FUniv × Option Bool),
      subFeatLoop name true true ss idxs u0 = p →
      (∀ i ∈ idxs, (getFeat u0 ss i).isSome = true) →
      p.2 = none ∧ ∀ i ∈ idxs, ∀ f, getFeat p.1 ss i = some f → f.enabled = true := by
  intro idxs
  induction idxs with
  | nil =>
    intro u0 p h _
    cases h
    exact ⟨rfl, fun i hi => by cases hi⟩
  | cons i rest ih =>
    intro u0 p h hsome
    rw [subFeatLoop] at h
    rcases hgf : getFeat u0 ss i with _ | f
    · have := hsome i (List.mem_cons_self i rest)
      rw [hgf] at this
      cases this
    · rw [hgf] at h
      have h2 : subFeatLoop name true true ss rest (setFeat u0 ss i true) = p := h
      have hle1 : univLe u0 (setFeat u0 ss i true) := univLe_setFeat_true u0 ss i
      have hlse : univLe (setFeat u0 ss i true) p.1 :=
        subFeatLoop_mono name true ss rest _ p h2
      obtain ⟨hnone, hrest⟩ := ih (setFeat u0 ss i true) p h2 (fun j hj =>
        getFeat_isSome_le u0 _ hle1 ss j (hsome j (List.mem_cons_of_mem i hj)))
      refine ⟨hnone, ?_⟩
      intro j hj f' hf'
      rcases List.mem_cons.mp hj with hj | hj
      · subst hj
        have hset := getFeat_setFeat_self u0 ss j true f hgf
        obtain ⟨fp, hfp, hen⟩ := univLe_enabled _ _ hlse ss j _ hset rfl
        rw [hfp] at hf'
        cases hf'
        exact hen
      · exact hrest j hj f' hf'

theorem subLoop_star (name : String) :
    ∀ (incs : List Nat) (u0 : FUniv) (p : FUniv × Option Bool),
      subLoop name true true incs u0 = p →
      p.2 = none ∧ ∀ s ∈ incs, ∀ i f, getFeat p.1 s i = some f → f.enabled = true := by
  intro incs
  induction incs with
  | nil =>
    intro u0 p h
    cases h
    exact ⟨rfl, fun s hs => by cases hs⟩
  | cons s rest ih =>
    intro u0 p h
    rw [subLoop] at h
    rcases hms : u0.get? s with _ | md
    · rw [hms] at h
      have h2 : subLoop name true true rest u0 = p := h
      obtain ⟨hnone, hrest⟩ := ih u0 p h2
      refine ⟨hnone, ?_⟩
      intro t ht i f hf
      rcases List.mem_cons.mp ht with ht | ht
      · subst ht
        have hup : univLe u0 p.1 := subLoop_mono name true rest u0 p h2
        obtain ⟨f0, hf0, _⟩ := getFeat_le_rev u0 p.1 hup t i f hf
        rw [getFeat, hms] at hf0
        cases hf0
      · exact hrest t ht i f hf
    · rw [hms] at h
      have h2 : (match subFeatLoop name true true s (List.range md.features.length) u0 with
        | (univ1, some r) => (univ1, some r)
        | (univ1, none) => subLoop name true true rest univ1) = p := h
      rcases hq : subFeatLoop name true true s (List.range md.features.length) u0 with ⟨u1, res1⟩
      rw [hq] at h2
      have hsome : ∀ i ∈ List.range md.features.length, (getFeat u0 s i).isSome = true := by
        intro i hi
        rw [getFeat, hms]
        show (md.features.get? i).isSome = true
        have hlt : i < md.features.length := List.mem_range.mp hi
        rw [List.get?_eq_get hlt]
        rfl
      obtain ⟨hres1, hsub⟩ := subFeatLoop_star name s (List.range md.features.length) u0
        (u1, res1) hq hsome
      rw [show res1 = none from hres1] at h2
      have h3 : subLoop name true true rest u1 = p := h2
      obtain ⟨hnone, hrest⟩ := ih u1 p h3
      refine ⟨hnone, ?_⟩
      intro t ht i f hf
      rcases List.mem_cons.mp ht with ht | ht
      · subst ht
        have hle01 : univLe u0 u1 :=
          subFeatLoop_mono name true t (List.range md.features.length) u0 (u1, res1) hq
        have hup : univLe u1 p.1 := subLoop_mono name true rest u1 p h3
        obtain ⟨f1, hf1, hfle⟩ := getFeat_le_rev u1 p.1 hup t i f hf
        obtain ⟨f0, hf0, _⟩ := getFeat_le_rev u0 u1 hle01 t i f1 hf1
        rw [getFeat, hms] at hf0
        have hf0b : md.features.get? i = some f0 := hf0
        have hlt : i < md.features.length := by
          rcases List.get?_eq_some.mp hf0b with ⟨hl, _⟩
          exact hl
        have hen1 : f1.enabled = true :=
          hsub i (List.mem_range.mpr hlt) f1 hf1
        exact hfle.2.2 hen1
      · exact hrest t ht i f hf

/-- A successful `"*"` enabling pass reports every feature of the module and
of each listed submodule as enabled afterwards. -/
theorem enable_all (fuel : Nat) (u : FUniv) (m : Nat) (u' : FUniv) (r : Bool) (md : FMod)
    (hm : u.get? m = some md)
    (h : lys_features_change (fuel + 1) u m "*" true = some (u', r)) :
    (∀ i f, getFeat u' m i = some f → f.enabled = true) ∧
    (∀ s ∈ md.incs, ∀ i f, getFeat u' s i = some f → f.enabled = true) := by
  rw [lys_features_change, hm] at h
  have h1 : (match featLoopGen (fun u a b c => lys_features_change fuel u a b c) m "*" true
        true (List.range md.features.length) u with
      | none => none
      | some (univ1, some r) => some (univ1, r)
      | some (univ1, none) =>
        match subLoop "*" true true md.incs univ1 with
        | (univ2, some r) => some (univ2, r)
        | (univ2, none) => some (univ2, true)) = some (u', r) := h
  rcases hf : featLoopGen (fun u a b c => lys_features_change fuel u a b c) m "*" true true
      (List.range md.features.length) u with _ | ⟨u1, res1⟩
  · rw [hf] at h1
    cases h1
  · rw [hf] at h1
    have hsome : ∀ i ∈ List.range md.features.length, (getFeat u m i).isSome = true := by
      intro i hi
      rw [getFeat, hm]
      show (md.features.get? i).isSome = true
      have hlt : i < md.features.length := List.mem_range.mp hi
      rw [List.get?_eq_get hlt]
      rfl
    obtain ⟨hres1, hmain⟩ := featLoop_star _ (change_monoRec fuel) m "*"
      (List.range md.features.length) u (u1, res1) hf hsome
    rw [show res1 = none from hres1] at h1
    have h2 : (match subLoop "*" true true md.incs u1 with
        | (univ2, some r) => some (univ2, r)
        | (univ2, none) => some (univ2, true)) = some (u', r) := h1
    rcases hs : subLoop "*" true true md.incs u1 with ⟨u2, res2⟩
    obtain ⟨hres2, hsubs⟩ := subLoop_star "*" md.incs u1 (u2, res2) hs
    rw [hs, show res2 = none from hres2] at h2
    have h4 : some (u2, true) = some (u', r) := h2
    cases h4
    have hle01 : univLe u u1 :=
      featLoopGen_mono _ (change_monoRec fuel) m "*" true
        (List.range md.features.length) u (u1, res1) hf
    have hle12 : univLe u1 u' := subLoop_mono "*" true md.incs u1 (u', res2) hs
    constructor
    · intro i f hfi
      obtain ⟨f1, hf1, hfle⟩ := getFeat_le_rev u1 u' hle12 m i f hfi
      obtain ⟨f0, hf0, _⟩ := getFeat_le_rev u u1 hle01 m i f1 hf1
      rw [getFeat, hm] at hf0
      have hf0b : md.features.get? i = some f0 := hf0
      have hlt : i < md.features.length := by
        rcases List.get?_eq_some.mp hf0b with ⟨hl, _⟩
        exact hl
      exact hfle.2.2 (hmain i (List.mem_range.mpr hlt) f1 hf1)
    · intro s hsm i f hfi
      exact hsubs s hsm i f hfi

/-! ### C3: `lys_features_enable` -/

def s2univ : FUniv :=
  [⟨[⟨"x", false, []⟩, ⟨"y", false, [(0, "x")]⟩], []⟩]

def s2res : FUniv :=
  [⟨[⟨"x", true, []⟩, ⟨"y", true, [(0, "x")]⟩], []⟩]

def cexUniv : FUniv :=
  [⟨[⟨"x", false, []⟩], [1]⟩, ⟨[⟨"y", false, [(0, "x")]⟩], []⟩]

def cexRes : FUniv :=
  [⟨[⟨"x", false, []⟩], [1]⟩, ⟨[⟨"y", true, [(0, "x")]⟩], []⟩]

/-- **C3.**  With well-formed feature names, a successful
`lys_features_enable` on a plain name enables every feature reachable from
the requested pair through if-feature references that resolves in its own
module's feature array (in particular the named feature itself and,
recursively, the features its if-feature statements reference — scenario
S2); the name `"*"` leaves every feature of the module and of its listed
submodules enabled.  Amended from the original claim: when the name is
found only in a submodule the feature is set directly — the run is exactly
one flag write and the if-feature references of that feature are *not*
recursively enabled. -/
theorem C3_features_enable (fuel : Nat) (u : FUniv) (m : Nat) (name : String)
    (u' : FUniv) (r : Bool) (md : FMod)
    (hg : goodNamesB u = true) (hm : u.get? m = some md)
    (h : lys_features_enable (fuel + 1) u m name = some (u', r)) :
    (name ≠ "" → name ≠ "*" →
      ∀ m2 n2, FReach u m name m2 n2 →
      ∀ md2 i2 f2, u.get? m2 = some md2 → findFeatIdx md2.features n2 = some (i2, f2) →
      ∃ f2', getFeat u' m2 i2 = some f2' ∧ f2'.enabled = true) ∧
    (name ≠ "" → name ≠ "*" → findFeatIdx md.features name = none →
      ∀ s i f, subFirst u name md.incs = some (s, i, f) → u' = setFeat u s i true) ∧
    (name = "*" →
      (∀ i f, getFeat u' m i = some f → f.enabled = true) ∧
      (∀ s ∈ md.incs, ∀ i f, getFeat u' s i = some f → f.enabled = true)) := by
  refine ⟨?_, ?_, ?_⟩
  · intro hn1 hn2 m2 n2 hreach md2 i2 f2 hmd2 hfi
    exact enable_reaches (fuel + 1) u m name u' r hg hn1 hn2 h m2 n2 hreach md2 i2 f2 hmd2 hfi
  · intro hn1 hn2 hnone s i f hsub
    have h' : lys_features_change (fuel + 1) u m name true = some (u', r) := h
    rw [change_named fuel u m name true md hm hn1 hn2] at h'
    rw [hnone] at h'
    rw [hsub] at h'
    have h'' : some (setFeat u s i true, true) = some (u', r) := h'
    cases h''
    rfl
  · intro hstar
    subst hstar
    exact enable_all fuel u m u' r md hm h

/-- The original wording of C3 is refuted: enabling `"y"` on module `0`
succeeds and reports `true`, the feature `y` (held by submodule `1`) reports
enabled afterwards, yet the feature `x` referenced by its if-feature
statement still reports disabled. -/
theorem C3_features_enable_counterexample :
    lys_features_enable 2 cexUniv 0 "y" = some (cexRes, true) ∧
    lys_features_state cexRes 0 "y" = 1 ∧
    lys_features_state cexRes 0 "x" = 0 := by
  refine ⟨?_, ?_, ?_⟩ <;> decide

theorem C3_features_enable_witness :
    goodNamesB s2univ = true ∧
    lys_features_enable 2 s2univ 0 "y" = some (s2res, true) ∧
    (∃ f', getFeat s2res 0 0 = some f' ∧ f'.enabled = true) ∧
    lys_features_state s2res 0 "x" = 1 ∧
    lys_features_state s2res 0 "y" = 1 := by
  refine ⟨by decide, by decide, ?_, by decide, by decide⟩
  exact (C3_features_enable 1 s2univ 0 "y" s2res true
      ⟨[⟨"x", false, []⟩, ⟨"y", false, [(0, "x")]⟩], []⟩
      (by decide) rfl (by decide)).1
    (by decide) (by decide) 0 "x"
    (FReach.step rfl rfl (by decide) (FReach.refl 0 "x"))
    ⟨[⟨"x", false, []⟩, ⟨"y", false, [(0, "x")]⟩], []⟩ 0 ⟨"x", false, []⟩ rfl rfl

/-! ### C10: the `op = 0` (disable) pass

With `op` false the loops never call back into `lys_features_change`: a
`"*"` run only walks the arrays clearing flags, a plain-name run writes at
most one flag. -/

def featShape (f : LysFeature) : String × List (Nat × String) := (f.name, f.deps)

def clearIdxs (m : Nat) : List Nat → FUniv → FUniv
  | [], u => u
  | i :: rest, u =>
    match getFeat u m i with
    | none => u
    | some _ => clearIdxs m rest (setFeat u m i false)

def featLen (u : FUniv) (s : Nat) : Nat :=
  match u.get? s with
  | some md => md.features.length
  | none => 0

def clearSubs : List Nat → FUniv → FUniv
  | [], u => u
  | s :: rest, u => clearSubs rest (clearIdxs s (List.range (featLen u s)) u)

theorem featLoop_star_false (rec : FUniv → Nat → String → Bool → Option (FUniv × Bool))
    (m : Nat) (name : String) :
    ∀ (idxs : List Nat) (u : FUniv),
      featLoopGen rec m name false true idxs u = some (clearIdxs m idxs u, none) := by
  intro idxs
  induction idxs with
  | nil => intro u; rfl
  | cons i rest ih =>
    intro u
    rw [featLoopGen, clearIdxs]
    rcases hg : getFeat u m i with _ | f
    · rfl
    · exact ih (setFeat u m i false)

theorem subFeatLoop_star_false (name : String) (ss : Nat) :
    ∀ (idxs : List Nat) (u : FUniv),
      subFeatLoop name false true ss idxs u = (clearIdxs ss idxs u, none) := by
  intro idxs
  induction idxs with
  | nil => intro u; rfl
  | cons i rest ih =>
    intro u
    rw [subFeatLoop, clearIdxs]
    rcases hg : getFeat u ss i with _ | f
    · rfl
    · exact ih (setFeat u ss i false)

theorem subLoop_star_false (name : String) :
    ∀ (incs : List Nat) (u : FUniv),
      subLoop name false true incs u = (clearSubs incs u, none) := by
  intro incs
  induction incs with
  | nil => intro u; rfl
  | cons s rest ih =>
    intro u
    rw [subLoop, clearSubs]
    show (match subFeatLoop name false true s (List.range (featLen u s)) u with
      | (univ1, some r) => (univ1, some r)
      | (univ1, none) => subLoop name false true rest univ1) =
      (clearSubs rest (clearIdxs s (List.range (featLen u s)) u), none)
    rw [subFeatLoop_star_false name s (List.range (featLen u s)) u]
    exact ih (clearIdxs s (List.range (featLen u s)) u)

/-- A `"*"` disable run clears the module's own feature array and then every
listed submodule's, with no recursion anywhere. -/
theorem change_star_false (fuel : Nat) (u : FUniv) (m : Nat) (md : FMod)
    (hm : u.get? m = some md) :
    lys_features_change (fuel + 1) u m "*" false =
      some (clearSubs md.incs (clearIdxs m (List.range md.features.length) u), true) := by
  rw [lys_features_change, hm]
  show (match featLoopGen (fun u a b c => lys_features_change fuel u a b c) m "*" false true
      (List.range md.features.length) u with
    | none => none
    | some (univ1, some r) => some (univ1, r)
    | some (univ1, none) =>
      match subLoop "*" false true md.incs univ1 with
      | (univ2, some r) => some (univ2, r)
      | (univ2, none) => some (univ2, true)) =
    some (clearSubs md.incs (clearIdxs m (List.range md.features.length) u), true)
  rw [featLoop_star_false]
  have h4 : (match subLoop "*" false true md.incs
        (clearIdxs m (List.range md.features.length) u) with
      | (univ2, some r) => some (univ2, r)
      | (univ2, none) => some (univ2, true)) =
      some (clearSubs md.incs (clearIdxs m (List.range md.features.length) u), true) := by
    rw [subLoop_star_false]
  exact h4

/-! Shape and frame lemmas for the clearing pass. -/

theorem setFeatIn_get?_none :
    ∀ (l : List LysFeature) (i : Nat) (b : Bool), l.get? i = none →
      (setFeatIn l i b).get? i = none := by
  intro l
  induction l with
  | nil =>
    intro i b _
    cases i <;> rfl
  | cons a rest ih =>
    intro i b h
    cases i with
    | zero => cases h
    | succ j => exact ih j b h

theorem getFeat_setFeat_self_none (u : FUniv) (m i : Nat) (b : Bool)
    (h : getFeat u m i = none) : getFeat (setFeat u m i b) m i = none := by
  rw [getFeat] at h ⊢
  rcases hm : u.get? m with _ | md
  · rw [setFeat_get?_none u m i b hm]
    rfl
  · rw [hm] at h
    rw [setFeat_get?_self u m i b md hm]
    show (setFeatIn md.features i b).get? i = none
    exact setFeatIn_get?_none md.features i b h

theorem setFeat_shape (u : FUniv) (m i : Nat) (b : Bool) (m2 i2 : Nat) :
    (getFeat (setFeat u m i b) m2 i2).map featShape = (getFeat u m2 i2).map featShape := by
  by_cases hc : m2 = m ∧ i2 = i
  · obtain ⟨h1, h2⟩ := hc
    subst h1
    subst h2
    rcases hg : getFeat u m2 i2 with _ | f
    · rw [getFeat_setFeat_self_none u m2 i2 b hg]
    · rw [getFeat_setFeat_self u m2 i2 b f hg]
      rfl
  · rw [getFeat_setFeat_other u m i b m2 i2 ?_]
    rcases Decidable.not_and_iff_or_not.mp hc with h | h
    · exact Or.inl h
    · exact Or.inr h

theorem clearIdxs_shape (m : Nat) :
    ∀ (idxs : List Nat) (u : FUniv) (m2 i2 : Nat),
      (getFeat (clearIdxs m idxs u) m2 i2).map featShape =
        (getFeat u m2 i2).map featShape := by
  intro idxs
  induction idxs with
  | nil => intro u m2 i2; rfl
  | cons i rest ih =>
    intro u m2 i2
    rw [clearIdxs]
    rcases hg : getFeat u m i with _ | f
    · rfl
    · rw [ih (setFeat u m i false) m2 i2]
      exact setFeat_shape u m i false m2 i2

theorem clearIdxs_other (m : Nat) :
    ∀ (idxs : List Nat) (u : FUniv) (m2 : Nat), m2 ≠ m → ∀ i2,
      getFeat (clearIdxs m idxs u) m2 i2 = getFeat u m2 i2 := by
  intro idxs
  induction idxs with
  | nil => intro u m2 _ i2; rfl
  | cons i rest ih =>
    intro u m2 hne i2
    rw [clearIdxs]
    rcases hg : getFeat u m i with _ | f
    · rfl
    · rw [ih (setFeat u m i false) m2 hne i2]
      exact getFeat_setFeat_other u m i false m2 i2 (Or.inl hne)

theorem clearSubs_shape :
    ∀ (incs : List Nat) (u : FUniv) (m2 i2 : Nat),
      (getFeat (clearSubs incs u) m2 i2).map featShape =
        (getFeat u m2 i2).map featShape := by
  intro incs
  induction incs with
  | nil => intro u m2 i2; rfl
  | cons s rest ih =>
    intro u m2 i2
    rw [clearSubs, ih _ m2 i2]
    exact clearIdxs_shape s (List.range (featLen u s)) u m2 i2

theorem clearSubs_frame :
    ∀ (incs : List Nat) (u : FUniv) (m2 : Nat), m2 ∉ incs → ∀ i2,
      getFeat (clearSubs incs u) m2 i2 = getFeat u m2 i2 := by
  intro incs
  induction incs with
  | nil => intro u m2 _ i2; rfl
  | cons s rest ih =>
    intro u m2 hnm i2
    rw [clearSubs]
    have hns : m2 ≠ s := fun he => hnm (he ▸ List.mem_cons_self s rest)
    have hnr : m2 ∉ rest := fun hr => hnm (List.mem_cons_of_mem s hr)
    rw [ih _ m2 hnr i2]
    exact clearIdxs_other s (List.range (featLen u s)) u m2 hns i2

theorem setFeat_isSome (u : FUniv) (m i : Nat) (b : Bool) (m2 i2 : Nat) :
    (getFeat (setFeat u m i b) m2 i2).isSome = (getFeat u m2 i2).isSome := by
  by_cases hc : m2 = m ∧ i2 = i
  · obtain ⟨h1, h2⟩ := hc
    subst h1
    subst h2
    rcases hg : getFeat u m2 i2 with _ | f
    · rw [getFeat_setFeat_self_none u m2 i2 b hg]
    · rw [getFeat_setFeat_self u m2 i2 b f hg]
      rfl
  · rw [getFeat_setFeat_other u m i b m2 i2 ?_]
    rcases Decidable.not_and_iff_or_not.mp hc with h | h
    · exact Or.inl h
    · exact Or.inr h

theorem clearIdxs_keeps_disabled (m : Nat) :
    ∀ (idxs : List Nat) (u : FUniv) (m2 i2 : Nat) (f : LysFeature),
      getFeat u m2 i2 = some f → f.enabled = false →
      ∃ f', getFeat (clearIdxs m idxs u) m2 i2 = some f' ∧ f'.enabled = false := by
  intro idxs
  induction idxs with
  | nil =>
    intro u m2 i2 f h he
    exact ⟨f, h, he⟩
  | cons i rest ih =>
    intro u m2 i2 f h he
    rw [clearIdxs]
    rcases hg : getFeat u m i with _ | g
    · exact ⟨f, h, he⟩
    · by_cases hc : m2 = m ∧ i2 = i
      · obtain ⟨h1, h2⟩ := hc
        subst h1
        subst h2
        have hset := getFeat_setFeat_self u m2 i2 false g hg
        exact ih (setFeat u m2 i2 false) m2 i2 { g with enabled := false } hset rfl
      · have hother : getFeat (setFeat u m i false) m2 i2 = getFeat u m2 i2 := by
          refine getFeat_setFeat_other u m i false m2 i2 ?_
          rcases Decidable.not_and_iff_or_not.mp hc with hO | hO
          · exact Or.inl hO
          · exact Or.inr hO
        refine ih (setFeat u m i false) m2 i2 f ?_ he
        rw [hother]
        exact h

theorem clearIdxs_clears (m : Nat) :
    ∀ (idxs : List Nat) (u : FUniv),
      (∀ j ∈ idxs, (getFeat u m j).isSome = true) →
      ∀ i ∈ idxs, ∀ f', getFeat (clearIdxs m idxs u) m i = some f' → f'.enabled = false := by
  intro idxs
  induction idxs with
  | nil =>
    intro u _ i hi
    cases hi
  | cons i rest ih =>
    intro u hsome j hj f' hf'
    rw [clearIdxs] at hf'
    rcases hg : getFeat u m i with _ | g
    · have := hsome i (List.mem_cons_self i rest)
      rw [hg] at this
      cases this
    · rw [hg] at hf'
      have hsome2 : ∀ k ∈ rest, (getFeat (setFeat u m i false) m k).isSome = true := by
        intro k hk
        rw [setFeat_isSome]
        exact hsome k (List.mem_cons_of_mem i hk)
      rcases List.mem_cons.mp hj with hj | hj
      · subst hj
        have hset := getFeat_setFeat_self u m j false g hg
        obtain ⟨f'', hf'', hen⟩ := clearIdxs_keeps_disabled m rest (setFeat u m j false)
          m j { g with enabled := false } hset rfl
        rw [hf''] at hf'
        cases hf'
        exact hen
      · exact ih (setFeat u m i false) hsome2 j hj f' hf'

theorem clearSubs_keeps_disabled :
    ∀ (incs : List Nat) (u : FUniv) (m2 i2 : Nat) (f : LysFeature),
      getFeat u m2 i2 = some f → f.enabled = false →
      ∃ f', getFeat (clearSubs incs u) m2 i2 = some f' ∧ f'.enabled = false := by
  intro incs
  induction incs with
  | nil =>
    intro u m2 i2 f h he
    exact ⟨f, h, he⟩
  | cons s rest ih =>
    intro u m2 i2 f h he
    rw [clearSubs]
    obtain ⟨f1, hf1, he1⟩ := clearIdxs_keeps_disabled s (List.range (featLen u s)) u
      m2 i2 f h he
    exact ih _ m2 i2 f1 hf1 he1

theorem clearSubs_clears :
    ∀ (incs : List Nat) (u : FUniv),
      ∀ s ∈ incs, ∀ i f', getFeat (clearSubs incs u) s i = some f' → f'.enabled = false := by
  intro incs
  induction incs with
  | nil =>
    intro u s hs
    cases hs
  | cons s0 rest ih =>
    intro u s hs i f' hf'
    rw [clearSubs] at hf'
    rcases List.mem_cons.mp hs with hs | hs
    · subst hs
      by_cases hlt : i < featLen u s
      · have hsome : ∀ j ∈ List.range (featLen u s), (getFeat u s j).isSome = true := by
          intro j hj
          have hjlt : j < featLen u s := List.mem_range.mp hj
          rw [getFeat]
          rcases hms : u.get? s with _ | md
          · rw [featLen, hms] at hjlt
            cases hjlt
          · rw [featLen, hms] at hjlt
            show (md.features.get? j).isSome = true
            rw [List.get?_eq_get hjlt]
            rfl
        have hcleared : ∀ g, getFeat (clearIdxs s (List.range (featLen u s)) u) s i = some g →
            g.enabled = false :=
          fun g hg => clearIdxs_clears s (List.range (featLen u s)) u hsome i
            (List.mem_range.mpr hlt) g hg
        rcases hg1 : getFeat (clearIdxs s (List.range (featLen u s)) u) s i with _ | g1
        · have hsh := clearSubs_shape rest (clearIdxs s (List.range (featLen u s)) u) s i
          rw [hf', hg1] at hsh
          cases hsh
        · obtain ⟨f'', hf'', hen⟩ := clearSubs_keeps_disabled rest _ s i g1 hg1
            (hcleared g1 hg1)
          rw [hf''] at hf'
          cases hf'
          exact hen
      · have hnone : getFeat u s i = none := by
          rw [getFeat]
          rcases hms : u.get? s with _ | md
          · rfl
          · show md.features.get? i = none
            rw [featLen, hms] at hlt
            exact List.get?_eq_none.mpr (Nat.le_of_not_lt hlt)
        have hsh1 := clearIdxs_shape s (List.range (featLen u s)) u s i
        have hsh2 := clearSubs_shape rest (clearIdxs s (List.range (featLen u s)) u) s i
        rw [hf', hsh1, hnone] at hsh2
        cases hsh2
    · exact ih _ s hs i f' hf'

theorem subFirst_spec :
    ∀ (incs : List Nat) (u : FUniv) (name : String) (s i : Nat) (f : LysFeature),
      subFirst u name incs = some (s, i, f) →
      s ∈ incs ∧ getFeat u s i = some f ∧ f.name = name := by
  intro incs
  induction incs with
  | nil =>
    intro u name s i f h
    cases h
  | cons s0 rest ih =>
    intro u name s i f h
    rw [subFirst] at h
    rcases hq : (u.get? s0).bind (fun md => findFeatIdx md.features name) with _ | ⟨pi, pf⟩
    · rw [hq] at h
      have h2 : subFirst u name rest = some (s, i, f) := h
      obtain ⟨hmem, hget, hname⟩ := ih u name s i f h2
      exact ⟨List.mem_cons_of_mem s0 hmem, hget, hname⟩
    · rw [hq] at h
      have h2 : some (s0, pi, pf) = some (s, i, f) := h
      have h3 := Option.some.inj h2
      obtain ⟨hs0, hpi, hpf⟩ : s0 = s ∧ pi = i ∧ pf = f :=
        ⟨congrArg Prod.fst h3, congrArg (fun p => p.2.1) h3, congrArg (fun p => p.2.2) h3⟩
      subst hs0
      subst hpi
      subst hpf
      rcases hms : u.get? s0 with _ | mds
      · rw [hms] at hq
        cases hq
      · rw [hms] at hq
        have hq2 : findFeatIdx mds.features name = some (pi, pf) := hq
        obtain ⟨hget, hname⟩ := findFeatIdx_get mds.features name pi pf hq2
        refine ⟨List.mem_cons_self s0 rest, ?_, hname⟩
        rw [getFeat, hms]
        exact hget

def d10univ : FUniv :=
  [⟨[⟨"x", true, []⟩, ⟨"y", true, [(0, "x")]⟩], []⟩]

def d10res : FUniv :=
  [⟨[⟨"x", true, []⟩, ⟨"y", false, [(0, "x")]⟩], []⟩]

/-- **C10.**  `lys_features_disable` only clears `LYS_FENABLED` bits: names,
if-feature references and array shapes are untouched; a plain name clears at
most one flag — the first match of the name in the module's own array or,
failing that, in the first submodule holding it — with no recursion into
if-feature references, so transitively enabled features stay enabled; `"*"`
leaves every feature of the module and of its listed submodules disabled
and leaves every other module's features untouched. -/
theorem C10_features_disable (fuel : Nat) (u : FUniv) (m : Nat) (name : String)
    (u' : FUniv) (r : Bool) (md : FMod)
    (hm : u.get? m = some md) (hn1 : name ≠ "")
    (h : lys_features_disable (fuel + 1) u m name = some (u', r)) :
    (∀ m2 i2, (getFeat u' m2 i2).map featShape = (getFeat u m2 i2).map featShape) ∧
    (name ≠ "*" →
      u' = u ∨ ∃ m2 i2 f, (m2 = m ∨ m2 ∈ md.incs) ∧ getFeat u m2 i2 = some f ∧
        f.name = name ∧ u' = setFeat u m2 i2 false) ∧
    (name = "*" →
      (∀ i f, getFeat u' m i = some f → f.enabled = false) ∧
      (∀ s ∈ md.incs, ∀ i f, getFeat u' s i = some f → f.enabled = false) ∧
      (∀ m2, m2 ≠ m → m2 ∉ md.incs → ∀ i2, getFeat u' m2 i2 = getFeat u m2 i2)) := by
  have h' : lys_features_change (fuel + 1) u m name false = some (u', r) := h
  by_cases hstar : name = "*"
  · subst hstar
    rw [change_star_false fuel u m md hm] at h'
    cases h'
    refine ⟨?_, ?_, ?_⟩
    · intro m2 i2
      rw [clearSubs_shape md.incs _ m2 i2]
      exact clearIdxs_shape m (List.range md.features.length) u m2 i2
    · intro hne
      exact absurd rfl hne
    · intro _
      refine ⟨?_, ?_, ?_⟩
      · intro i f hf
        by_cases hlt : i < md.features.length
        · have hsome : ∀ j ∈ List.range md.features.length,
              (getFeat u m j).isSome = true := by
            intro j hj
            rw [getFeat, hm]
            show (md.features.get? j).isSome = true
            rw [List.get?_eq_get (List.mem_range.mp hj)]
            rfl
          rcases hg1 : getFeat (clearIdxs m (List.range md.features.length) u) m i
            with _ | g1
          · have hsh := clearSubs_shape md.incs
              (clearIdxs m (List.range md.features.length) u) m i
            rw [hf, hg1] at hsh
            cases hsh
          · have hen1 : g1.enabled = false :=
              clearIdxs_clears m (List.range md.features.length) u hsome i
                (List.mem_range.mpr hlt) g1 hg1
            obtain ⟨f'', hf'', hen⟩ := clearSubs_keeps_disabled md.incs _ m i g1 hg1 hen1
            rw [hf''] at hf
            cases hf
            exact hen
        · have hnone : getFeat u m i = none := by
            rw [getFeat, hm]
            show md.features.get? i = none
            exact List.get?_eq_none.mpr (Nat.le_of_not_lt hlt)
          have hsh1 := clearIdxs_shape m (List.range md.features.length) u m i
          have hsh2 := clearSubs_shape md.incs
            (clearIdxs m (List.range md.features.length) u) m i
          rw [hf, hsh1, hnone] at hsh2
          cases hsh2
      · intro s hs i f hf
        exact clearSubs_clears md.incs (clearIdxs m (List.range md.features.length) u)
          s hs i f hf
      · intro m2 hne hnmem i2
        rw [clearSubs_frame md.incs _ m2 hnmem i2]
        exact clearIdxs_other m (List.range md.features.length) u m2 hne i2
  · rw [change_named fuel u m name false md hm hn1 hstar] at h'
    rcases hidx : findFeatIdx md.features name with _ | ⟨i, f⟩
    · rw [hidx] at h'
      rcases hsub : subFirst u name md.incs with _ | ⟨s, si, sf⟩
      · rw [hsub] at h'
        have h2 : some (u, false) = some (u', r) := h'
        cases h2
        refine ⟨fun m2 i2 => rfl, fun _ => Or.inl rfl, fun hst => absurd hst hstar⟩
      · rw [hsub] at h'
        have h2 : some (setFeat u s si false, true) = some (u', r) := h'
        cases h2
        obtain ⟨hmem, hget, hname⟩ := subFirst_spec md.incs u name s si sf hsub
        refine ⟨?_, ?_, fun hst => absurd hst hstar⟩
        · intro m2 i2
          exact setFeat_shape u s si false m2 i2
        · intro _
          exact Or.inr ⟨s, si, sf, Or.inr hmem, hget, hname, rfl⟩
    · rw [hidx] at h'
      have h2 : some (setFeat u m i false, true) = some (u', r) := h'
      cases h2
      obtain ⟨hget0, hname⟩ := findFeatIdx_get md.features name i f hidx
      have hget : getFeat u m i = some f := by
        rw [getFeat, hm]
        exact hget0
      refine ⟨?_, ?_, fun hst => absurd hst hstar⟩
      · intro m2 i2
        exact setFeat_shape u m i false m2 i2
      · intro _
        exact Or.inr ⟨m, i, f, Or.inl rfl, hget, hname, rfl⟩

theorem C10_features_disable_witness :
    lys_features_disable 2 d10univ 0 "y" = some (d10res, true) ∧
    (d10res = d10univ ∨ ∃ m2 i2 f, (m2 = 0 ∨ m2 ∈ ([] : List Nat)) ∧
      getFeat d10univ m2 i2 = some f ∧ f.name = "y" ∧ d10res = setFeat d10univ m2 i2 false) ∧
    lys_features_state d10res 0 "x" = 1 ∧
    lys_features_state d10res 0 "y" = 0 := by
  refine ⟨by decide, ?_, by decide, by decide⟩
  exact (C10_features_disable 1 d10univ 0 "y" d10res true
      ⟨[⟨"x", true, []⟩, ⟨"y", true, [(0, "x")]⟩], []⟩ rfl (by decide) (by decide)).2.1
    (by decide)

/-! ### C5: `lys_switch_deviations`

Schema trees are rose trees addressed by name paths.  `lys_node_unlink`
removes a node from its parent's child chain, `lys_node_addchild` appends at
the end of the chain, `lys_node_switch` splices the replacement into the
removed node's exact place.  `resolve_augment_schema_nodeid` is the
first-match walk along the path. -/

inductive DNode where
  | mk (name : String) (children : List DNode)

def nodeName : DNode → String
  | .mk n _ => n

def nodeChildren : DNode → List DNode
  | .mk _ c => c

def dnames (l : List DNode) : List String := l.map nodeName

def findName : List DNode → String → Option DNode
  | [], _ => none
  | d :: rest, n => if nodeName d = n then some d else findName rest n

def resolvePath : List String → List DNode → Option DNode
  | [], _ => none
  | [n], l => findName l n
  | n :: rest, l =>
    match findName l n with
    | none => none
    | some d => resolvePath rest (nodeChildren d)

/-- `lys_node_unlink` of the first node of the given name. -/
def eraseName : List DNode → String → List DNode
  | [], _ => []
  | d :: rest, n => if nodeName d = n then rest else d :: eraseName rest n

/-- `lys_node_switch`: the replacement takes the removed node's place. -/
def replaceName : List DNode → String → DNode → List DNode
  | [], _, _ => []
  | d :: rest, n, c => if nodeName d = n then c :: rest else d :: replaceName rest n c

def modifyName : List DNode → String → (DNode → DNode) → List DNode
  | [], _, _ => []
  | d :: rest, n, g => if nodeName d = n then g d :: rest else d :: modifyName rest n g

def removeAt : List String → List DNode → List DNode
  | [], l => l
  | [n], l => eraseName l n
  | n :: rest, l =>
    modifyName l n fun d => .mk (nodeName d) (removeAt rest (nodeChildren d))

/-- `lys_node_addchild` appends at the end of the parent's child chain. -/
def addAt : List String → DNode → List DNode → List DNode
  | [], c, l => l ++ [c]
  | n :: rest, c, l =>
    modifyName l n fun d => .mk (nodeName d) (addAt rest c (nodeChildren d))

def switchAt : List String → DNode → List DNode → List DNode
  | [], _, l => l
  | [n], c, l => replaceName l n c
  | n :: rest, c, l =>
    modifyName l n fun d => .mk (nodeName d) (switchAt rest c (nodeChildren d))

/-- One stored deviation: the target path, whether its first deviate is
`not-supported` (`LY_DEVIATE_NO`), and the stashed original node. -/
structure Dev where
  target : List String
  notSupported : Bool
  orig : Option DNode

/-- `lys_switch_deviation`: toggles one deviation, leaving the state alone
when the target (or the parent of a re-added `not-supported` target) does
not resolve; a value deviate without a stashed original is degenerate (the C
code would dereference null) and is modelled as a no-op. -/
def lys_switch_deviation (dev : Dev) (data : List DNode) : Dev × List DNode :=
  if dev.notSupported then
    match dev.orig with
    | some o =>
      if dev.target.dropLast.isEmpty then ({ dev with orig := none }, data ++ [o])
      else
        match resolvePath dev.target.dropLast data with
        | none => (dev, data)
        | some _ => ({ dev with orig := none }, addAt dev.target.dropLast o data)
    | none =>
      match resolvePath dev.target data with
      | none => (dev, data)
      | some t => ({ dev with orig := some t }, removeAt dev.target data)
  else
    match resolvePath dev.target data, dev.orig with
    | some t, some o => ({ dev with orig := some t }, switchAt dev.target o data)
    | _, _ => (dev, data)

def switchDevList : List Dev → List DNode → List Dev × List DNode
  | [], data => ([], data)
  | d :: rest, data =>
    let p := lys_switch_deviation d data
    let q := switchDevList rest p.2
    (p.1 :: q.1, q.2)

def switchDevLists : List (List Dev) → List DNode → List (List Dev) × List DNode
  | [], data => ([], data)
  | ds :: rest, data =>
    let p := switchDevList ds data
    let q := switchDevLists rest p.2
    (p.1 :: q.1, q.2)

/-- The deviated module seen by `lys_switch_deviations`: its top-level data
chain, its `deviated` flag, and for each import with `external == 2` the
deviation array of the importing module. -/
structure DevModule where
  data : List DNode
  deviated : Bool
  extDevs : List (List Dev)

/-- `lys_switch_deviations`: walk every `external == 2` import, toggle each
of its deviations, and flip the `deviated` flag when such an import exists
(`changes`), even if its deviation array is empty. -/
def lys_switch_deviations (M : DevModule) : DevModule :=
  let p := switchDevLists M.extDevs M.data
  { data := p.2,
    extDevs := p.1,
    deviated := if M.extDevs.isEmpty then M.deviated else !M.deviated }

theorem findName_some_name :
    ∀ (l : List DNode) (n : String) (t : DNode), findName l n = some t → nodeName t = n := by
  intro l
  induction l with
  | nil => intro n t h; cases h
  | cons d rest ih =>
    intro n t h
    rw [findName] at h
    by_cases he : nodeName d = n
    · rw [if_pos he] at h
      cases h
      exact he
    · rw [if_neg he] at h
      exact ih n t h

theorem findName_append :
    ∀ (l l2 : List DNode) (n : String), findName l n = none →
      findName (l ++ l2) n = findName l2 n := by
  intro l
  induction l with
  | nil => intro l2 n _; rfl
  | cons d rest ih =>
    intro l2 n h
    rw [findName] at h
    rw [List.cons_append, findName]
    by_cases he : nodeName d = n
    · rw [if_pos he] at h
      cases h
    · rw [if_neg he] at h ⊢
      exact ih l2 n h

theorem eraseName_append :
    ∀ (l l2 : List DNode) (n : String), findName l n = none →
      eraseName (l ++ l2) n = l ++ eraseName l2 n := by
  intro l
  induction l with
  | nil => intro l2 n _; rfl
  | cons d rest ih =>
    intro l2 n h
    rw [findName] at h
    rw [List.cons_append, eraseName]
    by_cases he : nodeName d = n
    · rw [if_pos he] at h
      cases h
    · rw [if_neg he] at h
      rw [if_neg he, ih l2 n h, List.cons_append]

theorem findName_perm_erase :
    ∀ (l : List DNode) (n : String) (t : DNode), findName l n = some t →
      List.Perm l (t :: eraseName l n) := by
  intro l
  induction l with
  | nil => intro n t h; cases h
  | cons d rest ih =>
    intro n t h
    rw [findName] at h
    rw [eraseName]
    by_cases he : nodeName d = n
    · rw [if_pos he] at h
      cases h
      rw [if_pos he]
    · rw [if_neg he] at h
      rw [if_neg he]
      exact (List.Perm.cons d (ih n t h)).trans (List.Perm.swap t d _)

theorem findName_replaceName :
    ∀ (l : List DNode) (n : String) (t c : DNode), findName l n = some t →
      nodeName c = n → findName (replaceName l n c) n = some c := by
  intro l
  induction l with
  | nil => intro n t c h _; cases h
  | cons d rest ih =>
    intro n t c h hc
    rw [findName] at h
    rw [replaceName]
    by_cases he : nodeName d = n
    · rw [if_pos he, findName, if_pos hc]
    · rw [if_neg he] at h
      rw [if_neg he, findName, if_neg he]
      exact ih n t c h hc

theorem replaceName_replaceName :
    ∀ (l : List DNode) (n : String) (t c c2 : DNode), findName l n = some t →
      nodeName c = n → replaceName (replaceName l n c) n c2 = replaceName l n c2 := by
  intro l
  induction l with
  | nil => intro n t c c2 h _; cases h
  | cons d rest ih =>
    intro n t c c2 h hc
    rw [findName] at h
    rw [replaceName, replaceName]
    by_cases he : nodeName d = n
    · rw [if_pos he, if_pos he, replaceName, if_pos hc]
    · rw [if_neg he] at h
      rw [if_neg he, if_neg he, replaceName, if_neg he, ih n t c c2 h hc]

theorem replaceName_self :
    ∀ (l : List DNode) (n : String) (t : DNode), findName l n = some t →
      replaceName l n t = l := by
  intro l
  induction l with
  | nil => intro n t h; cases h
  | cons d rest ih =>
    intro n t h
    rw [findName] at h
    rw [replaceName]
    by_cases he : nodeName d = n
    · rw [if_pos he] at h
      cases h
      rw [if_pos he]
    · rw [if_neg he] at h
      rw [if_neg he, ih n t h]

theorem switch_devs_single (d d' : Dev) (data data' : List DNode) (flag : Bool)
    (h : lys_switch_deviation d data = (d', data')) :
    lys_switch_deviations ⟨data, flag, [[d]]⟩ = ⟨data', !flag, [[d']]⟩ := by
  have hsw : switchDevLists [[d]] data = ([[d']], data') := by
    rw [switchDevLists, switchDevList, h]
    rfl
  show (⟨(switchDevLists [[d]] data).2,
      if ([[d]] : List (List Dev)).isEmpty then flag else !flag,
      (switchDevLists [[d]] data).1⟩ : DevModule) = ⟨data', !flag, [[d']]⟩
  rw [hsw]
  rfl

/-- The original C5 wording is refuted: starting from the unapplied state of
a `not-supported` deviation of the first of two top-level nodes, toggling
twice moves the target to the back of the chain — the prior sibling order is
not restored. -/
theorem C5_switch_deviations_counterexample :
    dnames (lys_switch_deviations (lys_switch_deviations
        ⟨[.mk "a" [], .mk "b" []], true, [[⟨["a"], true, none⟩]]⟩)).data = ["b", "a"] ∧
    dnames [DNode.mk "a" [], .mk "b" []] = ["a", "b"] ∧
    (lys_switch_deviations (lys_switch_deviations
        ⟨[.mk "a" [], .mk "b" []], true, [[⟨["a"], true, none⟩]]⟩)).deviated = true := by
  exact ⟨rfl, rfl, rfl⟩

/-! ### C1: `yang_read_module` rollback

The control flow below is the staged `goto error` chain of
`yang_read_module`; the cleanup effects are those of `lys_free` with
`remove_from_ctx = 1` (drop the module from the context's model list) and
`module_free_common` (release every string the module interned in the
dictionary).  The stage bodies live outside this file's sources and are
oracles.  Modelled from the spec: `yang_parse_mem`,
`resolve_unres_schema`, the revision check data and `lyp_ctx_add_module`
contribute only their observable outcome — failure or success, the strings
interned while they ran, and (for registration) the appended model entry. -/

structure LoadCtx where
  models : List Nat
  dict : Multiset String
  err : Bool
  deriving DecidableEq

/-- Modelled from the spec: outcome of `yang_parse_mem` — failure flag, the
module name (unset only when parsing failed before reading it), the strings
interned while parsing, the number of unresolved items handed to `unres`,
whether the parsed revision matches a requested one, and whether the module
carries augments or deviations. -/
structure ParseOut where
  failed : Bool
  name : Option String
  interned : List String
  unresCount : Nat
  revMatch : Bool
  hasAug : Bool
  deriving DecidableEq

/-- Modelled from the spec: outcome of `resolve_unres_schema`. -/
structure StageOut where
  failed : Bool
  interned : List String
  deriving DecidableEq

/-- Release one dictionary reference per listed string (`lydict_remove`). -/
def dictRemove (d : Multiset String) (l : List String) : Multiset String :=
  l.foldl (fun m s => m.erase s) d

/-- The `error:` label: the module's interned strings were added to the
dictionary by the failed stages; with a named module the cleanup drops the
module from the model list (`lys_free(..., 1)`) and releases its strings; a
nameless module is only `free`d. -/
def errPath (c : LoadCtx) (name : Option String) (strs : List String) (mid : Nat) :
    LoadCtx :=
  match name with
  | none => ⟨c.models, c.dict + ↑strs, true⟩
  | some _ => ⟨c.models.erase mid, dictRemove (c.dict + ↑strs) strs, true⟩

/-- The `error:` label reached after `lyp_ctx_add_module` already appended
the module to the context's model list. -/
def errPathReg (c : LoadCtx) (name : Option String) (strs : List String) (mid : Nat) :
    LoadCtx :=
  match name with
  | none => ⟨c.models ++ [mid], c.dict + ↑strs, true⟩
  | some _ => ⟨(c.models ++ [mid]).erase mid, dictRemove (c.dict + ↑strs) strs, true⟩

/-- `yang_read_module`: parse, resolve unresolved references when any exist,
check the requested revision, register the module, and derive implement
flags for augment/deviation targets; any failure takes the `error:` path. -/
def yang_read_module (ctx : LoadCtx) (mid : Nat) (reqRev : Bool)
    (pout : ParseOut) (rout : StageOut) (regFail impFail : Bool) :
    Option Nat × LoadCtx :=
  if pout.failed = true then
    (none, errPath ctx pout.name pout.interned mid)
  else if pout.unresCount ≠ 0 ∧ rout.failed = true then
    (none, errPath ctx pout.name (pout.interned ++ rout.interned) mid)
  else if reqRev = true ∧ pout.revMatch = false then
    (none, errPath ctx pout.name
      (if pout.unresCount ≠ 0 then pout.interned ++ rout.interned else pout.interned) mid)
  else if regFail = true then
    (none, errPath ctx pout.name
      (if pout.unresCount ≠ 0 then pout.interned ++ rout.interned else pout.interned) mid)
  else if pout.hasAug = true ∧ impFail = true then
    (none, errPathReg ctx pout.name
      (if pout.unresCount ≠ 0 then pout.interned ++ rout.interned else pout.interned) mid)
  else
    (some mid,
      ⟨ctx.models ++ [mid],
        ctx.dict +
          ↑(if pout.unresCount ≠ 0 then pout.interned ++ rout.interned else pout.interned),
        ctx.err⟩)

theorem dictRemove_add : ∀ (l : List String) (d : Multiset String),
    dictRemove (d + ↑l) l = d := by
  intro l
  induction l with
  | nil =>
    intro d
    show d + ↑([] : List String) = d
    rw [Multiset.coe_nil, add_zero]
  | cons x xs ih =>
    intro d
    show dictRemove ((d + ↑(x :: xs)).erase x) xs = d
    have h1 : (d + ↑(x :: xs)) = x ::ₘ (d + ↑xs) := by
      rw [← Multiset.cons_coe, Multiset.add_cons]
    rw [h1, Multiset.erase_cons_head]
    exact ih d

/-- **C1.**  Whichever stage fails — statement parsing, unresolved-reference
resolution, the revision check, registration, or the post-registration
implement-flag pass — `yang_read_module` returns a null handle, records an
error, releases every string the partial module interned, and leaves the
context's model list exactly as it was, so no partially linked module stays
registered; a successful load registers exactly the new module and records
no error. -/
theorem C1_load_rollback (ctx : LoadCtx) (mid : Nat) (reqRev : Bool)
    (pout : ParseOut) (rout : StageOut) (regFail impFail : Bool)
    (hmid : mid ∉ ctx.models)
    (hname : pout.name = none → pout.interned = [])
    (hnm : pout.name = none → pout.failed = true)
    (res : Option Nat) (ctx' : LoadCtx)
    (h : yang_read_module ctx mid reqRev pout rout regFail impFail = (res, ctx')) :
    (res = none →
      ctx'.err = true ∧ ctx'.models = ctx.models ∧ ctx'.dict = ctx.dict) ∧
    (res ≠ none →
      res = some mid ∧ ctx'.models = ctx.models ++ [mid] ∧ ctx'.err = ctx.err) := by
  rw [yang_read_module] at h
  by_cases h1 : pout.failed = true
  · rw [if_pos h1] at h
    cases h
    refine ⟨?_, fun hne => absurd rfl hne⟩
    intro _
    rcases hn : pout.name with _ | nm
    · rw [hname hn]
      refine ⟨rfl, rfl, ?_⟩
      show ctx.dict + ↑([] : List String) = ctx.dict
      rw [Multiset.coe_nil, add_zero]
    · refine ⟨rfl, ?_, ?_⟩
      · show ctx.models.erase mid = ctx.models
        exact List.erase_of_not_mem hmid
      · show dictRemove (ctx.dict + ↑pout.interned) pout.interned = ctx.dict
        exact dictRemove_add _ _
  · rw [if_neg h1] at h
    have hsome : ∀ strs : List String,
        (errPath ctx pout.name strs mid).err = true ∧
        (errPath ctx pout.name strs mid).models = ctx.models ∧
        (errPath ctx pout.name strs mid).dict = ctx.dict := by
      intro strs
      rcases hn : pout.name with _ | nm
      · exact absurd (hnm hn) h1
      · refine ⟨rfl, ?_, ?_⟩
        · show ctx.models.erase mid = ctx.models
          exact List.erase_of_not_mem hmid
        · show dictRemove (ctx.dict + ↑strs) strs = ctx.dict
          exact dictRemove_add _ _
    by_cases h2 : pout.unresCount ≠ 0 ∧ rout.failed = true
    · rw [if_pos h2] at h
      cases h
      exact ⟨fun _ => hsome _, fun hne => absurd rfl hne⟩
    · rw [if_neg h2] at h
      by_cases h3 : reqRev = true ∧ pout.revMatch = false
      · rw [if_pos h3] at h
        cases h
        exact ⟨fun _ => hsome _, fun hne => absurd rfl hne⟩
      · rw [if_neg h3] at h
        by_cases h4 : regFail = true
        · rw [if_pos h4] at h
          cases h
          exact ⟨fun _ => hsome _, fun hne => absurd rfl hne⟩
        · rw [if_neg h4] at h
          by_cases h5 : pout.hasAug = true ∧ impFail = true
          · rw [if_pos h5] at h
            cases h
            refine ⟨?_, fun hne => absurd rfl hne⟩
            intro _
            rcases hn : pout.name with _ | nm
            · exact absurd (hnm hn) h1
            · refine ⟨rfl, ?_, ?_⟩
              · show (ctx.models ++ [mid]).erase mid = ctx.models
                rw [List.erase_append_right _ hmid, List.erase_cons_head,
                  List.append_nil]
              · show dictRemove (ctx.dict + ↑(if pout.unresCount ≠ 0 then
                    pout.interned ++ rout.interned else pout.interned))
                    (if pout.unresCount ≠ 0 then pout.interned ++ rout.interned
                      else pout.interned) = ctx.dict
                exact dictRemove_add _ _
          · rw [if_neg h5] at h
            cases h
            refine ⟨?_, ?_⟩
            · intro h0
              cases h0
            · intro _
              exact ⟨rfl, rfl, rfl⟩

theorem C1_load_rollback_witness :
    yang_read_module ⟨[7], (↑(["k"] : List String) : Multiset String), false⟩ 3 true
        ⟨false, some "m", ["a", "k"], 1, true, true⟩ ⟨false, ["b"]⟩ false true =
      (none, ⟨[7], (↑(["k"] : List String) : Multiset String), true⟩) ∧
    ((⟨[7], (↑(["k"] : List String) : Multiset String), true⟩ : LoadCtx).err = true ∧
      (⟨[7], (↑(["k"] : List String) : Multiset String), true⟩ : LoadCtx).models = [7] ∧
      (⟨[7], (↑(["k"] : List String) : Multiset String), true⟩ : LoadCtx).dict =
        (↑(["k"] : List String) : Multiset String)) := by
  constructor
  · decide
  · exact (C1_load_rollback ⟨[7], ↑(["k"] : List String), false⟩ 3 true
      ⟨false, some "m", ["a", "k"], 1, true, true⟩ ⟨false, ["b"]⟩ false true
      (by decide) (by decide) (by decide) none
      ⟨[7], ↑(["k"] : List String), true⟩ (by decide)).1 rfl

/-! #### Localized edits

Every branch of `lys_switch_deviation` edits exactly one child chain: the
one at the target's parent path.  `cat` reads that chain, `updateAt` rewrites
it in place; the lemmas below let disjoint deviations be toggled
independently. -/

/-- The child chain at a path (`[]` is the top-level chain). -/
def cat : List String → List DNode → Option (List DNode)
  | [], l => some l
  | x :: rest, l =>
    match findName l x with
    | none => none
    | some d => cat rest (nodeChildren d)

/-- Rewrite the child chain at a path, walking the same first-match spine as
`resolve_augment_schema_nodeid`. -/
def updateAt : List String → (List DNode → List DNode) → List DNode → List DNode
  | [], f, l => f l
  | x :: rest, f, l =>
    modifyName l x fun d => .mk (nodeName d) (updateAt rest f (nodeChildren d))

/-- `pathPre p q`: the path `p` is an initial segment of `q`. -/
def pathPre : List String → List String → Bool
  | [], _ => true
  | _ :: _, [] => false
  | a :: p, b :: q => a = b && pathPre p q

/-- Two target paths are independent when neither is an initial segment of
the other: then neither deviation's edit can touch the other's spine or
target. -/
def pathDisj (p q : List String) : Bool := !pathPre p q && !pathPre q p

theorem nodeName_mk (s : String) (c : List DNode) : nodeName (.mk s c) = s := rfl

theorem mk_eta : ∀ d : DNode, DNode.mk (nodeName d) (nodeChildren d) = d
  | .mk _ _ => rfl

theorem pathDisj_symm (p q : List String) : pathDisj p q = pathDisj q p := by
  rw [pathDisj, pathDisj, Bool.and_comm]

theorem pathDisj_singleton (a b : String) (h : pathDisj [a] [b] = true) : a ≠ b := by
  intro he
  subst he
  rw [pathDisj] at h
  have : pathPre [a] [a] = true := by
    rw [pathPre]
    simp [pathPre]
  rw [this] at h
  cases h

theorem pathDisj_single_left (a y : String) (r : List String)
    (h : pathDisj [a] (y :: r) = true) : a ≠ y := by
  intro he
  subst he
  rw [pathDisj] at h
  have : pathPre [a] (a :: r) = true := by
    rw [pathPre]
    simp [pathPre]
  rw [this] at h
  cases h

theorem pathDisj_single_right (x : String) (r : List String) (b : String)
    (h : pathDisj (x :: r) [b] = true) : b ≠ x := by
  intro he
  rw [he] at h
  rw [pathDisj] at h
  have hpp : pathPre [x] (x :: r) = true := by
    rw [pathPre]
    simp [pathPre]
  rw [hpp] at h
  rw [Bool.and_eq_true] at h
  have h2 := h.2
  rw [Bool.not_eq_true'] at h2
  cases h2

theorem pathDisj_cons (x : String) (p q : List String)
    (h : pathDisj (x :: p) (x :: q) = true) : pathDisj p q = true := by
  rw [pathDisj] at h ⊢
  have h1 : pathPre (x :: p) (x :: q) = pathPre p q := by
    rw [pathPre]
    simp
  have h2 : pathPre (x :: q) (x :: p) = pathPre q p := by
    rw [pathPre]
    simp
  rw [h1, h2] at h
  exact h

theorem findName_append_ne :
    ∀ (l : List DNode) (o : DNode) (m : String), nodeName o ≠ m →
      findName (l ++ [o]) m = findName l m := by
  intro l o m hne
  induction l with
  | nil =>
    rw [List.nil_append]
    show (if nodeName o = m then some o else findName [] m) = findName [] m
    rw [if_neg hne]
  | cons d rest ih =>
    rw [List.cons_append, findName, findName]
    by_cases he : nodeName d = m
    · rw [if_pos he, if_pos he]
    · rw [if_neg he, if_neg he, ih]

theorem findName_erase_ne :
    ∀ (l : List DNode) (n m : String), n ≠ m →
      findName (eraseName l n) m = findName l m := by
  intro l n m hne
  induction l with
  | nil => rfl
  | cons d rest ih =>
    rw [eraseName, findName]
    by_cases hd : nodeName d = n
    · rw [if_pos hd]
      have hdm : ¬ nodeName d = m := by
        rw [hd]
        exact hne
      rw [if_neg hdm]
    · rw [if_neg hd, findName]
      by_cases hm : nodeName d = m
      · rw [if_pos hm, if_pos hm]
      · rw [if_neg hm, if_neg hm, ih]

theorem findName_replace_ne :
    ∀ (l : List DNode) (n : String) (c : DNode) (m : String), n ≠ m → nodeName c = n →
      findName (replaceName l n c) m = findName l m := by
  intro l n c m hne hc
  induction l with
  | nil => rfl
  | cons d rest ih =>
    rw [replaceName, findName]
    by_cases hd : nodeName d = n
    · rw [if_pos hd, findName]
      have hcm : ¬ nodeName c = m := by
        rw [hc]
        exact hne
      have hdm : ¬ nodeName d = m := by
        rw [hd]
        exact hne
      rw [if_neg hcm, if_neg hdm]
    · rw [if_neg hd, findName]
      by_cases hm : nodeName d = m
      · rw [if_pos hm, if_pos hm]
      · rw [if_neg hm, if_neg hm, ih]

theorem findName_modifyName_self :
    ∀ (l : List DNode) (x : String) (g : DNode → DNode) (d : DNode),
      (∀ e, nodeName (g e) = nodeName e) → findName l x = some d →
      findName (modifyName l x g) x = some (g d) := by
  intro l x g d hg
  induction l with
  | nil => intro h; cases h
  | cons e rest ih =>
    intro h
    rw [findName] at h
    rw [modifyName]
    by_cases he : nodeName e = x
    · rw [if_pos he] at h
      cases h
      rw [if_pos he, findName, if_pos (by rw [hg]; exact he)]
    · rw [if_neg he] at h
      rw [if_neg he, findName, if_neg he]
      exact ih h

theorem findName_modifyName_other :
    ∀ (l : List DNode) (x : String) (g : DNode → DNode) (m : String),
      (∀ e, nodeName (g e) = nodeName e) → x ≠ m →
      findName (modifyName l x g) m = findName l m := by
  intro l x g m hg hne
  induction l with
  | nil => rfl
  | cons e rest ih =>
    rw [modifyName, findName]
    by_cases he : nodeName e = x
    · rw [if_pos he, findName]
      have hgm : ¬ nodeName (g e) = m := by
        rw [hg, he]
        exact hne
      have hem : ¬ nodeName e = m := by
        rw [he]
        exact hne
      rw [if_neg hgm, if_neg hem]
    · rw [if_neg he, findName]
      by_cases hm : nodeName e = m
      · rw [if_pos hm, if_pos hm]
      · rw [if_neg hm, if_neg hm, ih]

theorem modifyName_congr :
    ∀ (l : List DNode) (x : String) (g1 g2 : DNode → DNode),
      (∀ d, g1 d = g2 d) → modifyName l x g1 = modifyName l x g2 := by
  intro l x g1 g2 h
  induction l with
  | nil => rfl
  | cons d rest ih =>
    rw [modifyName, modifyName]
    by_cases he : nodeName d = x
    · rw [if_pos he, if_pos he, h d]
    · rw [if_neg he, if_neg he, ih]

theorem modifyName_modifyName :
    ∀ (l : List DNode) (x : String) (a b : DNode → DNode),
      (∀ d, nodeName (a d) = nodeName d) →
      modifyName (modifyName l x a) x b = modifyName l x (fun d => b (a d)) := by
  intro l x a b ha
  induction l with
  | nil => rfl
  | cons d rest ih =>
    by_cases he : nodeName d = x
    · rw [show modifyName (d :: rest) x a = a d :: rest from by rw [modifyName, if_pos he]]
      rw [show modifyName (a d :: rest) x b = b (a d) :: rest from by
        rw [modifyName, if_pos (show nodeName (a d) = x from by rw [ha]; exact he)]]
      rw [show modifyName (d :: rest) x (fun d => b (a d)) = b (a d) :: rest from by
        rw [modifyName, if_pos he]]
    · rw [show modifyName (d :: rest) x a = d :: modifyName rest x a from by
        rw [modifyName, if_neg he]]
      rw [show modifyName (d :: modifyName rest x a) x b =
          d :: modifyName (modifyName rest x a) x b from by rw [modifyName, if_neg he]]
      rw [show modifyName (d :: rest) x (fun d => b (a d)) =
          d :: modifyName rest x (fun d => b (a d)) from by rw [modifyName, if_neg he]]
      rw [ih]

theorem modifyName_self_id :
    ∀ (l : List DNode) (x : String) (g : DNode → DNode) (d : DNode),
      findName l x = some d → g d = d → modifyName l x g = l := by
  intro l x g d
  induction l with
  | nil => intro h _; cases h
  | cons e rest ih =>
    intro h hgd
    rw [findName] at h
    rw [modifyName]
    by_cases he : nodeName e = x
    · rw [if_pos he] at h
      cases h
      rw [if_pos he, hgd]
    · rw [if_neg he] at h
      rw [if_neg he, ih h hgd]

theorem modifyName_comm :
    ∀ (l : List DNode) (x y : String) (g1 g2 : DNode → DNode), x ≠ y →
      (∀ d, nodeName (g1 d) = nodeName d) → (∀ d, nodeName (g2 d) = nodeName d) →
      modifyName (modifyName l y g2) x g1 = modifyName (modifyName l x g1) y g2 := by
  intro l x y g1 g2 hne h1 h2
  induction l with
  | nil => rfl
  | cons d rest ih =>
    by_cases hy : nodeName d = y
    · have hx : ¬ nodeName d = x := by
        rw [hy]
        intro he
        exact hne he.symm
      rw [show modifyName (d :: rest) y g2 = g2 d :: rest from by
        rw [modifyName, if_pos hy]]
      rw [show modifyName (d :: rest) x g1 = d :: modifyName rest x g1 from by
        rw [modifyName, if_neg hx]]
      rw [show modifyName (g2 d :: rest) x g1 = g2 d :: modifyName rest x g1 from by
        rw [modifyName, if_neg (show ¬ nodeName (g2 d) = x from by rw [h2]; exact hx)]]
      rw [show modifyName (d :: modifyName rest x g1) y g2 =
          g2 d :: modifyName rest x g1 from by rw [modifyName, if_pos hy]]
    · by_cases hx : nodeName d = x
      · rw [show modifyName (d :: rest) y g2 = d :: modifyName rest y g2 from by
          rw [modifyName, if_neg hy]]
        rw [show modifyName (d :: rest) x g1 = g1 d :: rest from by
          rw [modifyName, if_pos hx]]
        rw [show modifyName (d :: modifyName rest y g2) x g1 =
            g1 d :: modifyName rest y g2 from by rw [modifyName, if_pos hx]]
        rw [show modifyName (g1 d :: rest) y g2 = g1 d :: modifyName rest y g2 from by
          rw [modifyName, if_neg (show ¬ nodeName (g1 d) = y from by rw [h1]; exact hy)]]
      · rw [show modifyName (d :: rest) y g2 = d :: modifyName rest y g2 from by
          rw [modifyName, if_neg hy]]
        rw [show modifyName (d :: rest) x g1 = d :: modifyName rest x g1 from by
          rw [modifyName, if_neg hx]]
        rw [show modifyName (d :: modifyName rest y g2) x g1 =
            d :: modifyName (modifyName rest y g2) x g1 from by
          rw [modifyName, if_neg hx]]
        rw [show modifyName (d :: modifyName rest x g1) y g2 =
            d :: modifyName (modifyName rest x g1) y g2 from by
          rw [modifyName, if_neg hy]]
        rw [ih]

theorem resolvePath_eq_cat :
    ∀ (p : List String) (n : String) (data : List DNode),
      resolvePath (p ++ [n]) data = (cat p data).bind fun l => findName l n := by
  intro p
  induction p with
  | nil =>
    intro n data
    rfl
  | cons x p' ih =>
    intro n data
    rcases p' with _ | ⟨z, p2⟩
    · show (match findName data x with
        | none => none
        | some d => resolvePath [n] (nodeChildren d)) =
        ((match findName data x with
          | none => none
          | some d => cat [] (nodeChildren d)).bind fun l => findName l n)
      rcases hf : findName data x with _ | d
      · rfl
      · rfl
    · show (match findName data x with
        | none => none
        | some d => resolvePath ((z :: p2) ++ [n]) (nodeChildren d)) =
        ((match findName data x with
          | none => none
          | some d => cat (z :: p2) (nodeChildren d)).bind fun l => findName l n)
      rcases hf : findName data x with _ | d
      · rfl
      · show resolvePath ((z :: p2) ++ [n]) (nodeChildren d) =
          (cat (z :: p2) (nodeChildren d)).bind fun l => findName l n
        exact ih n (nodeChildren d)

theorem cat_resolve :
    ∀ (p : List String) (x : String) (data : List DNode) (l : List DNode),
      cat (x :: p) data = some l →
      ∃ nd, resolvePath (x :: p) data = some nd ∧ nodeChildren nd = l := by
  intro p
  induction p with
  | nil =>
    intro x data l h
    rw [cat] at h
    rcases hf : findName data x with _ | d
    · rw [hf] at h
      cases h
    · rw [hf] at h
      have h2 : some (nodeChildren d) = some l := h
      cases h2
      exact ⟨d, hf, rfl⟩
  | cons y p' ih =>
    intro x data l h
    rw [cat] at h
    rcases hf : findName data x with _ | d
    · rw [hf] at h
      cases h
    · rw [hf] at h
      obtain ⟨nd, hres, hch⟩ := ih y (nodeChildren d) l h
      refine ⟨nd, ?_, hch⟩
      show (match findName data x with
        | none => none
        | some d => resolvePath (y :: p') (nodeChildren d)) = some nd
      rw [hf]
      exact hres

theorem removeAt_eq_updateAt :
    ∀ (p : List String) (n : String) (data : List DNode),
      removeAt (p ++ [n]) data = updateAt p (fun l => eraseName l n) data := by
  intro p
  induction p with
  | nil => intro n data; rfl
  | cons x p' ih =>
    intro n data
    rcases p' with _ | ⟨z, p2⟩
    · show modifyName data x
          (fun d => .mk (nodeName d) (removeAt [n] (nodeChildren d))) =
        modifyName data x
          (fun d => .mk (nodeName d) (updateAt [] (fun l => eraseName l n) (nodeChildren d)))
      exact modifyName_congr data x _ _ (fun d => rfl)
    · show modifyName data x
          (fun d => .mk (nodeName d) (removeAt ((z :: p2) ++ [n]) (nodeChildren d))) =
        modifyName data x
          (fun d => .mk (nodeName d)
            (updateAt (z :: p2) (fun l => eraseName l n) (nodeChildren d)))
      exact modifyName_congr data x _ _ (fun d => by rw [ih n (nodeChildren d)])

theorem addAt_eq_updateAt :
    ∀ (p : List String) (c : DNode) (data : List DNode),
      addAt p c data = updateAt p (fun l => l ++ [c]) data := by
  intro p
  induction p with
  | nil => intro c data; rfl
  | cons x p' ih =>
    intro c data
    show modifyName data x (fun d => .mk (nodeName d) (addAt p' c (nodeChildren d))) =
      modifyName data x
        (fun d => .mk (nodeName d) (updateAt p' (fun l => l ++ [c]) (nodeChildren d)))
    exact modifyName_congr data x _ _ (fun d => by rw [ih c (nodeChildren d)])

theorem switchAt_eq_updateAt :
    ∀ (p : List String) (n : String) (c : DNode) (data : List DNode),
      switchAt (p ++ [n]) c data = updateAt p (fun l => replaceName l n c) data := by
  intro p
  induction p with
  | nil => intro n c data; rfl
  | cons x p' ih =>
    intro n c data
    rcases p' with _ | ⟨z, p2⟩
    · show modifyName data x
          (fun d => .mk (nodeName d) (switchAt [n] c (nodeChildren d))) =
        modifyName data x
          (fun d => .mk (nodeName d)
            (updateAt [] (fun l => replaceName l n c) (nodeChildren d)))
      exact modifyName_congr data x _ _ (fun d => rfl)
    · show modifyName data x
          (fun d => .mk (nodeName d) (switchAt ((z :: p2) ++ [n]) c (nodeChildren d))) =
        modifyName data x
          (fun d => .mk (nodeName d)
            (updateAt (z :: p2) (fun l => replaceName l n c) (nodeChildren d)))
      exact modifyName_congr data x _ _ (fun d => by rw [ih n c (nodeChildren d)])

theorem cat_updateAt_self :
    ∀ (p : List String) (f : List DNode → List DNode) (data l : List DNode),
      cat p data = some l → cat p (updateAt p f data) = some (f l) := by
  intro p
  induction p with
  | nil =>
    intro f data l h
    have h2 : some data = some l := h
    cases h2
    rfl
  | cons x p' ih =>
    intro f data l h
    rw [cat] at h
    rcases hf : findName data x with _ | d
    · rw [hf] at h
      cases h
    · rw [hf] at h
      rw [updateAt, cat]
      rw [findName_modifyName_self data x
        (fun e => DNode.mk (nodeName e) (updateAt p' f (nodeChildren e))) d
        (fun e => rfl) hf]
      show cat p' (nodeChildren (DNode.mk (nodeName d)
        (updateAt p' f (nodeChildren d)))) = some (f l)
      exact ih f (nodeChildren d) l h

theorem updateAt_updateAt :
    ∀ (p : List String) (f g : List DNode → List DNode) (data : List DNode),
      updateAt p f (updateAt p g data) = updateAt p (fun l => f (g l)) data := by
  intro p
  induction p with
  | nil => intro f g data; rfl
  | cons x p' ih =>
    intro f g data
    rw [updateAt, updateAt, updateAt]
    rw [modifyName_modifyName data x
      (fun d => DNode.mk (nodeName d) (updateAt p' g (nodeChildren d)))
      (fun d => DNode.mk (nodeName d) (updateAt p' f (nodeChildren d)))
      (fun d => rfl)]
    exact modifyName_congr data x _ _ (fun d => by
      show DNode.mk (nodeName (DNode.mk (nodeName d) (updateAt p' g (nodeChildren d))))
          (updateAt p' f (nodeChildren (DNode.mk (nodeName d)
            (updateAt p' g (nodeChildren d))))) =
        DNode.mk (nodeName d) (updateAt p' (fun l => f (g l)) (nodeChildren d))
      rw [nodeName_mk]
      show DNode.mk (nodeName d) (updateAt p' f (updateAt p' g (nodeChildren d))) = _
      rw [ih])

theorem updateAt_id :
    ∀ (p : List String) (f : List DNode → List DNode) (data l : List DNode),
      cat p data = some l → f l = l → updateAt p f data = data := by
  intro p
  induction p with
  | nil =>
    intro f data l h hf
    have h2 : some data = some l := h
    cases h2
    exact hf
  | cons x p' ih =>
    intro f data l h hf
    rw [cat] at h
    rcases hfx : findName data x with _ | d
    · rw [hfx] at h
      cases h
    · rw [hfx] at h
      rw [updateAt]
      refine modifyName_self_id data x _ d hfx ?_
      show DNode.mk (nodeName d) (updateAt p' f (nodeChildren d)) = d
      rw [ih f (nodeChildren d) l h hf, mk_eta]

theorem erase_erase_comm :
    ∀ (l : List DNode) (n m : String), n ≠ m →
      eraseName (eraseName l m) n = eraseName (eraseName l n) m := by
  intro l n m hne
  induction l with
  | nil => rfl
  | cons d rest ih =>
    by_cases hm : nodeName d = m
    · have hn : ¬ nodeName d = n := by
        rw [hm]
        intro he
        exact hne he.symm
      rw [show eraseName (d :: rest) m = rest from by rw [eraseName, if_pos hm]]
      rw [show eraseName (d :: rest) n = d :: eraseName rest n from by
        rw [eraseName, if_neg hn]]
      rw [show eraseName (d :: eraseName rest n) m = eraseName rest n from by
        rw [eraseName, if_pos hm]]
    · by_cases hn : nodeName d = n
      · rw [show eraseName (d :: rest) m = d :: eraseName rest m from by
          rw [eraseName, if_neg hm]]
        rw [show eraseName (d :: eraseName rest m) n = eraseName rest m from by
          rw [eraseName, if_pos hn]]
        rw [show eraseName (d :: rest) n = rest from by rw [eraseName, if_pos hn]]
      · rw [show eraseName (d :: rest) m = d :: eraseName rest m from by
          rw [eraseName, if_neg hm]]
        rw [show eraseName (d :: eraseName rest m) n = d :: eraseName (eraseName rest m) n
          from by rw [eraseName, if_neg hn]]
        rw [show eraseName (d :: rest) n = d :: eraseName rest n from by
          rw [eraseName, if_neg hn]]
        rw [show eraseName (d :: eraseName rest n) m = d :: eraseName (eraseName rest n) m
          from by rw [eraseName, if_neg hm]]
        rw [ih]

theorem erase_replace_comm :
    ∀ (l : List DNode) (n m : String) (c : DNode), n ≠ m → nodeName c = m →
      eraseName (replaceName l m c) n = replaceName (eraseName l n) m c := by
  intro l n m c hne hc
  induction l with
  | nil => rfl
  | cons d rest ih =>
    by_cases hm : nodeName d = m
    · have hn : ¬ nodeName d = n := by
        rw [hm]
        intro he
        exact hne he.symm
      rw [show replaceName (d :: rest) m c = c :: rest from by
        rw [replaceName, if_pos hm]]
      rw [show eraseName (c :: rest) n = c :: eraseName rest n from by
        rw [eraseName, if_neg (show ¬ nodeName c = n from by
          rw [hc]; intro he; exact hne he.symm)]]
      rw [show eraseName (d :: rest) n = d :: eraseName rest n from by
        rw [eraseName, if_neg hn]]
      rw [show replaceName (d :: eraseName rest n) m c = c :: eraseName rest n from by
        rw [replaceName, if_pos hm]]
    · by_cases hn : nodeName d = n
      · rw [show replaceName (d :: rest) m c = d :: replaceName rest m c from by
          rw [replaceName, if_neg hm]]
        rw [show eraseName (d :: replaceName rest m c) n = replaceName rest m c from by
          rw [eraseName, if_pos hn]]
        rw [show eraseName (d :: rest) n = rest from by rw [eraseName, if_pos hn]]
      · rw [show replaceName (d :: rest) m c = d :: replaceName rest m c from by
          rw [replaceName, if_neg hm]]
        rw [show eraseName (d :: replaceName rest m c) n =
            d :: eraseName (replaceName rest m c) n from by rw [eraseName, if_neg hn]]
        rw [show eraseName (d :: rest) n = d :: eraseName rest n from by
          rw [eraseName, if_neg hn]]
        rw [show replaceName (d :: eraseName rest n) m c =
            d :: replaceName (eraseName rest n) m c from by rw [replaceName, if_neg hm]]
        rw [ih]

theorem replace_replace_comm :
    ∀ (l : List DNode) (n m : String) (c c' : DNode), n ≠ m →
      nodeName c = n → nodeName c' = m →
      replaceName (replaceName l m c') n c = replaceName (replaceName l n c) m c' := by
  intro l n m c c' hne hc hc'
  induction l with
  | nil => rfl
  | cons d rest ih =>
    by_cases hm : nodeName d = m
    · have hn : ¬ nodeName d = n := by
        rw [hm]
        intro he
        exact hne he.symm
      rw [show replaceName (d :: rest) m c' = c' :: rest from by
        rw [replaceName, if_pos hm]]
      rw [show replaceName (c' :: rest) n c = c' :: replaceName rest n c from by
        rw [replaceName, if_neg (show ¬ nodeName c' = n from by
          rw [hc']; intro he; exact hne he.symm)]]
      rw [show replaceName (d :: rest) n c = d :: replaceName rest n c from by
        rw [replaceName, if_neg hn]]
      rw [show replaceName (d :: replaceName rest n c) m c' =
          c' :: replaceName rest n c from by rw [replaceName, if_pos hm]]
    · by_cases hn : nodeName d = n
      · rw [show replaceName (d :: rest) m c' = d :: replaceName rest m c' from by
          rw [replaceName, if_neg hm]]
        rw [show replaceName (d :: replaceName rest m c') n c =
            c :: replaceName rest m c' from by rw [replaceName, if_pos hn]]
        rw [show replaceName (d :: rest) n c = c :: rest from by
          rw [replaceName, if_pos hn]]
        rw [show replaceName (c :: rest) m c' = c :: replaceName rest m c' from by
          rw [replaceName, if_neg (show ¬ nodeName c = m from by
            rw [hc]; exact hne)]]
      · rw [show replaceName (d :: rest) m c' = d :: replaceName rest m c' from by
          rw [replaceName, if_neg hm]]
        rw [show replaceName (d :: replaceName rest m c') n c =
            d :: replaceName (replaceName rest m c') n c from by
          rw [replaceName, if_neg hn]]
        rw [show replaceName (d :: rest) n c = d :: replaceName rest n c from by
          rw [replaceName, if_neg hn]]
        rw [show replaceName (d :: replaceName rest n c) m c' =
            d :: replaceName (replaceName rest n c) m c' from by
          rw [replaceName, if_neg hm]]
        rw [ih]

theorem erase_modify_comm :
    ∀ (l : List DNode) (x n : String) (g : DNode → DNode), x ≠ n →
      (∀ d, nodeName (g d) = nodeName d) →
      eraseName (modifyName l x g) n = modifyName (eraseName l n) x g := by
  intro l x n g hne hg
  induction l with
  | nil => rfl
  | cons d rest ih =>
    by_cases hx : nodeName d = x
    · have hn : ¬ nodeName d = n := by
        rw [hx]
        exact hne
      rw [show modifyName (d :: rest) x g = g d :: rest from by
        rw [modifyName, if_pos hx]]
      rw [show eraseName (g d :: rest) n = g d :: eraseName rest n from by
        rw [eraseName, if_neg (show ¬ nodeName (g d) = n from by rw [hg]; exact hn)]]
      rw [show eraseName (d :: rest) n = d :: eraseName rest n from by
        rw [eraseName, if_neg hn]]
      rw [show modifyName (d :: eraseName rest n) x g = g d :: eraseName rest n from by
        rw [modifyName, if_pos hx]]
    · by_cases hn : nodeName d = n
      · rw [show modifyName (d :: rest) x g = d :: modifyName rest x g from by
          rw [modifyName, if_neg hx]]
        rw [show eraseName (d :: modifyName rest x g) n = modifyName rest x g from by
          rw [eraseName, if_pos hn]]
        rw [show eraseName (d :: rest) n = rest from by rw [eraseName, if_pos hn]]
      · rw [show modifyName (d :: rest) x g = d :: modifyName rest x g from by
          rw [modifyName, if_neg hx]]
        rw [show eraseName (d :: modifyName rest x g) n =
            d :: eraseName (modifyName rest x g) n from by rw [eraseName, if_neg hn]]
        rw [show eraseName (d :: rest) n = d :: eraseName rest n from by
          rw [eraseName, if_neg hn]]
        rw [show modifyName (d :: eraseName rest n) x g =
            d :: modifyName (eraseName rest n) x g from by rw [modifyName, if_neg hx]]
        rw [ih]

theorem replace_modify_comm :
    ∀ (l : List DNode) (x n : String) (c : DNode) (g : DNode → DNode), x ≠ n →
      nodeName c = n → (∀ d, nodeName (g d) = nodeName d) →
      replaceName (modifyName l x g) n c = modifyName (replaceName l n c) x g := by
  intro l x n c g hne hc hg
  induction l with
  | nil => rfl
  | cons d rest ih =>
    by_cases hx : nodeName d = x
    · have hn : ¬ nodeName d = n := by
        rw [hx]
        exact hne
      rw [show modifyName (d :: rest) x g = g d :: rest from by
        rw [modifyName, if_pos hx]]
      rw [show replaceName (g d :: rest) n c = g d :: replaceName rest n c from by
        rw [replaceName, if_neg (show ¬ nodeName (g d) = n from by rw [hg]; exact hn)]]
      rw [show replaceName (d :: rest) n c = d :: replaceName rest n c from by
        rw [replaceName, if_neg hn]]
      rw [show modifyName (d :: replaceName rest n c) x g =
          g d :: replaceName rest n c from by rw [modifyName, if_pos hx]]
    · by_cases hn : nodeName d = n
      · rw [show modifyName (d :: rest) x g = d :: modifyName rest x g from by
          rw [modifyName, if_neg hx]]
        rw [show replaceName (d :: modifyName rest x g) n c =
            c :: modifyName rest x g from by rw [replaceName, if_pos hn]]
        rw [show replaceName (d :: rest) n c = c :: rest from by
          rw [replaceName, if_pos hn]]
        rw [show modifyName (c :: rest) x g = c :: modifyName rest x g from by
          rw [modifyName, if_neg (show ¬ nodeName c = x from by
            rw [hc]; intro he; exact hne he.symm)]]
      · rw [show modifyName (d :: rest) x g = d :: modifyName rest x g from by
          rw [modifyName, if_neg hx]]
        rw [show replaceName (d :: modifyName rest x g) n c =
            d :: replaceName (modifyName rest x g) n c from by
          rw [replaceName, if_neg hn]]
        rw [show replaceName (d :: rest) n c = d :: replaceName rest n c from by
          rw [replaceName, if_neg hn]]
        rw [show modifyName (d :: replaceName rest n c) x g =
            d :: modifyName (replaceName rest n c) x g from by
          rw [modifyName, if_neg hx]]
        rw [ih]

/-- The two child-chain edits performed by a *second* toggle of a deviation
whose original is stored: unlinking the target by name, or splicing a node
in its place. -/
inductive LEdit where
  | del (n : String)
  | rep (n : String) (c : DNode)

def leKey : LEdit → String
  | .del n => n
  | .rep n _ => n

def leApply : LEdit → List DNode → List DNode
  | .del n, l => eraseName l n
  | .rep n c, l => replaceName l n c

def LEditWF : LEdit → Prop
  | .del _ => True
  | .rep n c => nodeName c = n

theorem leApply_del (n : String) : leApply (.del n) = fun l => eraseName l n := rfl

theorem leApply_rep (n : String) (c : DNode) :
    leApply (.rep n c) = fun l => replaceName l n c := rfl

theorem leApply_findName (e : LEdit) (hwf : LEditWF e) (l : List DNode) (m : String)
    (hne : m ≠ leKey e) : findName (leApply e l) m = findName l m := by
  cases e with
  | del n => exact findName_erase_ne l n m (fun h => hne h.symm)
  | rep n c => exact findName_replace_ne l n c m (fun h => hne h.symm) hwf

theorem leApply_comm (e1 e2 : LEdit) (hwf1 : LEditWF e1) (hwf2 : LEditWF e2)
    (hne : leKey e1 ≠ leKey e2) (l : List DNode) :
    leApply e1 (leApply e2 l) = leApply e2 (leApply e1 l) := by
  cases e1 with
  | del n =>
    cases e2 with
    | del m => exact erase_erase_comm l n m hne
    | rep m c => exact erase_replace_comm l n m c hne hwf2
  | rep n c =>
    cases e2 with
    | del m =>
      exact (erase_replace_comm l m n c (fun h => hne h.symm) hwf1).symm
    | rep m c' => exact replace_replace_comm l n m c c' hne hwf1 hwf2

theorem leApply_modify_comm (e : LEdit) (hwf : LEditWF e) (x : String)
    (g : DNode → DNode) (hx : x ≠ leKey e)
    (hg : ∀ d, nodeName (g d) = nodeName d) (l : List DNode) :
    leApply e (modifyName l x g) = modifyName (leApply e l) x g := by
  cases e with
  | del n => exact erase_modify_comm l x n g hx hg
  | rep n c => exact replace_modify_comm l x n c g hx hwf hg

/-- A keyed edit at one target path leaves the child chain seen by a
disjoint target path resolvable, and the lookup of the disjoint target's own
name in it unchanged. -/
theorem cat_frame :
    ∀ (q p : List String) (n m : String) (f : List DNode → List DNode),
      pathDisj (p ++ [n]) (q ++ [m]) = true →
      (∀ l0 m', m' ≠ m → findName (f l0) m' = findName l0 m') →
      ∀ (data L : List DNode), cat p data = some L →
      ∃ L', cat p (updateAt q f data) = some L' ∧ findName L' n = findName L n := by
  intro q
  induction q with
  | nil =>
    intro p n m f hdisj hf data L hcat
    rcases p with _ | ⟨x, p'⟩
    · have h2 : some data = some L := hcat
      cases h2
      refine ⟨f data, rfl, ?_⟩
      exact hf data n (pathDisj_singleton n m hdisj)
    · rw [cat] at hcat
      rcases hfx : findName data x with _ | d
      · rw [hfx] at hcat
        cases hcat
      · rw [hfx] at hcat
        refine ⟨L, ?_, rfl⟩
        show cat (x :: p') (f data) = some L
        rw [cat]
        have hmx : m ≠ x := pathDisj_single_right x (p' ++ [n]) m hdisj
        rw [hf data x (fun h => hmx h.symm), hfx]
        exact hcat
  | cons y q' ih =>
    intro p n m f hdisj hf data L hcat
    rcases p with _ | ⟨x, p'⟩
    · have h2 : some data = some L := hcat
      cases h2
      have hny : n ≠ y := pathDisj_single_left n y (q' ++ [m]) hdisj
      refine ⟨modifyName data y
        (fun d => .mk (nodeName d) (updateAt q' f (nodeChildren d))), rfl, ?_⟩
      exact findName_modifyName_other data y
        (fun d => .mk (nodeName d) (updateAt q' f (nodeChildren d))) n
        (fun e => rfl) (fun h => hny h.symm)
    · rw [cat] at hcat
      rcases hfx : findName data x with _ | d
      · rw [hfx] at hcat
        cases hcat
      · rw [hfx] at hcat
        by_cases hxy : x = y
        · subst hxy
          have hdisj2 : pathDisj (p' ++ [n]) (q' ++ [m]) = true := by
            apply pathDisj_cons x
            show pathDisj (x :: (p' ++ [n])) (x :: (q' ++ [m])) = true
            rw [← List.cons_append, ← List.cons_append]
            exact hdisj
          obtain ⟨L', hcat', hfind'⟩ := ih p' n m f hdisj2 hf (nodeChildren d) L hcat
          refine ⟨L', ?_, hfind'⟩
          show cat (x :: p') (updateAt (x :: q') f data) = some L'
          rw [updateAt, cat]
          rw [findName_modifyName_self data x
            (fun e => DNode.mk (nodeName e) (updateAt q' f (nodeChildren e))) d
            (fun e => rfl) hfx]
          exact hcat'
        · refine ⟨L, ?_, rfl⟩
          show cat (x :: p') (updateAt (y :: q') f data) = some L
          rw [updateAt, cat]
          rw [findName_modifyName_other data y
            (fun d => DNode.mk (nodeName d) (updateAt q' f (nodeChildren d))) x
            (fun e => rfl) (fun h => hxy h.symm), hfx]
          exact hcat

/-- Keyed edits at disjoint target paths commute. -/
theorem updateAt_comm :
    ∀ (q p : List String) (e1 e2 : LEdit),
      pathDisj (p ++ [leKey e1]) (q ++ [leKey e2]) = true →
      LEditWF e1 → LEditWF e2 →
      ∀ data, updateAt p (leApply e1) (updateAt q (leApply e2) data) =
        updateAt q (leApply e2) (updateAt p (leApply e1) data) := by
  intro q
  induction q with
  | nil =>
    intro p e1 e2 hdisj hwf1 hwf2 data
    rcases p with _ | ⟨x, p'⟩
    · exact leApply_comm e1 e2 hwf1 hwf2 (pathDisj_singleton _ _ hdisj) data
    · show updateAt (x :: p') (leApply e1) (leApply e2 data) =
        leApply e2 (updateAt (x :: p') (leApply e1) data)
      rw [updateAt, updateAt]
      have hkx : leKey e2 ≠ x :=
        pathDisj_single_right x (p' ++ [leKey e1]) (leKey e2) hdisj
      exact (leApply_modify_comm e2 hwf2 x
        (fun d => DNode.mk (nodeName d) (updateAt p' (leApply e1) (nodeChildren d)))
        (fun h => hkx h.symm) (fun e => rfl) data).symm
  | cons y q' ih =>
    intro p e1 e2 hdisj hwf1 hwf2 data
    rcases p with _ | ⟨x, p'⟩
    · show leApply e1 (updateAt (y :: q') (leApply e2) data) =
        updateAt (y :: q') (leApply e2) (leApply e1 data)
      rw [updateAt, updateAt]
      have hky : leKey e1 ≠ y :=
        pathDisj_single_left (leKey e1) y (q' ++ [leKey e2]) hdisj
      exact leApply_modify_comm e1 hwf1 y
        (fun d => DNode.mk (nodeName d) (updateAt q' (leApply e2) (nodeChildren d)))
        (fun h => hky h.symm) (fun e => rfl) data
    · by_cases hxy : x = y
      · subst hxy
        show updateAt (x :: p') (leApply e1) (updateAt (x :: q') (leApply e2) data) =
          updateAt (x :: q') (leApply e2) (updateAt (x :: p') (leApply e1) data)
        rw [updateAt, updateAt, updateAt, updateAt]
        rw [modifyName_modifyName data x
          (fun d => DNode.mk (nodeName d) (updateAt q' (leApply e2) (nodeChildren d)))
          (fun d => DNode.mk (nodeName d) (updateAt p' (leApply e1) (nodeChildren d)))
          (fun d => rfl)]
        rw [modifyName_modifyName data x
          (fun d => DNode.mk (nodeName d) (updateAt p' (leApply e1) (nodeChildren d)))
          (fun d => DNode.mk (nodeName d) (updateAt q' (leApply e2) (nodeChildren d)))
          (fun d => rfl)]
        apply modifyName_congr
        intro d
        show DNode.mk (nodeName d)
            (updateAt p' (leApply e1) (updateAt q' (leApply e2) (nodeChildren d))) =
          DNode.mk (nodeName d)
            (updateAt q' (leApply e2) (updateAt p' (leApply e1) (nodeChildren d)))
        have hdisj2 : pathDisj (p' ++ [leKey e1]) (q' ++ [leKey e2]) = true := by
          apply pathDisj_cons x
          show pathDisj (x :: (p' ++ [leKey e1])) (x :: (q' ++ [leKey e2])) = true
          rw [← List.cons_append, ← List.cons_append]
          exact hdisj
        rw [ih p' e1 e2 hdisj2 hwf1 hwf2 (nodeChildren d)]
      · show updateAt (x :: p') (leApply e1) (updateAt (y :: q') (leApply e2) data) =
          updateAt (y :: q') (leApply e2) (updateAt (x :: p') (leApply e1) data)
        rw [updateAt, updateAt, updateAt, updateAt]
        exact modifyName_comm data x y _ _ hxy (fun e => rfl) (fun e => rfl)

/-- Re-adding a stored `not-supported` original appends it to the child
chain at the target's parent (`lys_node_addchild`). -/
theorem step_appNS (d : Dev) (p : List String) (n : String) (o : DNode)
    (data l : List DNode) (htgt : d.target = p ++ [n]) (hns : d.notSupported = true)
    (horig : d.orig = some o) (hcat : cat p data = some l) :
    lys_switch_deviation d data =
      ({ d with orig := none }, updateAt p (fun l0 => l0 ++ [o]) data) := by
  obtain ⟨tgt, ns, og⟩ := d
  have htgt' : tgt = p ++ [n] := htgt
  have hns' : ns = true := hns
  have ho' : og = some o := horig
  subst htgt'
  subst hns'
  subst ho'
  rcases p with _ | ⟨x, p'⟩
  · rfl
  · have hdl : ((x :: p') ++ [n]).dropLast = x :: p' := List.dropLast_concat
    obtain ⟨nd, hres, hch⟩ := cat_resolve p' x data l hcat
    rw [lys_switch_deviation]
    show (if (((x :: p') ++ [n]).dropLast).isEmpty then
        ((⟨(x :: p') ++ [n], true, none⟩ : Dev), data ++ [o])
      else
        match resolvePath ((x :: p') ++ [n]).dropLast data with
        | none => ((⟨(x :: p') ++ [n], true, some o⟩ : Dev), data)
        | some _ =>
          ((⟨(x :: p') ++ [n], true, none⟩ : Dev),
            addAt ((x :: p') ++ [n]).dropLast o data)) =
      ((⟨(x :: p') ++ [n], true, none⟩ : Dev),
        updateAt (x :: p') (fun l0 => l0 ++ [o]) data)
    rw [hdl]
    show (match resolvePath (x :: p') data with
      | none => ((⟨(x :: p') ++ [n], true, some o⟩ : Dev), data)
      | some _ =>
        ((⟨(x :: p') ++ [n], true, none⟩ : Dev), addAt (x :: p') o data)) =
      ((⟨(x :: p') ++ [n], true, none⟩ : Dev),
        updateAt (x :: p') (fun l0 => l0 ++ [o]) data)
    rw [hres, addAt_eq_updateAt]

/-- Applying a `not-supported` deviation unlinks the target and stashes it. -/
theorem step_unaNS (d : Dev) (p : List String) (n : String) (t : DNode)
    (data l : List DNode) (htgt : d.target = p ++ [n]) (hns : d.notSupported = true)
    (horig : d.orig = none) (hcat : cat p data = some l)
    (hfind : findName l n = some t) :
    lys_switch_deviation d data =
      ({ d with orig := some t }, updateAt p (fun l0 => eraseName l0 n) data) := by
  obtain ⟨tgt, ns, og⟩ := d
  have htgt' : tgt = p ++ [n] := htgt
  have hns' : ns = true := hns
  have ho' : og = none := horig
  subst htgt'
  subst hns'
  subst ho'
  have hres : resolvePath (p ++ [n]) data = some t := by
    rw [resolvePath_eq_cat, hcat]
    exact hfind
  rw [lys_switch_deviation]
  show (match resolvePath (p ++ [n]) data with
    | none => ((⟨p ++ [n], true, none⟩ : Dev), data)
    | some t2 => ((⟨p ++ [n], true, some t2⟩ : Dev), removeAt (p ++ [n]) data)) =
    ((⟨p ++ [n], true, some t⟩ : Dev), updateAt p (fun l0 => eraseName l0 n) data)
  rw [hres, removeAt_eq_updateAt]

/-- A value deviate splices the stored original into the target's place and
stashes the removed node. -/
theorem step_val (d : Dev) (p : List String) (n : String) (o t : DNode)
    (data l : List DNode) (htgt : d.target = p ++ [n]) (hns : d.notSupported = false)
    (horig : d.orig = some o) (hcat : cat p data = some l)
    (hfind : findName l n = some t) :
    lys_switch_deviation d data =
      ({ d with orig := some t }, updateAt p (fun l0 => replaceName l0 n o) data) := by
  obtain ⟨tgt, ns, og⟩ := d
  have htgt' : tgt = p ++ [n] := htgt
  have hns' : ns = false := hns
  have ho' : og = some o := horig
  subst htgt'
  subst hns'
  subst ho'
  have hres : resolvePath (p ++ [n]) data = some t := by
    rw [resolvePath_eq_cat, hcat]
    exact hfind
  rw [lys_switch_deviation]
  show (match resolvePath (p ++ [n]) data, (some o : Option DNode) with
    | some t2, some o2 =>
      ((⟨p ++ [n], false, some t2⟩ : Dev), switchAt (p ++ [n]) o2 data)
    | _, _ => ((⟨p ++ [n], false, some o⟩ : Dev), data)) =
    ((⟨p ++ [n], false, some t⟩ : Dev), updateAt p (fun l0 => replaceName l0 n o) data)
  rw [hres]
  show ((⟨p ++ [n], false, some t⟩ : Dev), switchAt (p ++ [n]) o data) = _
  rw [switchAt_eq_updateAt]

/-- A deviation whose stored original is present: a `not-supported` deviation
in its applied state (original stashed, target name absent from the chain) or
a value deviate whose target resolves. -/
def Restorable (data : List DNode) (d : Dev) : Prop :=
  ∃ p n l o, d.target = p ++ [n] ∧ d.orig = some o ∧ nodeName o = n ∧
    cat p data = some l ∧
    ((d.notSupported = true ∧ findName l n = none) ∨
     (d.notSupported = false ∧ ∃ t, findName l n = some t))

/-- The state of a restorable deviation after one toggle: the second toggle
will unlink or splice by name. -/
def Phase2 (data : List DNode) (d : Dev) : Prop :=
  ∃ p n l, d.target = p ++ [n] ∧ cat p data = some l ∧
    ((d.notSupported = true ∧ d.orig = none ∧ ∃ t, findName l n = some t) ∨
     (d.notSupported = false ∧ ∃ o t, d.orig = some o ∧ nodeName o = n ∧
        findName l n = some t))

theorem Restorable_frame (data : List DNode) (d : Dev) (q : List String) (m : String)
    (f : List DNode → List DNode)
    (hdisj : pathDisj d.target (q ++ [m]) = true)
    (hf : ∀ l0 m', m' ≠ m → findName (f l0) m' = findName l0 m')
    (h : Restorable data d) : Restorable (updateAt q f data) d := by
  obtain ⟨p, n, l, o, htgt, horig, hname, hcat, hcase⟩ := h
  rw [htgt] at hdisj
  obtain ⟨l', hcat', hfind'⟩ := cat_frame q p n m f hdisj hf data l hcat
  refine ⟨p, n, l', o, htgt, horig, hname, hcat', ?_⟩
  rcases hcase with ⟨hns, hnone⟩ | ⟨hns, t, hsome⟩
  · exact Or.inl ⟨hns, by rw [hfind']; exact hnone⟩
  · exact Or.inr ⟨hns, t, by rw [hfind']; exact hsome⟩

theorem Phase2_frame (data : List DNode) (d : Dev) (q : List String) (m : String)
    (f : List DNode → List DNode)
    (hdisj : pathDisj d.target (q ++ [m]) = true)
    (hf : ∀ l0 m', m' ≠ m → findName (f l0) m' = findName l0 m')
    (h : Phase2 data d) : Phase2 (updateAt q f data) d := by
  obtain ⟨p, n, l, htgt, hcat, hcase⟩ := h
  rw [htgt] at hdisj
  obtain ⟨l', hcat', hfind'⟩ := cat_frame q p n m f hdisj hf data l hcat
  refine ⟨p, n, l', htgt, hcat', ?_⟩
  rcases hcase with ⟨hns, horig, t, hsome⟩ | ⟨hns, o, t, horig, hname, hsome⟩
  · exact Or.inl ⟨hns, horig, t, by rw [hfind']; exact hsome⟩
  · exact Or.inr ⟨hns, o, t, horig, hname, by rw [hfind']; exact hsome⟩

/-- An edit at a path disjoint from every deviation of a phase-2 run slides
past the whole run. -/
theorem run_swap (pE : List String) (e : LEdit) (hwf : LEditWF e) :
    ∀ (devs : List Dev) (X : List DNode),
      (∀ d ∈ devs, pathDisj d.target (pE ++ [leKey e]) = true) →
      (∀ d ∈ devs, Phase2 X d) →
      List.Pairwise (fun a b => pathDisj a.target b.target = true) devs →
      ∀ devs₂ Y, switchDevList devs X = (devs₂, Y) →
        switchDevList devs (updateAt pE (leApply e) X) =
          (devs₂, updateAt pE (leApply e) Y) := by
  intro devs
  induction devs with
  | nil =>
    intro X _ _ _ devs₂ Y hrun
    have h2 : (([] : List Dev), X) = (devs₂, Y) := hrun
    cases h2
    rfl
  | cons d rest ih =>
    intro X hdisj hP2 hpair devs₂ Y hrun
    have hdisjd : pathDisj d.target (pE ++ [leKey e]) = true :=
      hdisj d (List.mem_cons_self d rest)
    have hpairhead : ∀ d2 ∈ rest, pathDisj d.target d2.target = true :=
      (List.pairwise_cons.mp hpair).1
    have hpairrest := (List.pairwise_cons.mp hpair).2
    obtain ⟨p, n, l, htgt, hcat, hcase⟩ := hP2 d (List.mem_cons_self d rest)
    rcases hcase with ⟨hns, horig, t, hfind⟩ | ⟨hns, o, t, horig, hname, hfind⟩
    · -- second toggle of a not-supported deviation: unlink by name
      have hstep : lys_switch_deviation d X =
          ({ d with orig := some t }, updateAt p (fun l0 => eraseName l0 n) X) :=
        step_unaNS d p n t X l htgt hns horig hcat hfind
      rcases hrest : switchDevList rest
          (updateAt p (fun l0 => eraseName l0 n) X) with ⟨rest₂, Y₀⟩
      have hrun2 : (({ d with orig := some t } : Dev) :: rest₂, Y₀) = (devs₂, Y) := by
        rw [switchDevList, hstep] at hrun
        have h3 : (({ d with orig := some t } : Dev) ::
            (switchDevList rest (updateAt p (fun l0 => eraseName l0 n) X)).1,
            (switchDevList rest (updateAt p (fun l0 => eraseName l0 n) X)).2) =
            (devs₂, Y) := hrun
        rw [hrest] at h3
        exact h3
      cases hrun2
      have hdisjpn : pathDisj (p ++ [n]) (pE ++ [leKey e]) = true := by
        rw [htgt] at hdisjd
        exact hdisjd
      obtain ⟨l', hcat', hfind'⟩ := cat_frame pE p n (leKey e) (leApply e) hdisjpn
        (fun l0 m' hm' => leApply_findName e hwf l0 m' hm') X l hcat
      have hstepE : lys_switch_deviation d (updateAt pE (leApply e) X) =
          ({ d with orig := some t },
            updateAt p (fun l0 => eraseName l0 n) (updateAt pE (leApply e) X)) :=
        step_unaNS d p n t _ l' htgt hns horig hcat'
          (by rw [hfind']; exact hfind)
      have hcomm : updateAt p (fun l0 => eraseName l0 n) (updateAt pE (leApply e) X) =
          updateAt pE (leApply e) (updateAt p (fun l0 => eraseName l0 n) X) := by
        have := updateAt_comm pE p (.del n) e hdisjpn trivial hwf X
        rw [leApply_del] at this
        exact this
      have hP2rest : ∀ d2 ∈ rest, Phase2 (updateAt p (fun l0 => eraseName l0 n) X) d2 := by
        intro d2 hd2
        refine Phase2_frame X d2 p n _ ?_ (fun l0 m' hm' => findName_erase_ne l0 n m'
          (fun he => hm' he.symm)) (hP2 d2 (List.mem_cons_of_mem d hd2))
        rw [← htgt]
        rw [pathDisj_symm]
        exact hpairhead d2 hd2
      have hI := ih (updateAt p (fun l0 => eraseName l0 n) X)
        (fun d2 hd2 => hdisj d2 (List.mem_cons_of_mem d hd2)) hP2rest hpairrest
        rest₂ Y hrest
      rw [switchDevList, hstepE]
      show (({ d with orig := some t } : Dev) ::
          (switchDevList rest (updateAt p (fun l0 => eraseName l0 n)
            (updateAt pE (leApply e) X))).1,
          (switchDevList rest (updateAt p (fun l0 => eraseName l0 n)
            (updateAt pE (leApply e) X))).2) =
        (({ d with orig := some t } : Dev) :: rest₂, updateAt pE (leApply e) Y)
      rw [hcomm, hI]
    · -- second toggle of a value deviate: splice the stored original back
      have hstep : lys_switch_deviation d X =
          ({ d with orig := some t }, updateAt p (fun l0 => replaceName l0 n o) X) :=
        step_val d p n o t X l htgt hns horig hcat hfind
      rcases hrest : switchDevList rest
          (updateAt p (fun l0 => replaceName l0 n o) X) with ⟨rest₂, Y₀⟩
      have hrun2 : (({ d with orig := some t } : Dev) :: rest₂, Y₀) = (devs₂, Y) := by
        rw [switchDevList, hstep] at hrun
        have h3 : (({ d with orig := some t } : Dev) ::
            (switchDevList rest (updateAt p (fun l0 => replaceName l0 n o) X)).1,
            (switchDevList rest (updateAt p (fun l0 => replaceName l0 n o) X)).2) =
            (devs₂, Y) := hrun
        rw [hrest] at h3
        exact h3
      cases hrun2
      have hdisjpn : pathDisj (p ++ [n]) (pE ++ [leKey e]) = true := by
        rw [htgt] at hdisjd
        exact hdisjd
      obtain ⟨l', hcat', hfind'⟩ := cat_frame pE p n (leKey e) (leApply e) hdisjpn
        (fun l0 m' hm' => leApply_findName e hwf l0 m' hm') X l hcat
      have hstepE : lys_switch_deviation d (updateAt pE (leApply e) X) =
          ({ d with orig := some t },
            updateAt p (fun l0 => replaceName l0 n o) (updateAt pE (leApply e) X)) :=
        step_val d p n o t _ l' htgt hns horig hcat'
          (by rw [hfind']; exact hfind)
      have hcomm : updateAt p (fun l0 => replaceName l0 n o)
            (updateAt pE (leApply e) X) =
          updateAt pE (leApply e) (updateAt p (fun l0 => replaceName l0 n o) X) := by
        have := updateAt_comm pE p (.rep n o) e hdisjpn hname hwf X
        rw [leApply_rep] at this
        exact this
      have hP2rest : ∀ d2 ∈ rest,
          Phase2 (updateAt p (fun l0 => replaceName l0 n o) X) d2 := by
        intro d2 hd2
        refine Phase2_frame X d2 p n _ ?_ (fun l0 m' hm' => findName_replace_ne l0 n o m'
          (fun he => hm' he.symm) hname) (hP2 d2 (List.mem_cons_of_mem d hd2))
        rw [← htgt]
        rw [pathDisj_symm]
        exact hpairhead d2 hd2
      have hI := ih (updateAt p (fun l0 => replaceName l0 n o) X)
        (fun d2 hd2 => hdisj d2 (List.mem_cons_of_mem d hd2)) hP2rest hpairrest
        rest₂ Y hrest
      rw [switchDevList, hstepE]
      show (({ d with orig := some t } : Dev) ::
          (switchDevList rest (updateAt p (fun l0 => replaceName l0 n o)
            (updateAt pE (leApply e) X))).1,
          (switchDevList rest (updateAt p (fun l0 => replaceName l0 n o)
            (updateAt pE (leApply e) X))).2) =
        (({ d with orig := some t } : Dev) :: rest₂, updateAt pE (leApply e) Y)
      rw [hcomm, hI]

theorem mem_targets_of_map_eq (l1 l2 : List Dev)
    (h : l1.map Dev.target = l2.map Dev.target) :
    ∀ e ∈ l1, ∃ e2 ∈ l2, e.target = e2.target := by
  intro e he
  have h1 : e.target ∈ l1.map Dev.target := List.mem_map_of_mem Dev.target he
  rw [h] at h1
  obtain ⟨e2, he2, heq⟩ := List.mem_map.mp h1
  exact ⟨e2, he2, heq.symm⟩

theorem pairwise_targets_of_map_eq (l1 l2 : List Dev)
    (h : l1.map Dev.target = l2.map Dev.target)
    (hp : l2.Pairwise (fun a b => pathDisj a.target b.target = true)) :
    l1.Pairwise (fun a b => pathDisj a.target b.target = true) := by
  have h2 : (l2.map Dev.target).Pairwise (fun a b => pathDisj a b = true) :=
    List.pairwise_map.mpr hp
  rw [← h] at h2
  exact List.pairwise_map.mp h2

/-- Toggling a chain of pairwise-independent deviations whose stored
originals are present, twice, is the identity on the deviation states and on
the data tree. -/
theorem run_involution :
    ∀ (devs : List Dev) (data : List DNode),
      (∀ d ∈ devs, Restorable data d) →
      List.Pairwise (fun a b => pathDisj a.target b.target = true) devs →
      ∃ devs₁ data',
        switchDevList devs data = (devs₁, data') ∧
        switchDevList devs₁ data' = (devs, data) ∧
        devs₁.map Dev.target = devs.map Dev.target ∧
        (∀ d₁ ∈ devs₁, Phase2 data' d₁) ∧
        (∀ (P : List String) (N : String) (L : List DNode),
          (∀ d ∈ devs, pathDisj (P ++ [N]) d.target = true) →
          cat P data = some L →
          ∃ L', cat P data' = some L' ∧ findName L' N = findName L N) := by
  intro devs
  induction devs with
  | nil =>
    intro data _ _
    refine ⟨[], data, rfl, rfl, rfl, ?_, ?_⟩
    · intro d₁ h
      cases h
    · intro P N L _ h
      exact ⟨L, h, rfl⟩
  | cons d rest ih =>
    intro data hR hpair
    have hpairhead : ∀ d2 ∈ rest, pathDisj d.target d2.target = true :=
      (List.pairwise_cons.mp hpair).1
    have hpairrest := (List.pairwise_cons.mp hpair).2
    obtain ⟨p, n, l, o, htgt, horig, hname, hcat, hcase⟩ :=
      hR d (List.mem_cons_self d rest)
    rcases hcase with ⟨hns, hfnone⟩ | ⟨hns, t, hfsome⟩
    · -- applied not-supported deviation: re-add, then unlink again
      have hstep : lys_switch_deviation d data =
          ({ d with orig := none }, updateAt p (fun l0 => l0 ++ [o]) data) :=
        step_appNS d p n o data l htgt hns horig hcat
      have hkeyed : ∀ (l0 : List DNode) (m' : String), m' ≠ n →
          findName (l0 ++ [o]) m' = findName l0 m' := by
        intro l0 m' hm'
        refine findName_append_ne l0 o m' ?_
        rw [hname]
        intro he
        exact hm' he.symm
      have hRrest : ∀ e ∈ rest, Restorable (updateAt p (fun l0 => l0 ++ [o]) data) e := by
        intro e he
        refine Restorable_frame data e p n _ ?_ hkeyed (hR e (List.mem_cons_of_mem d he))
        rw [← htgt, pathDisj_symm]
        exact hpairhead e he
      obtain ⟨rest₁, data', ih1, ih2, ih3, ih4, ih5⟩ :=
        ih (updateAt p (fun l0 => l0 ++ [o]) data) hRrest hpairrest
      have hcatD : cat p (updateAt p (fun l0 => l0 ++ [o]) data) = some (l ++ [o]) :=
        cat_updateAt_self p _ data l hcat
      have hfindD : findName (l ++ [o]) n = some o := by
        rw [findName_append l [o] n hfnone]
        show (if nodeName o = n then some o else findName [] n) = some o
        rw [if_pos hname]
      have hdisjall : ∀ e ∈ rest, pathDisj (p ++ [n]) e.target = true := by
        intro e he
        rw [← htgt]
        exact hpairhead e he
      obtain ⟨l₁, hcat1, hfind1⟩ := ih5 p n (l ++ [o]) hdisjall hcatD
      have hfind1o : findName l₁ n = some o := by
        rw [hfind1]
        exact hfindD
      have hdev : ({ { d with orig := none } with orig := some o } : Dev) = d := by
        cases d with
        | mk tg nsb ogb =>
          have h0 : ogb = some o := horig
          rw [h0]
      have hstep2 : lys_switch_deviation { d with orig := none } data' =
          ({ { d with orig := none } with orig := some o },
            updateAt p (fun l0 => eraseName l0 n) data') :=
        step_unaNS { d with orig := none } p n o data' l₁ htgt hns rfl hcat1 hfind1o
      have hswap := run_swap p (.del n) trivial rest₁ data'
        (fun e₁ he₁ => by
          obtain ⟨e2, he2, heq⟩ := mem_targets_of_map_eq rest₁ rest ih3 e₁ he₁
          show pathDisj e₁.target (p ++ [n]) = true
          rw [heq, ← htgt, pathDisj_symm]
          exact hpairhead e2 he2)
        ih4 (pairwise_targets_of_map_eq rest₁ rest ih3 hpairrest)
        rest (updateAt p (fun l0 => l0 ++ [o]) data) ih2
      rw [leApply_del] at hswap
      have hundo : updateAt p (fun l0 => eraseName l0 n)
          (updateAt p (fun l0 => l0 ++ [o]) data) = data := by
        rw [updateAt_updateAt]
        refine updateAt_id p _ data l hcat ?_
        show eraseName (l ++ [o]) n = l
        rw [eraseName_append l [o] n hfnone]
        rw [show eraseName [o] n = [] from by rw [eraseName, if_pos hname]]
        rw [List.append_nil]
      refine ⟨{ d with orig := none } :: rest₁, data', ?_, ?_, ?_, ?_, ?_⟩
      · rw [switchDevList, hstep]
        show (({ d with orig := none } : Dev) ::
            (switchDevList rest (updateAt p (fun l0 => l0 ++ [o]) data)).1,
            (switchDevList rest (updateAt p (fun l0 => l0 ++ [o]) data)).2) = _
        rw [ih1]
      · rw [switchDevList, hstep2]
        show (({ { d with orig := none } with orig := some o } : Dev) ::
            (switchDevList rest₁ (updateAt p (fun l0 => eraseName l0 n) data')).1,
            (switchDevList rest₁ (updateAt p (fun l0 => eraseName l0 n) data')).2) =
          (d :: rest, data)
        rw [hswap, hdev, hundo]
      · rw [List.map_cons, List.map_cons, ih3]
      · intro d₁ hd₁
        rcases List.mem_cons.mp hd₁ with hd₁ | hd₁
        · subst hd₁
          exact ⟨p, n, l₁, htgt, hcat1, Or.inl ⟨hns, rfl, o, hfind1o⟩⟩
        · exact ih4 d₁ hd₁
      · intro P N L hdall hcatP
        obtain ⟨L₁, hcatP1, hfindP1⟩ := cat_frame p P N n _
          (by rw [← htgt]; exact hdall d (List.mem_cons_self d rest)) hkeyed data L hcatP
        obtain ⟨L', hcatP2, hfindP2⟩ := ih5 P N L₁
          (fun e he => hdall e (List.mem_cons_of_mem d he)) hcatP1
        refine ⟨L', hcatP2, ?_⟩
        rw [hfindP2, hfindP1]
    · -- value deviate: splice the original in, then splice the target back
      have hstep : lys_switch_deviation d data =
          ({ d with orig := some t }, updateAt p (fun l0 => replaceName l0 n o) data) :=
        step_val d p n o t data l htgt hns horig hcat hfsome
      have hnamet : nodeName t = n := findName_some_name l n t hfsome
      have hkeyed : ∀ (l0 : List DNode) (m' : String), m' ≠ n →
          findName (replaceName l0 n o) m' = findName l0 m' := by
        intro l0 m' hm'
        exact findName_replace_ne l0 n o m' (fun he => hm' he.symm) hname
      have hRrest : ∀ e ∈ rest,
          Restorable (updateAt p (fun l0 => replaceName l0 n o) data) e := by
        intro e he
        refine Restorable_frame data e p n _ ?_ hkeyed (hR e (List.mem_cons_of_mem d he))
        rw [← htgt, pathDisj_symm]
        exact hpairhead e he
      obtain ⟨rest₁, data', ih1, ih2, ih3, ih4, ih5⟩ :=
        ih (updateAt p (fun l0 => replaceName l0 n o) data) hRrest hpairrest
      have hcatD : cat p (updateAt p (fun l0 => replaceName l0 n o) data) =
          some (replaceName l n o) := cat_updateAt_self p _ data l hcat
      have hfindD : findName (replaceName l n o) n = some o :=
        findName_replaceName l n t o hfsome hname
      have hdisjall : ∀ e ∈ rest, pathDisj (p ++ [n]) e.target = true := by
        intro e he
        rw [← htgt]
        exact hpairhead e he
      obtain ⟨l₁, hcat1, hfind1⟩ := ih5 p n (replaceName l n o) hdisjall hcatD
      have hfind1o : findName l₁ n = some o := by
        rw [hfind1]
        exact hfindD
      have hdev : ({ { d with orig := some t } with orig := some o } : Dev) = d := by
        cases d with
        | mk tg nsb ogb =>
          have h0 : ogb = some o := horig
          rw [h0]
      have hstep2 : lys_switch_deviation { d with orig := some t } data' =
          ({ { d with orig := some t } with orig := some o },
            updateAt p (fun l0 => replaceName l0 n t) data') :=
        step_val { d with orig := some t } p n t o data' l₁ htgt hns rfl hcat1 hfind1o
      have hswap := run_swap p (.rep n t) hnamet rest₁ data'
        (fun e₁ he₁ => by
          obtain ⟨e2, he2, heq⟩ := mem_targets_of_map_eq rest₁ rest ih3 e₁ he₁
          show pathDisj e₁.target (p ++ [n]) = true
          rw [heq, ← htgt, pathDisj_symm]
          exact hpairhead e2 he2)
        ih4 (pairwise_targets_of_map_eq rest₁ rest ih3 hpairrest)
        rest (updateAt p (fun l0 => replaceName l0 n o) data) ih2
      rw [leApply_rep] at hswap
      have hundo : updateAt p (fun l0 => replaceName l0 n t)
          (updateAt p (fun l0 => replaceName l0 n o) data) = data := by
        rw [updateAt_updateAt]
        refine updateAt_id p _ data l hcat ?_
        show replaceName (replaceName l n o) n t = l
        rw [replaceName_replaceName l n t o t hfsome hname]
        exact replaceName_self l n t hfsome
      refine ⟨{ d with orig := some t } :: rest₁, data', ?_, ?_, ?_, ?_, ?_⟩
      · rw [switchDevList, hstep]
        show (({ d with orig := some t } : Dev) ::
            (switchDevList rest (updateAt p (fun l0 => replaceName l0 n o) data)).1,
            (switchDevList rest (updateAt p (fun l0 => replaceName l0 n o) data)).2) = _
        rw [ih1]
      · rw [switchDevList, hstep2]
        show (({ { d with orig := some t } with orig := some o } : Dev) ::
            (switchDevList rest₁ (updateAt p (fun l0 => replaceName l0 n t) data')).1,
            (switchDevList rest₁ (updateAt p (fun l0 => replaceName l0 n t) data')).2) =
          (d :: rest, data)
        rw [hswap, hdev, hundo]
      · rw [List.map_cons, List.map_cons, ih3]
      · intro d₁ hd₁
        rcases List.mem_cons.mp hd₁ with hd₁ | hd₁
        · subst hd₁
          exact ⟨p, n, l₁, htgt, hcat1, Or.inr ⟨hns, t, o, rfl, hnamet, hfind1o⟩⟩
        · exact ih4 d₁ hd₁
      · intro P N L hdall hcatP
        obtain ⟨L₁, hcatP1, hfindP1⟩ := cat_frame p P N n _
          (by rw [← htgt]; exact hdall d (List.mem_cons_self d rest)) hkeyed data L hcatP
        obtain ⟨L', hcatP2, hfindP2⟩ := ih5 P N L₁
          (fun e he => hdall e (List.mem_cons_of_mem d he)) hcatP1
        refine ⟨L', hcatP2, ?_⟩
        rw [hfindP2, hfindP1]

theorem switchDevList_append :
    ∀ (l1 l2 : List Dev) (data : List DNode),
      switchDevList (l1 ++ l2) data =
        ((switchDevList l1 data).1 ++ (switchDevList l2 (switchDevList l1 data).2).1,
          (switchDevList l2 (switchDevList l1 data).2).2) := by
  intro l1
  induction l1 with
  | nil =>
    intro l2 data
    rfl
  | cons d r ih =>
    intro l2 data
    have h1 : switchDevList ((d :: r) ++ l2) data =
        ((lys_switch_deviation d data).1 ::
            (switchDevList (r ++ l2) (lys_switch_deviation d data).2).1,
          (switchDevList (r ++ l2) (lys_switch_deviation d data).2).2) := rfl
    have h2 : switchDevList (d :: r) data =
        ((lys_switch_deviation d data).1 ::
            (switchDevList r (lys_switch_deviation d data).2).1,
          (switchDevList r (lys_switch_deviation d data).2).2) := rfl
    rw [h1, h2, ih l2 (lys_switch_deviation d data).2]
    rfl

theorem switchDevList_len :
    ∀ (l : List Dev) (data : List DNode), (switchDevList l data).1.length = l.length := by
  intro l
  induction l with
  | nil =>
    intro data
    rfl
  | cons d r ih =>
    intro data
    show ((lys_switch_deviation d data).1 ::
        (switchDevList r (lys_switch_deviation d data).2).1).length = r.length + 1
    rw [List.length_cons, ih]

/-- Regroup a flat list into pieces whose lengths follow the given grouping. -/
def splitLike {α β : Type} : List (List α) → List β → List (List β)
  | [], _ => []
  | g :: gs, l => l.take g.length :: splitLike gs (l.drop g.length)

theorem splitLike_join {α : Type} :
    ∀ gs : List (List α), splitLike gs gs.join = gs := by
  intro gs
  induction gs with
  | nil => rfl
  | cons g rest ih =>
    show (g ++ rest.join).take g.length :: splitLike rest ((g ++ rest.join).drop g.length) =
      g :: rest
    rw [List.take_left, List.drop_left, ih]

theorem splitLike_lengths {α β : Type} :
    ∀ (gs : List (List α)) (l : List β), l.length = gs.join.length →
      (splitLike gs l).map List.length = gs.map List.length := by
  intro gs
  induction gs with
  | nil =>
    intro l _
    rfl
  | cons g rest ih =>
    intro l h
    have hj : ((g :: rest).join : List α).length = g.length + rest.join.length := by
      rw [show ((g :: rest).join : List α) = g ++ rest.join from rfl, List.length_append]
    rw [hj] at h
    show (l.take g.length).length :: (splitLike rest (l.drop g.length)).map List.length =
      g.length :: rest.map List.length
    rw [List.length_take, ih (l.drop g.length) (by rw [List.length_drop]; omega)]
    have hmin : min g.length l.length = g.length := by omega
    rw [hmin]

theorem splitLike_congr {α γ β : Type} :
    ∀ (gs1 : List (List α)) (gs2 : List (List γ)),
      gs1.map List.length = gs2.map List.length →
      ∀ l : List β, splitLike gs1 l = splitLike gs2 l := by
  intro gs1
  induction gs1 with
  | nil =>
    intro gs2 h l
    cases gs2 with
    | nil => rfl
    | cons g r => cases h
  | cons g1 r1 ih =>
    intro gs2 h l
    cases gs2 with
    | nil => cases h
    | cons g2 r2 =>
      rw [List.map_cons, List.map_cons] at h
      injection h with h1 h2
      show l.take g1.length :: splitLike r1 (l.drop g1.length) =
        l.take g2.length :: splitLike r2 (l.drop g2.length)
      rw [h1, ih r2 h2 (l.drop g2.length)]

theorem joinSplit {α β : Type} :
    ∀ (gs : List (List α)) (l : List β), l.length = gs.join.length →
      (splitLike gs l).join = l := by
  intro gs
  induction gs with
  | nil =>
    intro l h
    have h0 : l = [] := List.length_eq_zero.mp h
    rw [h0]
    rfl
  | cons g rest ih =>
    intro l h
    have hj : ((g :: rest).join : List α).length = g.length + rest.join.length := by
      rw [show ((g :: rest).join : List α) = g ++ rest.join from rfl, List.length_append]
    rw [hj] at h
    show l.take g.length ++ (splitLike rest (l.drop g.length)).join = l
    rw [ih (l.drop g.length) (by rw [List.length_drop]; omega), List.take_append_drop]

/-- Running the deviation arrays of all via-deviation imports in order is the
run of their concatenation, with the states regrouped. -/
theorem switchDevLists_eq_join :
    ∀ (dss : List (List Dev)) (data : List DNode),
      switchDevLists dss data =
        (splitLike dss (switchDevList dss.join data).1, (switchDevList dss.join data).2) := by
  intro dss
  induction dss with
  | nil =>
    intro data
    rfl
  | cons ds rest ih =>
    intro data
    have h1 : switchDevLists (ds :: rest) data =
        ((switchDevList ds data).1 :: (switchDevLists rest (switchDevList ds data).2).1,
          (switchDevLists rest (switchDevList ds data).2).2) := rfl
    have hj : ((ds :: rest).join : List Dev) = ds ++ rest.join := rfl
    rw [h1, ih (switchDevList ds data).2, hj, switchDevList_append ds rest.join data]
    have h2 : splitLike (ds :: rest)
        ((switchDevList ds data).1 ++
          (switchDevList rest.join (switchDevList ds data).2).1) =
        ((switchDevList ds data).1 ++
            (switchDevList rest.join (switchDevList ds data).2).1).take ds.length ::
          splitLike rest
            (((switchDevList ds data).1 ++
              (switchDevList rest.join (switchDevList ds data).2).1).drop ds.length) := rfl
    rw [h2, show ds.length = (switchDevList ds data).1.length from
      (switchDevList_len ds data).symm, List.take_left, List.drop_left]

/-- Whole-module involution: when every deviation of every via-deviation
array has its stored original present and resolvable and the targets are
pairwise independent, two runs of `lys_switch_deviations` restore the module
exactly. -/
theorem switch_deviations_involutive (M : DevModule)
    (hR : ∀ d ∈ M.extDevs.join, Restorable M.data d)
    (hp : M.extDevs.join.Pairwise (fun a b => pathDisj a.target b.target = true)) :
    lys_switch_deviations (lys_switch_deviations M) = M := by
  obtain ⟨data, flag, dss⟩ := M
  obtain ⟨D1, data', h1, h2, h3, _, _⟩ := run_involution dss.join data hR hp
  have hX : switchDevLists dss data = (splitLike dss D1, data') := by
    rw [switchDevLists_eq_join, h1]
  have hD : (switchDevList dss.join data).1 = D1 := by rw [h1]
  have hlen : D1.length = dss.join.length := by
    rw [← hD, switchDevList_len]
  have hjoin : (splitLike dss D1).join = D1 := joinSplit dss D1 (by rw [hlen])
  have hY : switchDevLists (splitLike dss D1) data' = (dss, data) := by
    rw [switchDevLists_eq_join, hjoin, h2]
    rw [splitLike_congr (splitLike dss D1) dss (splitLike_lengths dss D1 (by rw [hlen]))
      dss.join, splitLike_join]
  have hflag : (if (splitLike dss D1).isEmpty then (if dss.isEmpty then flag else !flag)
      else !(if dss.isEmpty then flag else !flag)) = flag := by
    cases dss with
    | nil => rfl
    | cons g gs => cases flag <;> rfl
  have hs1 : lys_switch_deviations ⟨data, flag, dss⟩ =
      ⟨data', (if dss.isEmpty then flag else !flag), splitLike dss D1⟩ := by
    show (⟨(switchDevLists dss data).2, if dss.isEmpty then flag else !flag,
      (switchDevLists dss data).1⟩ : DevModule) = _
    rw [hX]
  have hs2 : lys_switch_deviations
      ⟨data', (if dss.isEmpty then flag else !flag), splitLike dss D1⟩ =
      ⟨data, flag, dss⟩ := by
    show (⟨(switchDevLists (splitLike dss D1) data').2,
      if (splitLike dss D1).isEmpty then (if dss.isEmpty then flag else !flag)
        else !(if dss.isEmpty then flag else !flag),
      (switchDevLists (splitLike dss D1) data').1⟩ : DevModule) = _
    rw [hY, hflag]
  rw [hs1, hs2]

/-- **C5.**  (1) For a module whose import table has at least one entry
flagged `external == 2` (a via-deviation import), each
`lys_switch_deviations` application flips the `deviated` flag.  (2) Whenever
every deviation of every such import has its stored original node present
(`orig_node` for an applied `not-supported` deviation, the original target
for a value deviate), its target path resolvable, and the target paths are
pairwise independent (neither a prefix of the other), applying
`lys_switch_deviations` twice is the identity on the whole module state —
this covers nested targets such as `/C:c/l` and arbitrarily many deviations.
(3) Amended from the original claim: starting from the *unapplied* state of
a `not-supported` deviation — stored original absent, target still present —
the double application removes the target from its parent's child chain and
re-appends it at the end (`lys_node_addchild` links new children last), so
the parent's chain is restored only up to sibling order: the result is the
erase-then-append rewrite at the parent path, a permutation of the prior
chain rather than the chain itself. -/
theorem C5_switch_deviations :
    (∀ M : DevModule, M.extDevs ≠ [] →
      (lys_switch_deviations M).deviated = !M.deviated) ∧
    (∀ M : DevModule,
      (∀ d ∈ M.extDevs.join, Restorable M.data d) →
      M.extDevs.join.Pairwise (fun a b => pathDisj a.target b.target = true) →
      lys_switch_deviations (lys_switch_deviations M) = M) ∧
    (∀ (data : List DNode) (flag : Bool) (d : Dev) (p : List String) (n : String)
        (l : List DNode) (t : DNode),
      d.target = p ++ [n] → d.notSupported = true → d.orig = none →
      cat p data = some l → findName l n = some t →
      lys_switch_deviations (lys_switch_deviations ⟨data, flag, [[d]]⟩) =
        ⟨updateAt p (fun l0 => eraseName l0 n ++ [t]) data, flag, [[d]]⟩ ∧
      List.Perm (eraseName l n ++ [t]) l) := by
  refine ⟨?_, ?_, ?_⟩
  · intro M hne
    show (if M.extDevs.isEmpty then M.deviated else !M.deviated) = !M.deviated
    rcases hE : M.extDevs with _ | ⟨ds, rest⟩
    · exact absurd hE hne
    · rfl
  · intro M hR hp
    exact switch_deviations_involutive M hR hp
  · intro data flag d p n l t htgt hns horig hcat hfind
    have hnamet : nodeName t = n := findName_some_name l n t hfind
    have e1 := step_unaNS d p n t data l htgt hns horig hcat hfind
    have hcat2 : cat p (updateAt p (fun l0 => eraseName l0 n) data) =
        some (eraseName l n) := cat_updateAt_self p _ data l hcat
    have e2 := step_appNS { d with orig := some t } p n t
      (updateAt p (fun l0 => eraseName l0 n) data) (eraseName l n) htgt hns rfl hcat2
    have hdev : ({ { d with orig := some t } with orig := none } : Dev) = d := by
      cases d with
      | mk tg nsb ogb =>
        have h0 : ogb = none := horig
        rw [h0]
    constructor
    · rw [switch_devs_single _ _ _ _ flag e1, switch_devs_single _ _ _ _ (!flag) e2,
        Bool.not_not, hdev, updateAt_updateAt]
    · exact (List.perm_append_singleton t (eraseName l n)).trans
        (findName_perm_erase l n t hfind).symm

theorem C5_switch_deviations_witness :
    (lys_switch_deviations
        (⟨[DNode.mk "c" [DNode.mk "k" []], DNode.mk "v" []], true,
          [[⟨["c", "l"], true, some (DNode.mk "l" [])⟩],
            [⟨["v"], false, some (DNode.mk "v" [DNode.mk "w" []])⟩]]⟩ :
          DevModule)).deviated = false ∧
    lys_switch_deviations (lys_switch_deviations
        ⟨[DNode.mk "c" [DNode.mk "k" []], DNode.mk "v" []], true,
          [[⟨["c", "l"], true, some (DNode.mk "l" [])⟩],
            [⟨["v"], false, some (DNode.mk "v" [DNode.mk "w" []])⟩]]⟩) =
      ⟨[DNode.mk "c" [DNode.mk "k" []], DNode.mk "v" []], true,
        [[⟨["c", "l"], true, some (DNode.mk "l" [])⟩],
          [⟨["v"], false, some (DNode.mk "v" [DNode.mk "w" []])⟩]]⟩ ∧
    lys_switch_deviations (lys_switch_deviations
        ⟨[DNode.mk "c" [DNode.mk "l" [], DNode.mk "k" []]], true,
          [[⟨["c", "l"], true, none⟩]]⟩) =
      ⟨updateAt ["c"] (fun l0 => eraseName l0 "l" ++ [DNode.mk "l" []])
          [DNode.mk "c" [DNode.mk "l" [], DNode.mk "k" []]], true,
        [[⟨["c", "l"], true, none⟩]]⟩ ∧
    List.Perm (eraseName [DNode.mk "l" [], DNode.mk "k" []] "l" ++ [DNode.mk "l" []])
      [DNode.mk "l" [], DNode.mk "k" []] := by
  refine ⟨?_, ?_, ?_, ?_⟩
  · exact C5_switch_deviations.1
      ⟨[DNode.mk "c" [DNode.mk "k" []], DNode.mk "v" []], true,
        [[⟨["c", "l"], true, some (DNode.mk "l" [])⟩],
          [⟨["v"], false, some (DNode.mk "v" [DNode.mk "w" []])⟩]]⟩
      (List.cons_ne_nil _ _)
  · refine C5_switch_deviations.2.1
      ⟨[DNode.mk "c" [DNode.mk "k" []], DNode.mk "v" []], true,
        [[⟨["c", "l"], true, some (DNode.mk "l" [])⟩],
          [⟨["v"], false, some (DNode.mk "v" [DNode.mk "w" []])⟩]]⟩ ?_ ?_
    · intro e he
      cases he with
      | head =>
        exact ⟨["c"], "l", [DNode.mk "k" []], DNode.mk "l" [], rfl, rfl, rfl, rfl,
          Or.inl ⟨rfl, rfl⟩⟩
      | tail _ h2 =>
        cases h2 with
        | head =>
          exact ⟨[], "v", [DNode.mk "c" [DNode.mk "k" []], DNode.mk "v" []],
            DNode.mk "v" [DNode.mk "w" []], rfl, rfl, rfl, rfl,
            Or.inr ⟨rfl, DNode.mk "v" [], rfl⟩⟩
        | tail _ h3 => cases h3
    · refine List.Pairwise.cons ?_ (List.Pairwise.cons ?_ List.Pairwise.nil)
      · intro b hb
        cases hb with
        | head => rfl
        | tail _ h3 => cases h3
      · intro b hb
        cases hb
  · exact (C5_switch_deviations.2.2 [DNode.mk "c" [DNode.mk "l" [], DNode.mk "k" []]]
      true ⟨["c", "l"], true, none⟩ ["c"] "l" [DNode.mk "l" [], DNode.mk "k" []]
      (DNode.mk "l" []) rfl rfl rfl rfl rfl).1
  · exact (C5_switch_deviations.2.2 [DNode.mk "c" [DNode.mk "l" [], DNode.mk "k" []]]
      true ⟨["c", "l"], true, none⟩ ["c"] "l" [DNode.mk "l" [], DNode.mk "k" []]
      (DNode.mk "l" []) rfl rfl rfl rfl rfl).2

end Libyang
